import Mathlib

/-!
# Gentee: compiler front end and run entry point

A shallow embedding of `compiler/compiler.go`, `core/workspace.go`,
`core/core.go` (`Lex.LineColumn`), `vm/int.go` and `stdlib/process.go` (`args`).

Conventions of the embedding.

* Go maps with string keys are association lists (`GoMap`); a lookup is
  `mapGet`, an assignment `m[k] = v` is `mapSet`.
* A `*core.CmdBlock` is an index into the heap of blocks `compiler.blocks`
  (`none` is the nil pointer); an `IObject` held by the workspace is an index
  into `Workspace.Objects`.
* A function returns `none` when the Go code does not return normally: a
  runtime panic (index out of range, failed type assertion, nil dereference)
  or a loop that runs out of fuel.
* Constants, tables and callbacks of the package that are not part of the
  listed sources are fields of `Consts` and `Env`.
* A Go string read byte by byte (`args`) is the list of its bytes; an `int64`
  is an `Int`, and `wrap64` brings an exact result back into the range.
-/

set_option autoImplicit false
set_option linter.dupNamespace false

namespace Gentee

/-! ## Go maps -/

/-- A Go map with string keys. -/
abbrev GoMap (β : Type) := List (String × β)

/-- The lookup `v, ok := m[k]`. -/
def mapGet {β : Type} (m : GoMap β) (k : String) : Option β :=
  match m with
  | [] => none
  | (k1, v) :: rest => if k1 = k then some v else mapGet rest k

/-- The builtin `delete(m, k)`. -/
def mapDel {β : Type} (m : GoMap β) (k : String) : GoMap β :=
  m.filter (fun e => decide (e.1 ≠ k))

/-- The assignment `m[k] = v`. -/
def mapSet {β : Type} (m : GoMap β) (k : String) (v : β) : GoMap β :=
  (k, v) :: mapDel m k

/-! ## core: tokens, types, objects, units, workspace -/

/-- The constant `core.Undefined`. -/
def Undefined : Int := -1

/-- The constant `core.StackWhile` (fourth of the iota block of core.go). -/
def StackWhile : Nat := 4

/-- The constant `core.CtStack` of `CmdType`. -/
def CtStack : Nat := 4

/-- The constant `core.DefName`. -/
def DefName : String := "stdlib"

/-- A `core.Token`. -/
structure Token where
  Type_ : Nat
  Offset : Nat
  Length : Nat
deriving DecidableEq, Repr

/-- A `core.Lex`, with the `Path` field that `Compile` assigns. -/
structure Lex where
  Source : List Char
  Tokens : List Token
  Lines : List Nat
  Path : String
deriving DecidableEq, Repr

/-- The `reflect.Type` stored in `TypeObject.Original`. -/
inductive GoType where
  | array
  | map
  | fn
  | other (name : String)
deriving DecidableEq, Repr

/-- The parameters and the result of a function type (`TypeObject.Func`), as
pointers to type objects. -/
structure FuncSig where
  Params : List (Option Nat)
  Result : Option Nat
deriving DecidableEq, Repr

/-- A `core.TypeObject`; `IndexOf` and the types of `Func` point into
`Workspace.Objects`. -/
structure TypeObject where
  Name : String
  Original : GoType
  IndexOf : Option Nat
  Func : Option FuncSig
deriving DecidableEq, Repr

/-- A `core.FuncObject`; `Block` points into the heap of blocks. -/
structure FuncObject where
  Name : String
  Block : Nat
deriving DecidableEq, Repr

/-- An `IObject` of the workspace. -/
inductive IObject where
  | typeObj (t : TypeObject)
  | funcObj (f : FuncObject)
  | otherObj (name : String)
deriving DecidableEq, Repr

/-- A `core.Unit` (the back pointer `VM` is the workspace that holds it). -/
structure Unit where
  Index : Nat
  NameSpace : GoMap Nat
  Included : List (Nat × Bool)
  Lexeme : Lex
  RunID : Int
  Name : String
  Pub : Int
deriving DecidableEq, Repr

/-- A `core.Workspace`. -/
structure Workspace where
  Units : List Unit
  UnitNames : GoMap Int
  Objects : List IObject
  Linked : GoMap Int
  IotaID : Int
deriving DecidableEq, Repr

/-- The method `Workspace.InitUnit`. -/
def InitUnit : Unit :=
  { Index := 0, NameSpace := [], Included := [],
    Lexeme := { Source := [], Tokens := [], Lines := [], Path := "" },
    RunID := Undefined, Name := "", Pub := 0 }

/-- The method `Workspace.Unit`: `ws.Units[ws.UnitNames[name]]`; a missing
name reads as index 0, an index out of range panics. -/
def Workspace.Unit (ws : Workspace) (name : String) : Option Gentee.Unit :=
  match mapGet ws.UnitNames name with
  | some i => if 0 ≤ i then ws.Units[i.toNat]? else none
  | none => ws.Units[0]?

/-- The method `Workspace.StdLib`. -/
def Workspace.StdLib (ws : Workspace) : Option Gentee.Unit :=
  ws.Unit DefName

/-! ## core: commands and blocks -/

/-- An `ICmd`: a block is held by pointer, the other commands by value (of
their fields only the token is kept, and what the functions below read). -/
inductive ICmd where
  | value (TokenID : Nat)
  | var (TokenID : Nat) (Block : Nat) (Index : Nat)
  | const (TokenID : Nat)
  | block (ptr : Nat)
  | unary (TokenID : Nat)
  | binary (TokenID : Nat)
  | anyFunc (TokenID : Nat)
  | command (TokenID : Nat) (ID : Nat)
deriving DecidableEq, Repr

/-- The method `ICmd.GetType`: the constants `CtValue` to `CtFunc` of core.go,
and for a `CmdCommand` the next value of that iota block. -/
def ICmd.GetType : ICmd → Nat
  | .value _ => 1
  | .var _ _ _ => 2
  | .const _ => 3
  | .block _ => CtStack
  | .unary _ => 5
  | .binary _ => 6
  | .anyFunc _ => 7
  | .command _ _ => 8

/-- A `core.CmdBlock`. -/
structure CmdBlock where
  TokenID : Nat
  Parent : Option Nat
  ID : Nat
  Vars : List (Option Nat)
  ParCount : Nat
  VarNames : GoMap Nat
  Optional : GoMap Nat
  Variadic : Bool
  Result : Option Nat
  Children : List ICmd
deriving DecidableEq, Repr

/-- The method `CmdVar.GetResult`: `cmd.Block.Vars[cmd.Index]`, the type of
the variable (a pointer to a type object, possibly nil); a command that is not
a `CmdVar` has other methods. -/
def CmdVarGetResult (blocks : List CmdBlock) (cmd : ICmd) : Option (Option Nat) :=
  match cmd with
  | .var _ block index =>
    match blocks[block]? with
    | none => none
    | some b => b.Vars[index]?
  | _ => none

/-! ## compiler: state -/

/-- An error built by `cmpl.Error` or `cmpl.ErrorPos`. -/
structure CompError where
  ID : Nat
  Pos : Int
  Pars : List String
deriving DecidableEq, Repr

/-- A `cmState`, an entry of the compile table; `Func` and `Callback` name a
callback of `Env.funcs` (`none` is nil). -/
structure cmState where
  Token : Nat
  State : Nat
  Func : Option Nat
  Callback : Option Nat
  Flags : Nat
deriving DecidableEq, Repr

/-- A `StateStack` frame. -/
structure StateStack where
  Origin : cmState
  Pos : Int
  State : Nat
deriving DecidableEq, Repr

/-- An `ExpBuf`. -/
structure ExpBuf where
  Oper : Nat
  Pos : Nat
  LenExp : Nat
deriving DecidableEq, Repr

/-- The `compiler` struct. `ws` is the workspace behind the pointer `cmpl.ws`
(and behind `cmpl.unit.VM`), `unit` the unit behind `cmpl.unit`, `states` the
slice behind the pointer `cmpl.states` (the `stackState` of `Compile`),
`blocks` the heap of the `CmdBlock` structs. -/
structure compiler where
  ws : Workspace
  unit : Unit
  blocks : List CmdBlock
  owners : List ICmd
  exp : List ICmd
  expbuf : List ExpBuf
  lexems : List Nat
  runID : Int
  pos : Int
  newPos : Int
  states : List StateStack
  curType : Option Nat
  curOptional : Bool
  curConst : String
  curFunc : Int
  curIota : Int
  inits : Int
  endColon : Int
  isImport : Bool
  next : cmState
  dynamic : Option cmState
deriving DecidableEq, Repr

/-- The constants of the packages `compiler` and `core` that the listed
sources use without declaring them. -/
structure Consts where
  tkColon : Nat
  tkIdent : Nat
  tkLPar : Nat
  tkType : Nat
  tkLine : Nat
  tkAdd : Nat
  tkComma : Nat
  tkLSBracket : Nat
  tkLCurly : Nat
  tkRCurly : Nat
  cmMain : Nat
  cmBody : Nat
  cmExp : Nat
  cmExpOper : Nat
  cmBack : Nat
  cfStay : Nat
  cfStopBack : Nat
  NotIota : Int
  StackFor : Nat
  StackCase : Nat
  StackDefault : Nat
  RcBreak : Nat
  RcContinue : Nat
  ErrEmptyCode : Nat
  ErrEnd : Nat
  ErrCompiler : Nat
  ErrType : Nat
  ErrUsedName : Nat
  ErrCapitalLetters : Nat
  ErrIdent : Nat
  ErrBreak : Nat
  ErrContinue : Nat
  ErrDoubleColon : Nat
  ErrOptional : Nat
deriving DecidableEq, Repr

/-- Modelled from the spec: `cmpl.ErrorPos`, which is not in the listed
sources; every error is positioned at a token and carries its parameters. -/
def ErrorPos (pos : Int) (id : Nat) (pars : List String) : CompError :=
  { ID := id, Pos := pos, Pars := pars }

/-- Modelled from the spec: `cmpl.Error`, which is not in the listed sources;
the error is positioned at the current token. -/
def compiler.Error (cmpl : compiler) (id : Nat) (pars : List String) : CompError :=
  ErrorPos cmpl.pos id pars

/-! ## compiler: blocks and scopes -/

/-- The method `curOwner`: the last owner, asserted to be a block. -/
def curOwner (cmpl : compiler) : Option Nat :=
  match cmpl.owners.getLast? with
  | some (.block p) => some p
  | _ => none

/-- The assignment `cmd.(*core.CmdBlock).Parent = owner` of `appendCmd`, done
when `cmd.GetType() == core.CtStack`. -/
def setParent (blocks : List CmdBlock) (cmd : ICmd) (owner : Nat) : Option (List CmdBlock) :=
  if cmd.GetType = CtStack then
    match cmd with
    | .block q =>
      match blocks[q]? with
      | none => none
      | some b => some (blocks.set q { b with Parent := some owner })
    | _ => none
  else some blocks

/-- The function `appendCmd`. -/
def appendCmd (cmpl : compiler) (cmd : ICmd) : Option compiler :=
  match curOwner cmpl with
  | none => none
  | some p =>
    match setParent cmpl.blocks cmd p with
    | none => none
    | some blocks1 =>
      match blocks1[p]? with
      | none => none
      | some owner =>
        some { cmpl with
          blocks := blocks1.set p { owner with Children := owner.Children ++ [cmd] } }

/-- The loop of `isInLoop` over the owners; the `ID` of an owner is read
through its pointer. -/
def isInLoopFrom (K : Consts) (blocks : List CmdBlock) (incase : Bool) :
    List ICmd → Option Bool
  | [] => some false
  | item :: rest =>
    if item.GetType = CtStack then
      match item with
      | .block p =>
        match blocks[p]? with
        | none => none
        | some b =>
          if b.ID = StackWhile ∨ b.ID = K.StackFor ∨
              (incase = true ∧ (b.ID = K.StackCase ∨ b.ID = K.StackDefault)) then
            some true
          else isInLoopFrom K blocks incase rest
      | _ => none
    else isInLoopFrom K blocks incase rest

/-- The function `isInLoop`. -/
def isInLoop (K : Consts) (cmpl : compiler) (incase : Bool) : Option Bool :=
  isInLoopFrom K cmpl.blocks incase cmpl.owners

/-- The function `coBreak`: the state after the call and the error. -/
def coBreak (K : Consts) (cmpl : compiler) : Option (compiler × Option CompError) :=
  match isInLoop K cmpl true with
  | none => none
  | some false => some (cmpl, some (cmpl.Error K.ErrBreak []))
  | some true =>
    match appendCmd cmpl (.command cmpl.pos.toNat K.RcBreak) with
    | none => none
    | some c => some (c, none)

/-- The function `coContinue`: the state after the call and the error. -/
def coContinue (K : Consts) (cmpl : compiler) : Option (compiler × Option CompError) :=
  match isInLoop K cmpl false with
  | none => none
  | some false => some (cmpl, some (cmpl.Error K.ErrContinue []))
  | some true =>
    match appendCmd cmpl (.command cmpl.pos.toNat K.RcContinue) with
    | none => none
    | some c => some (c, none)

/-- The function `findVar`'s loop `for block != nil`, from the pointer
`block`; the fuel bounds the number of blocks visited. -/
def findVarFrom (blocks : List CmdBlock) (token : String) :
    Nat → Option Nat → Option (Option Nat × Nat)
  | _, none => some (none, 0)
  | 0, some _ => none
  | fuel + 1, some p =>
    match blocks[p]? with
    | none => none
    | some block =>
      match mapGet block.VarNames token with
      | some ind => some (some p, ind)
      | none => findVarFrom blocks token fuel block.Parent

/-- The function `findVar`. A chain of parents without a cycle visits every
block of the heap at most once, so the size of the heap is enough fuel. -/
def findVar (cmpl : compiler) (token : String) : Option (Option Nat × Nat) :=
  match curOwner cmpl with
  | none => none
  | some p => findVarFrom cmpl.blocks token cmpl.blocks.length (some p)

/-- Modelled from the spec: `Unit.FindType`, which is not in the listed
sources: a plain name resolves by direct lookup in the name space of the unit,
and the object found must be a type. -/
def FindType (ws : Workspace) (unit : Unit) (name : String) : Option Nat :=
  match mapGet unit.NameSpace name with
  | none => none
  | some i =>
    match ws.Objects[i]? with
    | some (.typeObj _) => some i
    | _ => none

/-- Modelled from the spec: `Unit.NewType`, which is not in the listed
sources: the generic descriptor is created as a new object of the workspace
and memoized under its composed name in the name space of the unit. -/
def NewType (cmpl : compiler) (name : String) (original : GoType) (indexOf : Nat) :
    compiler × Option Nat :=
  let i := cmpl.ws.Objects.length
  ({ cmpl with
      ws := { cmpl.ws with
        Objects := cmpl.ws.Objects ++
          [.typeObj { Name := name, Original := original, IndexOf := some indexOf,
                      Func := none }] },
      unit := { cmpl.unit with NameSpace := mapSet cmpl.unit.NameSpace name i } },
   some i)

/-- Modelled from the spec: `isCapital`, which is not in the listed sources: a
declared name must not begin with an uppercase letter. -/
def isCapital (token : String) : Bool :=
  match token.data with
  | [] => false
  | c :: _ => c.isUpper

/-- The loop of `checkUsedName` over the chain of parents: `some true` when a
block of the chain has the token among its `VarNames`. -/
def usedFrom (blocks : List CmdBlock) (token : String) : Nat → Option Nat → Option Bool
  | _, none => some false
  | 0, some _ => none
  | fuel + 1, some p =>
    match blocks[p]? with
    | none => none
    | some block =>
      match mapGet block.VarNames token with
      | some _ => some true
      | none => usedFrom blocks token fuel block.Parent

/-- The function `checkUsedName`; the fuel is the size of the heap, as in
`findVar`. -/
def checkUsedName (K : Consts) (cmpl : compiler) (token : String) :
    Option (Option CompError) :=
  match FindType cmpl.ws cmpl.unit token with
  | some _ => some (some (cmpl.Error K.ErrUsedName [token]))
  | none =>
    match curOwner cmpl with
    | none => none
    | some p =>
      match usedFrom cmpl.blocks token cmpl.blocks.length (some p) with
      | none => none
      | some true => some (some (cmpl.Error K.ErrUsedName [token]))
      | some false => some none

/-- The function `coVarToken`: the state after the call and the error. -/
def coVarToken (K : Consts) (cmpl : compiler) (token : String) :
    Option (compiler × Option CompError) :=
  if isCapital token = true then
    some (cmpl, some (cmpl.Error K.ErrCapitalLetters []))
  else if '.' ∈ token.data then
    some (cmpl, some (cmpl.Error K.ErrIdent []))
  else
    match checkUsedName K cmpl token with
    | none => none
    | some (some err) => some (cmpl, some err)
    | some none =>
      match curOwner cmpl with
      | none => none
      | some p =>
        match cmpl.blocks[p]? with
        | none => none
        | some block =>
          let block1 := { block with VarNames := mapSet block.VarNames token block.Vars.length }
          let block2 :=
            if cmpl.curOptional = true then
              { block1 with Optional := mapSet block1.Optional token block1.Vars.length }
            else block1
          let block3 := { block2 with Vars := block2.Vars ++ [cmpl.curType] }
          some ({ cmpl with blocks := cmpl.blocks.set p block3 }, none)

/-! ## compiler: type resolver -/

/-- The function `strings.HasSuffix`. -/
def HasSuffix (s suffix : String) : Bool :=
  suffix.data.isSuffixOf s.data

/-- The split of a list of characters at its first dot. -/
def cutDot : List Char → Option (List Char × List Char)
  | [] => none
  | c :: rest =>
    if c = '.' then some ([], rest)
    else
      match cutDot rest with
      | none => none
      | some (a, b) => some (c :: a, b)

/-- The call `strings.SplitN(name, ".", 2)`. -/
def SplitN2 (name : String) : List String :=
  match cutDot name.data with
  | none => [name]
  | some (a, b) => [String.mk a, String.mk b]

/-- The head of `autoType`: a name that ends with `.arr` or `.map` gets the
element type `.str`. -/
def fullName (name : String) : String :=
  if HasSuffix name ".arr" = true ∨ HasSuffix name ".map" = true then name ++ ".str" else name

/-- The two branches of `autoType` after its recursive call, which differ by
the kind `original` only: a descriptor `indexOf` is wrapped by `NewType`, and
without one, or if `NewType` gives none, the result is the error `ErrType`. -/
def wrapType (K : Consts) (name : String) (original : GoType) :
    Option (compiler × Option Nat × Option CompError) →
    Option (compiler × Option Nat × Option CompError)
  | none => none
  | some (c1, some indexOf, err) =>
    match NewType c1 name original indexOf with
    | (c2, some obj) => some (c2, some obj, err)
    | (c2, none) => some (c2, none, some (c2.Error K.ErrType []))
  | some (c1, none, _) => some (c1, none, some (c1.Error K.ErrType []))

/-- The function `autoType`, with the fuel of its recursion: the state after
the call, the descriptor `obj` (a pointer to an object) and the error. -/
def autoTypeFuel (K : Consts) : Nat → compiler → String →
    Option (compiler × Option Nat × Option CompError)
  | 0, _, _ => none
  | fuel + 1, cmpl, name0 =>
    let name := fullName name0
    match FindType cmpl.ws cmpl.unit name with
    | some obj => some (cmpl, some obj, none)
    | none =>
      match SplitN2 name with
      | [ins0, ins1] =>
        if ins0 = "arr" then
          wrapType K name GoType.array (autoTypeFuel K fuel cmpl ins1)
        else if ins0 = "map" then
          wrapType K name GoType.map (autoTypeFuel K fuel cmpl ins1)
        else some (cmpl, none, some (cmpl.Error K.ErrType []))
      | _ => some (cmpl, none, some (cmpl.Error K.ErrType []))

/-- The kind and the element name of a name of the form `arr.rest` or
`map.rest`, as `autoType` splits it. -/
def generic (name : String) : Option (GoType × String) :=
  match SplitN2 name with
  | [ins0, ins1] =>
    if ins0 = "arr" then some (GoType.array, ins1)
    else if ins0 = "map" then some (GoType.map, ins1)
    else none
  | _ => none

/-- The function `autoType`. Every recursive call drops the first component
of the name, so the length of the name bounds the depth of the recursion. -/
def autoType (K : Consts) (cmpl : compiler) (name : String) :
    Option (compiler × Option Nat × Option CompError) :=
  autoTypeFuel K (name.length + 2) cmpl name

/-- Modelled from the spec: `getToken`, which is not in the listed sources:
the text of a token is the piece of the source at its offset, of its length. -/
def getToken (lex : Lex) (pos : Int) : Option String :=
  if 0 ≤ pos then
    match lex.Tokens[pos.toNat]? with
    | none => none
    | some t => some (String.mk ((lex.Source.drop t.Offset).take t.Length))
  else none

/-- The function `getType`. -/
def getType (K : Consts) (cmpl : compiler) : Option (compiler × Option Nat × Option CompError) :=
  match getToken cmpl.unit.Lexeme cmpl.pos with
  | none => none
  | some token => autoType K cmpl token


/-! ## compiler: optional and variadic parameters, equality of types -/

/-- The method `latestFunc`: `cmpl.ws.Objects[cmpl.curFunc].(*core.FuncObject)`. -/
def latestFunc (cmpl : compiler) : Option FuncObject :=
  if 0 ≤ cmpl.curFunc then
    match cmpl.ws.Objects[cmpl.curFunc.toNat]? with
    | some (.funcObj f) => some f
    | _ => none
  else none

/-- The function `coOptional`. -/
def coOptional (K : Consts) (cmpl : compiler) : Option (compiler × Option CompError) :=
  match latestFunc cmpl with
  | none => none
  | some curFunc =>
    if curFunc.Name = "run" ∨ cmpl.owners.length > 1 then
      some (cmpl, some (cmpl.Error K.ErrOptional []))
    else some ({ cmpl with curOptional := true }, none)

/-- The call `cmpl.curType.GetName()`: the name of the current type. -/
def curTypeName (cmpl : compiler) : Option String :=
  match cmpl.curType with
  | none => none
  | some i =>
    match cmpl.ws.Objects[i]? with
    | some (.typeObj t) => some t.Name
    | _ => none

/-- The function `coVariadic`. -/
def coVariadic (K : Consts) (cmpl : compiler) : Option (compiler × Option CompError) :=
  match curOwner cmpl with
  | none => none
  | some p =>
    match cmpl.blocks[p]? with
    | none => none
    | some block =>
      let c1 := { cmpl with blocks := cmpl.blocks.set p { block with Variadic := true } }
      match curTypeName c1 with
      | none => none
      | some name =>
        match autoType K c1 ("arr." ++ name) with
        | none => none
        | some (c2, _, some err) => some (c2, some err)
        | some (_, none, none) => none
        | some (c2, some obj, none) =>
          match c2.blocks[p]? with
          | none => none
          | some block2 =>
            if block2.Vars.length = 0 then none
            else
              some ({ c2 with
                      blocks := c2.blocks.set p
                        { block2 with
                          Vars := block2.Vars.set (block2.Vars.length - 1) (some obj) } },
                    none)

/-- The type object behind a `*core.TypeObject`. -/
def typeAt (objs : List IObject) (i : Nat) : Option TypeObject :=
  match objs[i]? with
  | some (.typeObj t) => some t
  | _ => none

/-- The loop of `isEqualTypes` over the parameters of two function types, given
the comparison `eq` of two types: false at the first pair that differs. -/
def eqParams (eq : Option Nat → Option Nat → Option Bool) :
    List (Option Nat) → List (Option Nat) → Option Bool
  | [], _ => some true
  | _ :: _, [] => none
  | l :: ls, r :: rs =>
    match eq l r with
    | none => none
    | some false => some false
    | some true => eqParams eq ls rs

/-- The function `isEqualTypes` on two pointers to type objects of `objs`; the
fuel bounds the depth of the recursion through element, parameter and result
types. -/
def isEqualTypes (objs : List IObject) : Nat → Option Nat → Option Nat → Option Bool
  | _, none, none => some true
  | _, none, some _ => some false
  | _, some _, none => some false
  | 0, some _, some _ => none
  | fuel + 1, some l, some r =>
    match typeAt objs l, typeAt objs r with
    | some left, some right =>
      match left.Original with
      | .fn =>
        if right.Original ≠ GoType.fn then some false
        else
          match left.Func, right.Func with
          | some lf, some rf =>
            if lf.Params.length ≠ rf.Params.length then some false
            else
              match isEqualTypes objs fuel lf.Result rf.Result with
              | none => none
              | some false => some false
              | some true => eqParams (isEqualTypes objs fuel) lf.Params rf.Params
          | _, _ => none
      | .array =>
        if right.Original ≠ GoType.array then some false
        else if left.IndexOf = none ∨ right.IndexOf = none then some true
        else isEqualTypes objs fuel left.IndexOf right.IndexOf
      | .map =>
        if right.Original ≠ GoType.map then some false
        else if left.IndexOf = none ∨ right.IndexOf = none then some true
        else isEqualTypes objs fuel left.IndexOf right.IndexOf
      | .other _ => some (decide (l = r))
    | _, _ => none

/-- The pointer reached from `p` by following `Parent` `k` times. -/
def ancestor (blocks : List CmdBlock) : Nat → Option Nat → Option Nat
  | 0, p => p
  | _ + 1, none => none
  | k + 1, some p =>
    match blocks[p]? with
    | none => none
    | some b => ancestor blocks k b.Parent

/-- The list `ps` is the chain of parents from the pointer `start` up to the
nil pointer. -/
def IsChain (blocks : List CmdBlock) : Option Nat → List Nat → Prop
  | none, [] => True
  | some p, q :: rest => p = q ∧ ∃ b, blocks[p]? = some b ∧ IsChain blocks b.Parent rest
  | none, _ :: _ => False
  | some _, [] => False

/-- The token is a key of the `VarNames` of the block behind `q`. -/
def declaredIn (blocks : List CmdBlock) (token : String) (q : Nat) : Prop :=
  ∃ b ind, blocks[q]? = some b ∧ mapGet b.VarNames token = some ind


/-! ## compiler: the compile transaction -/

/-- The tables and functions of the package `compiler` that the listed sources
call without defining them: the constants, the lexer, the compile table, the
callbacks of its entries (named by number), `copyNameSpace` and
`coOptionalFunc`. A callback returns the state it leaves and its error. -/
structure Env where
  K : Consts
  LexParsing : List Char → Lex × Nat
  compileTable : Nat → Nat → cmState
  funcs : Nat → compiler → Option (compiler × Option CompError)
  copyNameSpace : compiler → Unit → Bool → compiler × Option CompError
  coOptionalFunc : compiler → Option (compiler × Bool × Option CompError)

/-- The test `flags&flag != 0`. -/
def hasFlag (flags flag : Nat) : Bool :=
  decide (flags &&& flag ≠ 0)

/-- The search of `colonToLine` for the end of the line: the first index, from
`e` on, of a line token whose source character is not a semicolon, or the
index past the last token. -/
def lineEnd (K : Consts) (source : List Char) : List Token → Nat → Option Nat
  | [], e => some e
  | t :: rest, e =>
    if t.Type_ = K.tkLine then
      match source[t.Offset]? with
      | none => none
      | some ch => if ch ≠ ';' then some e else lineEnd K source rest (e + 1)
    else lineEnd K source rest (e + 1)

/-- The function `colonToLine`. -/
def colonToLine (K : Consts) (cmpl : compiler) (i : Int) : Option (compiler × Option CompError) :=
  if i < cmpl.endColon then some (cmpl, some (ErrorPos i K.ErrDoubleColon []))
  else if i < 0 then none
  else
    let lp := cmpl.unit.Lexeme
    match lp.Tokens[i.toNat]? with
    | none => none
    | some t =>
      let tokens1 := lp.Tokens.set i.toNat { t with Type_ := K.tkLCurly }
      match lineEnd K lp.Source (tokens1.drop (i.toNat + 1)) (i.toNat + 1) with
      | none => none
      | some e =>
        let anchor := if e = tokens1.length then tokens1.getLast? else tokens1[e]?
        match anchor with
        | none => none
        | some a =>
          let tokens2 :=
            tokens1.take e ++ [{ Type_ := K.tkRCurly, Offset := a.Offset, Length := 1 }] ++
              tokens1.drop e
          some ({ cmpl with
                  unit := { cmpl.unit with Lexeme := { lp with Tokens := tokens2 } },
                  endColon := e }, none)

/-- The closure `cmplError` of `Compile`, on the workspace: the rollback. -/
def rollback (ws : Workspace) (countObjects countUnits : Nat) : Workspace :=
  { ws with
    Objects := ws.Objects.take countObjects,
    Units := ws.Units.take countUnits,
    UnitNames := ws.UnitNames.filter (fun e => decide (¬ (e.2 ≥ (countUnits : Int)))) }

/-- The way the main loop of `Compile` or its loop of backtracking ends:
with the state, the index and the machine state to go on with, or with the
error handed to `cmplError`. -/
inductive LoopEnd where
  | goOn (c : compiler) (i : Int) (state : Nat)
  | failed (c : compiler) (err : CompError)
deriving DecidableEq, Repr

/-- The frame pushed when a callback has set `cmpl.dynamic`, with the index
and the state that follow. -/
def pushDynamic (K : Consts) (c : compiler) (d : cmState) (i : Int) (state : Nat) :
    compiler × Int × Nat :=
  ({ c with states := c.states ++ [{ Origin := d, Pos := i, State := state }] },
   (if hasFlag d.Flags K.cfStay = true then i - 1 else i), d.State)

/-- The loop `for len(stackState) > 0` of `Compile`, entered when the next
state is `cmBack`. -/
def backLoop (E : Env) : Nat → compiler → Int → Nat → Option LoopEnd
  | 0, _, _, _ => none
  | fuel + 1, c, i, state0 =>
    match c.states.getLast? with
    | none => some (.goOn c i state0)
    | some prev =>
      let state := prev.State
      match prev.Origin.Callback with
      | some cb =>
        match E.funcs cb c with
        | none => none
        | some (c1, some err) => some (.failed c1 err)
        | some (c1, none) =>
          let r :=
            match c1.dynamic with
            | some d => pushDynamic E.K c1 d i state
            | none => (c1, i, state)
          if r.1.states = [] then none
          else
            let c3 := { r.1 with states := r.1.states.dropLast }
            if (hasFlag prev.Origin.Flags E.K.cfStopBack || c3.dynamic.isSome) = true then
              some (.goOn c3 r.2.1 r.2.2)
            else backLoop E fuel c3 r.2.1 r.2.2
      | none =>
        let c3 := { c with states := c.states.dropLast }
        if (hasFlag prev.Origin.Flags E.K.cfStopBack || c3.dynamic.isSome) = true then
          some (.goOn c3 i state)
        else backLoop E fuel c3 i state

/-- The part of one iteration of the main loop after the callback
`cmpl.next.Func`: the test of the next state, the stay flag, the
backtracking, the push of a new frame. The index returned is the one before
the increment of the loop. -/
def afterFunc (E : Env) (fuel : Nat) (c : compiler) (i : Int) (state : Nat) : Option LoopEnd :=
  if c.next.State = 0 then some (.goOn c i state)
  else
    let i1 := if hasFlag c.next.Flags E.K.cfStay = true then i - 1 else i
    if c.next.State = E.K.cmBack then
      if c.states.length = 0 then
        some (.failed c (c.Error E.K.ErrCompiler ["Compile"]))
      else backLoop E fuel c i1 state
    else
      some (.goOn { c with states := c.states ++ [{ Origin := c.next, Pos := i1, State := state }] }
        i1 c.next.State)

/-- The call of `cmpl.next.Func` in the main loop, with what follows it. -/
def callFunc (E : Env) (fuel : Nat) (c : compiler) (i : Int) (state : Nat) : Option LoopEnd :=
  match c.next.Func with
  | none => afterFunc E fuel c i state
  | some f =>
    match E.funcs f c with
    | none => none
    | some (c1, some err) => some (.failed c1 err)
    | some (c1, none) =>
      let i1 := if c1.newPos ≠ 0 then c1.newPos else i
      match c1.dynamic with
      | some d =>
        let r := pushDynamic E.K c1 d i1 state
        some (.goOn r.1 r.2.1 r.2.2)
      | none => afterFunc E fuel c1 i1 state

/-- The test of the main loop that skips a line token inside an expression:
after an operator, or inside parentheses or brackets. A token before the first
one does not exist. -/
def skipLine (K : Consts) (c : compiler) (i : Int) (state : Nat) (token : Token) : Option Bool :=
  if (state = K.cmExp ∨ state = K.cmExpOper) ∧ token.Type_ = K.tkLine then
    if state = K.cmExp then
      if i - 1 < 0 then none
      else
        match c.unit.Lexeme.Tokens[(i - 1).toNat]? with
        | none => none
        | some before =>
          if K.tkAdd ≤ before.Type_ ∧ before.Type_ ≤ K.tkComma then some true
          else some (c.expbuf.any (fun b => decide (b.Oper = K.tkLPar ∨ b.Oper = K.tkLSBracket)))
    else some (c.expbuf.any (fun b => decide (b.Oper = K.tkLPar ∨ b.Oper = K.tkLSBracket)))
  else some false

/-- The body of the main loop of `Compile` for the token of index `i`, the
token being in range; the index returned is the one before the increment. -/
def loopBody (E : Env) (fuel : Nat) (c0 : compiler) (i : Int) (state : Nat) : Option LoopEnd :=
  let K := E.K
  match c0.unit.Lexeme.Tokens[i.toNat]? with
  | none => none
  | some tok0 =>
    let colon :=
      if c0.inits = 0 ∧ tok0.Type_ = K.tkColon then colonToLine K c0 i else some (c0, none)
    match colon with
    | none => none
    | some (c1, some err) => some (.failed c1 err)
    | some (c1, none) =>
      let c2 := { c1 with pos := i }
      match c2.unit.Lexeme.Tokens[i.toNat]? with
      | none => none
      | some token0 =>
        let typed :=
          if state = K.cmBody ∧ token0.Type_ = K.tkIdent ∧
              i + 1 < c2.unit.Lexeme.Tokens.length ∧
              (c2.unit.Lexeme.Tokens[(i + 1).toNat]?.map (fun t => t.Type_)) ≠ some K.tkLPar then
            match getType K c2 with
            | none => none
            | some (c3, some _, _) => some (c3, { token0 with Type_ := K.tkType })
            | some (c3, none, _) => some (c3, token0)
          else some (c2, token0)
        match typed with
        | none => none
        | some (c3, token) =>
          let c4 := { c3 with next := E.compileTable state token.Type_, dynamic := none, newPos := 0 }
          match skipLine K c4 i state token with
          | none => none
          | some true => some (.goOn c4 i state)
          | some false =>
            if state = K.cmExp ∧ token.Type_ = K.tkIdent then
              match E.coOptionalFunc c4 with
              | none => none
              | some (c5, _, some err) => some (.failed c5 err)
              | some (c5, true, none) => some (.goOn c5 c5.newPos state)
              | some (c5, false, none) => callFunc E fuel c5 i state
            else callFunc E fuel c4 i state

/-- The main loop `for i := 0; i < len(lp.Tokens); i++` of `Compile`, from the
index `i` and the machine state `state`; `lp` is the `Lexeme` of the unit. The
loop ends with the state it leaves (`goOn`, the index past the tokens) or with
the error handed to `cmplError`. -/
def mainLoop (E : Env) : Nat → compiler → Int → Nat → Option LoopEnd
  | 0, _, _, _ => none
  | fuel + 1, c, i, state =>
    if i < c.unit.Lexeme.Tokens.length then
      if i < 0 then none
      else
        match loopBody E fuel c i state with
        | none => none
        | some (.failed c1 err) => some (.failed c1 err)
        | some (.goOn c1 i1 state1) => mainLoop E fuel c1 (i1 + 1) state1
    else some (.goOn c i state)

/-- The end of `Compile` after the main loop: the entry function and the
default name, the append of the unit and its registration by name. -/
def commit (c : compiler) (path : String) : Workspace × Int :=
  let unit1 :=
    if c.runID ≠ Undefined then
      { c.unit with RunID := c.runID, Name := if c.unit.Name.length = 0 then path else c.unit.Name }
    else c.unit
  let unitID := c.ws.Units.length
  ({ c.ws with
      Units := c.ws.Units ++ [{ unit1 with Index := unitID }],
      UnitNames := mapSet c.ws.UnitNames unit1.Name (unitID : Int) },
   (unitID : Int))

/-- The compiler state that `Compile` builds before the main loop. -/
def newCompiler (K : Consts) (ws : Workspace) (lp : Lex) : compiler :=
  { ws := ws, unit := { InitUnit with Lexeme := lp }, blocks := [], owners := [], exp := [],
    expbuf := [], lexems := [0], runID := Undefined, pos := 0, newPos := 0, states := [],
    curType := none, curOptional := false, curConst := "", curFunc := 0, curIota := K.NotIota,
    inits := 0, endColon := 0, isImport := false,
    next := { Token := 0, State := 0, Func := none, Callback := none, Flags := 0 },
    dynamic := none }

/-- The function `Compile`: the workspace after the call, the index returned
and the error. -/
def Compile (E : Env) (fuel : Nat) (ws : Workspace) (input path : String) :
    Option (Workspace × Int × Option CompError) :=
  let countObjects := ws.Objects.length
  let countUnits := ws.Units.length
  let lexed := E.LexParsing input.data
  let lp := { lexed.1 with Path := path }
  let errID := lexed.2
  let cmpl := newCompiler E.K ws lp
  match ws.StdLib with
  | none => none
  | some stdlib =>
    match E.copyNameSpace cmpl stdlib true with
    | (c1, some err) => some (c1.ws, Undefined, some err)
    | (c1, none) =>
      if c1.unit.Lexeme.Tokens.length = 0 then
        some (rollback c1.ws countObjects countUnits, Undefined,
          some (c1.Error E.K.ErrEmptyCode []))
      else if errID ≠ 0 then
        let c2 := { c1 with pos := (c1.unit.Lexeme.Tokens.length : Int) - 1 }
        some (rollback c2.ws countObjects countUnits, Undefined, some (c2.Error errID []))
      else
        match mainLoop E fuel c1 0 E.K.cmMain with
        | none => none
        | some (.failed c2 err) => some (rollback c2.ws countObjects countUnits, Undefined, some err)
        | some (.goOn c2 _ _) =>
          if c2.states.length > 0 then
            some (rollback c2.ws countObjects countUnits, Undefined,
              some (ErrorPos c2.unit.Lexeme.Tokens.length E.K.ErrEnd []))
          else
            let r := commit c2 path
            some (r.1, r.2, none)


/-! ## core: the run entry point -/

/-- A value on the stack of a run (`interface{}`). -/
inductive Value where
  | int (v : Int)
  | str (s : String)
  | bool (b : Bool)
deriving DecidableEq, Repr

/-- An error of the run time. -/
structure RunError where
  ID : Nat
  Msg : String
deriving DecidableEq, Repr

/-- The field `rt.Threads`: the counter of live threads and the errors queued
on the channel `ChError`, oldest first. -/
structure ThreadsState where
  Count : Int
  ChError : List RunError
deriving DecidableEq, Repr

/-- The `RunTime` of one run. -/
structure RunTime where
  Stack : List Value
  CmdLine : List String
  Threads : ThreadsState
deriving DecidableEq, Repr

/-- The parts of the package `core` that `Workspace.Run` calls and the listed
sources do not define: the error codes, the evaluator `runCmd` (given the
pointer to the block), `closeAll`, and what the other goroutines do to
`rt.Threads` before the loop of `Run` reads it for the `k`-th time. -/
structure RunEnv where
  ErrRunIndex : Nat
  ErrNotRun : Nat
  ErrRuntime : Nat
  runCmd : RunTime → Nat → RunTime × Option RunError
  closeAll : RunTime → RunTime
  threads : Nat → ThreadsState → ThreadsState

/-- Modelled from the spec: `newRunTime`, which is not in the listed sources: a
fresh runtime context, with its own empty stack, no live thread and an empty
queue of errors. -/
def newRunTime : RunTime :=
  { Stack := [], CmdLine := [], Threads := { Count := 0, ChError := [] } }

/-- Modelled from the spec: `runtimeError`, called with a nil command, which is
not in the listed sources: the error of the given code. -/
def runtimeError (id : Nat) : RunError :=
  { ID := id, Msg := "" }

/-- The loop `for rt.Threads.Count > 0` of `Workspace.Run`, with its `select`
that receives one queued error or takes the `default` branch; `k` counts the
readings of the counter. -/
def drainLoop (E : RunEnv) : Nat → Nat → RunTime → Option RunError →
    Option (RunTime × Option RunError)
  | 0, _, _, _ => none
  | fuel + 1, k, rt0, errResult =>
    let rt := { rt0 with Threads := E.threads k rt0.Threads }
    if rt.Threads.Count > 0 then
      match rt.Threads.ChError with
      | err :: rest =>
        let rt1 := E.closeAll { rt with Threads := { rt.Threads with ChError := rest } }
        drainLoop E fuel (k + 1) rt1 (if errResult = none then some err else errResult)
      | [] => drainLoop E fuel (k + 1) rt errResult
    else some (rt, errResult)

/-- The method `Workspace.Run`: the runtime at the return, the value and the
error; `mem` is the heap of the blocks. The sends and the closing of the
channels after the loop are not part of the state. -/
def Run (E : RunEnv) (fuel : Nat) (mem : List CmdBlock) (ws : Workspace) (unitID : Int)
    (cmdLine : List String) : Option (RunTime × Option Value × Option RunError) :=
  let rt := newRunTime
  if unitID < 0 ∨ unitID ≥ ws.Units.length then
    some (rt, none, some (runtimeError E.ErrRunIndex))
  else
    match ws.Units[unitID.toNat]? with
    | none => none
    | some unit =>
      if unit.RunID = Undefined then some (rt, none, some (runtimeError E.ErrNotRun))
      else
        let rt1 := { rt with CmdLine := cmdLine }
        match (if 0 ≤ unit.RunID then ws.Objects[unit.RunID.toNat]? else none) with
        | some (.funcObj funcRun) =>
          match mem[funcRun.Block]? with
          | none => none
          | some block =>
            let r := E.runCmd rt1 funcRun.Block
            let after : RunTime × Option Value × Option RunError :=
              match r.2 with
              | none =>
                if block.Result ≠ none then
                  if r.1.Stack.length = 0 then (r.1, none, some (runtimeError E.ErrRuntime))
                  else (r.1, r.1.Stack.getLast?, none)
                else (r.1, none, none)
              | some err => (E.closeAll r.1, none, some err)
            match drainLoop E fuel 0 after.1 after.2.2 with
            | none => none
            | some (rt2, errResult) => some (rt2, after.2.1, errResult)
        | _ => none


/-! ## vm: integers -/

/-- The value is an `int64`. -/
def isInt64 (x : Int) : Prop :=
  -2 ^ 63 ≤ x ∧ x < 2 ^ 63

instance (x : Int) : Decidable (isInt64 x) := by
  unfold isInt64
  infer_instance

/-- The `int64` that Go arithmetic gives for the exact result `x`: the value
modulo `2^64` in the range of the type (two's complement). -/
def wrap64 (x : Int) : Int :=
  (x + 2 ^ 63) % 2 ^ 64 - 2 ^ 63

/-- The error codes of the package `vm` that `int.go` uses without declaring
them; an error `fmt.Errorf(ErrorText(id))` is modelled by its code. -/
structure VmErrors where
  ErrDivZero : Nat
  ErrShift : Nat
deriving DecidableEq, Repr

/-- The function `AbsºInt`. -/
def AbsInt (x : Int) : Int :=
  if x < 0 then wrap64 (-x) else x

/-- The function `AssignDivºIntInt`: the new value of `*ptr`, the value
returned and the error. -/
def AssignDivIntInt (E : VmErrors) (ptr value : Int) : Int × Int × Option Nat :=
  if value = 0 then (ptr, 0, some E.ErrDivZero)
  else
    let p := wrap64 (Int.tdiv ptr value)
    (p, p, none)

/-- The function `AssignModºIntInt`. -/
def AssignModIntInt (E : VmErrors) (ptr value : Int) : Int × Int × Option Nat :=
  if value = 0 then (ptr, 0, some E.ErrDivZero)
  else
    let p := wrap64 (Int.tmod ptr value)
    (p, p, none)

/-- The function `AssignLShiftºIntInt`; a shift by 64 or more gives zero. -/
def AssignLShiftIntInt (E : VmErrors) (ptr value : Int) : Int × Int × Option Nat :=
  if value < 0 then (ptr, 0, some E.ErrShift)
  else
    let p := wrap64 (ptr * 2 ^ value.toNat)
    (p, p, none)

/-- The function `AssignRShiftºIntInt`; the shift of a signed value is
arithmetic, the quotient rounded down. -/
def AssignRShiftIntInt (E : VmErrors) (ptr value : Int) : Int × Int × Option Nat :=
  if value < 0 then (ptr, 0, some E.ErrShift)
  else
    let p := wrap64 (ptr / 2 ^ value.toNat)
    (p, p, none)

/-! ## core: positions of tokens -/

/-- The loop of `LineColumn` from the line `line` on, over the line starts
that remain: it stops at the first line start greater than `offset`. -/
def scanLines : List Nat → Nat → Nat → Nat
  | [], _, line => line
  | l :: rest, offset, line => if l > offset then line else scanLines rest offset (line + 1)

/-- The method `Lex.LineColumn`. -/
def LineColumn (lp : Lex) (ind : Int) : Option (Int × Int) :=
  let atEnd := decide ((lp.Tokens.length : Int) = ind ∧ ind > 0)
  let ind1 := if atEnd = true then ind - 1 else ind
  if (lp.Tokens.length : Int) > ind1 then
    if ind1 < 0 then none
    else
      match lp.Tokens[ind1.toNat]? with
      | none => none
      | some tok =>
        let line := scanLines lp.Lines tok.Offset 0
        if line = 0 then none
        else
          match lp.Lines[line - 1]? with
          | none => none
          | some start =>
            let column : Int := (tok.Offset : Int) - (start : Int) + 1
            some ((line : Int), if atEnd = true then column + (tok.Length : Int) else column)
  else some (0, 0)

/-! ## compiler: the priority of operators -/

/-- The token types that are keys of the table `priority`. -/
inductive Tk where
  | tkRange | tkAssign | tkAddEq | tkSubEq | tkMulEq | tkDivEq | tkModEq
  | tkLShiftEq | tkRShiftEq | tkBitAndEq | tkBitOrEq | tkBitXorEq | tkCtxEq
  | tkAnd | tkOr | tkEqual | tkNotEqual | tkLess | tkLessEqual | tkGreater
  | tkGreaterEqual | tkBitOr | tkBitXor | tkBitAnd | tkLShift | tkRShift
  | tkAdd | tkSub | tkDiv | tkMod | tkMul | tkInc | tkDec | tkNot | tkQuestion
  | tkCtx | tkDoubleCtx | tkStrExp | tkDot | tkLPar | tkRPar | tkLSBracket
  | tkRSBracket
deriving DecidableEq, Repr

/-- A key of the table `priority`: a token type, possibly combined with the
flags `tkUnary` and `tkPost`. -/
structure OpKey where
  tok : Tk
  unary : Bool
  post : Bool
deriving DecidableEq, Repr

/-- The struct `Priority`. -/
structure Priority where
  Priority : Nat
  RightLeft : Bool
  Name : String
deriving DecidableEq, Repr

/-- The key of a binary operator. -/
def binary (t : Tk) : OpKey :=
  { tok := t, unary := false, post := false }

/-- The key `t | tkUnary`. -/
def unary (t : Tk) : OpKey :=
  { tok := t, unary := true, post := false }

/-- The key `t | tkUnary | tkPost`. -/
def unaryPost (t : Tk) : OpKey :=
  { tok := t, unary := true, post := true }

/-- The table `priority`, entry by entry. -/
def priority : List (OpKey × Priority) :=
  [(binary .tkRange, ⟨3, true, "NewRange"⟩),
   (binary .tkAssign, ⟨5, true, "Assign"⟩),
   (binary .tkAddEq, ⟨5, true, "AssignAdd"⟩),
   (binary .tkSubEq, ⟨5, true, "AssignSub"⟩),
   (binary .tkMulEq, ⟨5, true, "AssignMul"⟩),
   (binary .tkDivEq, ⟨5, true, "AssignDiv"⟩),
   (binary .tkModEq, ⟨5, true, "AssignMod"⟩),
   (binary .tkLShiftEq, ⟨5, true, "AssignLShift"⟩),
   (binary .tkRShiftEq, ⟨5, true, "AssignRShift"⟩),
   (binary .tkBitAndEq, ⟨5, true, "AssignBitAnd"⟩),
   (binary .tkBitOrEq, ⟨5, true, "AssignBitOr"⟩),
   (binary .tkBitXorEq, ⟨5, true, "AssignBitXor"⟩),
   (binary .tkCtxEq, ⟨6, false, "CtxSet"⟩),
   (binary .tkAnd, ⟨7, false, ""⟩),
   (binary .tkOr, ⟨8, false, ""⟩),
   (binary .tkEqual, ⟨10, false, "Equal"⟩),
   (binary .tkNotEqual, ⟨10, false, "Equal"⟩),
   (binary .tkLess, ⟨10, false, "Less"⟩),
   (binary .tkLessEqual, ⟨10, false, "Greater"⟩),
   (binary .tkGreater, ⟨10, false, "Greater"⟩),
   (binary .tkGreaterEqual, ⟨10, false, "Less"⟩),
   (binary .tkBitOr, ⟨11, false, "BitOr"⟩),
   (binary .tkBitXor, ⟨12, false, "BitXor"⟩),
   (binary .tkBitAnd, ⟨13, false, "BitAnd"⟩),
   (binary .tkLShift, ⟨14, false, "LShift"⟩),
   (binary .tkRShift, ⟨14, false, "RShift"⟩),
   (binary .tkAdd, ⟨15, false, "Add"⟩),
   (binary .tkSub, ⟨15, false, "Sub"⟩),
   (binary .tkDiv, ⟨20, false, "Div"⟩),
   (binary .tkMod, ⟨20, false, "Mod"⟩),
   (binary .tkMul, ⟨20, false, "Mul"⟩),
   (unaryPost .tkInc, ⟨25, false, ""⟩),
   (unaryPost .tkDec, ⟨25, false, ""⟩),
   (unary .tkNot, ⟨28, true, "Not"⟩),
   (unaryPost .tkQuestion, ⟨29, false, "bool"⟩),
   (unary .tkBitXor, ⟨30, true, "BitNot"⟩),
   (unary .tkBitOr, ⟨30, true, "Shift"⟩),
   (unary .tkOr, ⟨30, true, "PrintShift"⟩),
   (unary .tkSub, ⟨30, true, "Sign"⟩),
   (unary .tkMul, ⟨30, true, "Len"⟩),
   (unary .tkInc, ⟨30, true, ""⟩),
   (unary .tkDec, ⟨30, true, ""⟩),
   (unary .tkCtx, ⟨30, true, "Ctx"⟩),
   (unary .tkDoubleCtx, ⟨30, true, "Ctx"⟩),
   (unary .tkBitAnd, ⟨35, true, ""⟩),
   (binary .tkStrExp, ⟨35, false, "ExpStr"⟩),
   (binary .tkDot, ⟨40, false, ""⟩),
   (binary .tkLPar, ⟨50, true, ""⟩),
   (binary .tkRPar, ⟨50, true, ""⟩),
   (binary .tkLSBracket, ⟨50, true, ""⟩),
   (binary .tkRSBracket, ⟨50, true, ""⟩)]

/-- The lookup `priority[key]`. -/
def priorityOf (key : OpKey) : Option Priority :=
  (priority.find? (fun e => decide (e.1 = key))).map (fun e => e.2)

/-- The assignment operators `=`, `+=`, `-=`, `*=`, `/=`, `%=`, `<<=`, `>>=`,
`&=`, `|=`, `^=`. -/
def assignOps : List Tk :=
  [.tkAssign, .tkAddEq, .tkSubEq, .tkMulEq, .tkDivEq, .tkModEq, .tkLShiftEq, .tkRShiftEq,
   .tkBitAndEq, .tkBitOrEq, .tkBitXorEq]

/-- The binary arithmetic, shift, bitwise, comparison and logical operators. -/
def leftOps : List Tk :=
  [.tkAdd, .tkSub, .tkMul, .tkDiv, .tkMod, .tkLShift, .tkRShift, .tkBitOr, .tkBitXor,
   .tkBitAnd, .tkEqual, .tkNotEqual, .tkLess, .tkLessEqual, .tkGreater, .tkGreaterEqual,
   .tkAnd, .tkOr]

/-! ## stdlib: the flags of the command line -/

/-- A Go string: the list of its bytes. -/
abbrev GoString := List Nat

/-- The byte of the dash `-`. -/
def dash : Nat := 45

/-- The call `strings.Trim(s, "-")`: the dashes at both ends are removed. -/
def trimDash (s : GoString) : GoString :=
  ((s.dropWhile (fun b => decide (b = dash))).reverse.dropWhile
    (fun b => decide (b = dash))).reverse

/-- The loop of `args` for an empty flag, from the index `i` on: `tail` is
the index after the last argument that begins with a dash, and the loop stops
at an argument made of dashes only. -/
def tailScan : List GoString → Nat → Nat → Nat
  | [], _, tail => tail
  | a :: rest, i, tail =>
    if [dash].isPrefixOf a = true then
      if (trimDash a).length = 0 then i + 1 else tailScan rest (i + 1) (i + 1)
    else tailScan rest (i + 1) tail

/-- The loop `for k := i + 1; k < lenCmd && cmdLine[k][0] != '-'; k++` of
`args`, over the arguments that follow the flag; the read `cmdLine[k][0]` of
an empty argument is out of range. -/
def collect : List GoString → Option (List GoString)
  | [] => some []
  | [] :: _ => none
  | (b :: bs) :: rest =>
    if b ≠ dash then (collect rest).map (fun r => (b :: bs) :: r) else some []

/-- The strip of the quotes in `args`: when the value begins and ends with
the same quote character, it becomes `val[1 : len(val)-1]`, a slice whose
bounds `1 <= len(val)-1` are checked. -/
def unquote (val : GoString) : Option GoString :=
  match val.head?, val.getLast? with
  | some a, some b =>
    if a = b ∧ (a = 34 ∨ a = 39) then
      if 1 ≤ val.length - 1 then some ((val.take (val.length - 1)).drop 1) else none
    else some val
  | _, _ => some val

/-- The loop `for i, arg := range cmdLine` of `args`, over the arguments that
remain, with the flag that begins with a dash. -/
def argsLoop (flag : GoString) : List GoString → Option (Bool × List GoString)
  | [] => some (false, [])
  | arg :: rest =>
    if arg = [dash] then some (false, [])
    else if flag.isPrefixOf arg = true then
      if arg.length = flag.length then (collect rest).map (fun r => (true, r))
      else
        match arg[flag.length]? with
        | none => none
        | some ch =>
          if ch = 61 ∨ ch = 58 then
            if arg.length > flag.length + 1 then
              (unquote (arg.drop (flag.length + 1))).map (fun v => (true, [v]))
            else some (true, [])
          else argsLoop flag rest
    else argsLoop flag rest

/-- The flag as `args` looks for it: a missing leading dash is added. -/
def withDash (flag : GoString) : GoString :=
  match flag with
  | [] => []
  | b :: bs => if b ≠ dash then dash :: b :: bs else b :: bs

/-- The function `args`: `found` and the values, a nil slice being the empty
list. -/
def args (cmdLine : List GoString) (flag : GoString) : Option (Bool × List GoString) :=
  if flag.length = 0 ∨ (trimDash flag).length = 0 then
    let tail := tailScan cmdLine 0 0
    if tail < cmdLine.length then some (true, cmdLine.drop tail) else some (false, [])
  else argsLoop (withDash flag) cmdLine

/-- The bytes of a string of ASCII characters. -/
def bytes (s : String) : GoString :=
  s.data.map Char.toNat

/-- The argument decides the lookup of the flag: it starts with the flag and
is either exactly the flag or continues with `=` or `:`. -/
def decides (flag arg : GoString) : Prop :=
  flag.isPrefixOf arg = true ∧
    (arg.length = flag.length ∨ arg[flag.length]? = some 61 ∨ arg[flag.length]? = some 58)

/-! ## Properties of states and concrete data -/

/-- Every block of the owners stack is a block of the heap whose `ID` is none
of `ids`. -/
def ownersAvoid (cmpl : compiler) (ids : List Nat) : Prop :=
  ∀ p, ICmd.block p ∈ cmpl.owners → ∃ b, cmpl.blocks[p]? = some b ∧ b.ID ∉ ids

/-- Every block of the owners stack is a block of the heap. -/
def ownersValid (cmpl : compiler) : Prop :=
  ∀ p, ICmd.block p ∈ cmpl.owners → ∃ b, cmpl.blocks[p]? = some b

/-- Some block of the owners stack has its `ID` among `ids`. -/
def ownersHave (cmpl : compiler) (ids : List Nat) : Prop :=
  ∃ p b, ICmd.block p ∈ cmpl.owners ∧ cmpl.blocks[p]? = some b ∧ b.ID ∈ ids

/-- A choice of the constants: distinct token types, states and error codes. -/
def K0 : Consts :=
  { tkColon := 1, tkIdent := 2, tkLPar := 3, tkType := 4, tkLine := 5, tkAdd := 6,
    tkComma := 9, tkLSBracket := 10, tkLCurly := 11, tkRCurly := 12,
    cmMain := 1, cmBody := 2, cmExp := 3, cmExpOper := 4, cmBack := 5,
    cfStay := 65536, cfStopBack := 131072, NotIota := -1,
    StackFor := 10, StackCase := 13, StackDefault := 14, RcBreak := 1, RcContinue := 2,
    ErrEmptyCode := 101, ErrEnd := 102, ErrCompiler := 103, ErrType := 104, ErrUsedName := 105,
    ErrCapitalLetters := 106, ErrIdent := 107, ErrBreak := 108, ErrContinue := 109,
    ErrDoubleColon := 110, ErrOptional := 111 }

/-- An empty block of the given kind and parent. -/
def mkBlock (id : Nat) (parent : Option Nat) : CmdBlock :=
  { TokenID := 0, Parent := parent, ID := id, Vars := [], ParCount := 0, VarNames := [],
    Optional := [], Variadic := false, Result := none, Children := [] }

/-- An empty workspace. -/
def ws0 : Workspace :=
  { Units := [], UnitNames := [], Objects := [], Linked := [], IotaID := 0 }

/-- A compiler state with the given heap and owners. -/
def mkCompiler (blocks : List CmdBlock) (owners : List ICmd) : compiler :=
  { newCompiler K0 ws0 InitUnit.Lexeme with blocks := blocks, owners := owners }

/-- The state inside `func f { switch x { case 1 { | } } }`: the block of the
function and a case block, no loop. -/
def inCase : compiler :=
  mkCompiler [mkBlock 1 none, mkBlock K0.StackCase (some 0)] [.block 0, .block 1]

/-- The state inside `func f { while x { | } }`. -/
def inWhile : compiler :=
  mkCompiler [mkBlock 1 none, mkBlock StackWhile (some 0)] [.block 0, .block 1]

/-- The state inside `func f { | }`. -/
def inFunc : compiler :=
  mkCompiler [mkBlock 1 none] [.block 0]

/-- An evaluator whose entry function spawns no thread and leaves the runtime
as it is, with no interference of other goroutines. -/
def runQuiet : RunEnv :=
  { ErrRunIndex := 201, ErrNotRun := 202, ErrRuntime := 203,
    runCmd := fun rt _ => (rt, none),
    closeAll := fun rt => rt,
    threads := fun _ t => t }

/-- An evaluator whose entry function spawns one thread, which never finishes:
the counter of live threads is 1 after the entry function and stays 1. -/
def runSpawning : RunEnv :=
  { ErrRunIndex := 201, ErrNotRun := 202, ErrRuntime := 203,
    runCmd := fun rt _ => ({ rt with Threads := { rt.Threads with Count := 1 } }, none),
    closeAll := fun rt => rt,
    threads := fun _ t => t }

/-- A workspace with two units: the first one has the entry function `run`
(object 0, whose block is block 0 of the heap), the second one has none. -/
def wsRun : Workspace :=
  { Units := [{ InitUnit with RunID := 0, Name := "main" },
              { InitUnit with Index := 1, Name := "lib" }],
    UnitNames := [("main", 0), ("lib", 1)],
    Objects := [.funcObj { Name := "run", Block := 0 }],
    Linked := [], IotaID := 0 }

/-- The heap of `wsRun`: the block of `run`. -/
def memRun : List CmdBlock :=
  [mkBlock 1 none]

/-- The state inside `func f { | }` after the declaration of `x`: slot 0 of
the block of the function, of the current type (none yet). -/
def declaredX : compiler :=
  mkCompiler [{ mkBlock 1 none with VarNames := [("x", 0)], Vars := [none] }] [.block 0]

/-- The slot-index invariant of a block: every value of `VarNames` is smaller
than `len(Vars)` and distinct names have distinct indices. -/
def slotInv (b : CmdBlock) : Prop :=
  (∀ n i, mapGet b.VarNames n = some i → i < b.Vars.length) ∧
  (∀ n m i, mapGet b.VarNames n = some i → mapGet b.VarNames m = some i → n = m)

/-- The state inside the parameters of `func f( | )`: the function `f` is
object 0 of the workspace and the latest function. -/
def inParams : compiler :=
  { inFunc with
    ws := { ws0 with Objects := [.funcObj { Name := "f", Block := 0 }] }, curFunc := 0 }

/-- The state inside a `while` block of the function `f`. -/
def inParamsNested : compiler :=
  { inWhile with
    ws := { ws0 with Objects := [.funcObj { Name := "f", Block := 0 }] }, curFunc := 0 }

/-- The state inside `func f { | }` after the declarations of `x` and `y`. -/
def declaredXY : compiler :=
  mkCompiler [{ mkBlock 1 none with VarNames := [("y", 1), ("x", 0)], Vars := [none, none] }]
    [.block 0]

/-- The state `c1` differs from `cmpl` only by objects added at the end of
`Objects` and by the name space of the unit. -/
def typesAdded (cmpl c1 : compiler) : Prop :=
  c1 = { cmpl with
          ws := { cmpl.ws with Objects := c1.ws.Objects },
          unit := { cmpl.unit with NameSpace := c1.unit.NameSpace } } ∧
  ∃ ext, c1.ws.Objects = cmpl.ws.Objects ++ ext

/-- The state inside `func f { | }` of a unit in which the only registered
type is `str`, object 0 of the workspace. -/
def strOnly : compiler :=
  { inFunc with
    ws := { ws0 with
      Objects := [.typeObj { Name := "str", Original := .other "string", IndexOf := none,
                             Func := none }] },
    unit := { InitUnit with NameSpace := [("str", 0)] } }

/-- The call `isEqualTypes(l, r)` returns `b`: it does so with some fuel. -/
def EqualTypes (objs : List IObject) (l r : Option Nat) (b : Bool) : Prop :=
  ∃ fuel, isEqualTypes objs fuel l r = some b

/-- Objects of a workspace: 0 `int`, 1 `str`, 2 `arr.int`, 3 `arr.str`, 4 an
array with an open element type, 5 `map.int`, 6 and 7 two function types
`fn(int, str) int`, 8 the function type `fn(int, int) int`. -/
def typeObjs : List IObject :=
  [.typeObj { Name := "int", Original := .other "int64", IndexOf := none, Func := none },
   .typeObj { Name := "str", Original := .other "string", IndexOf := none, Func := none },
   .typeObj { Name := "arr.int", Original := .array, IndexOf := some 0, Func := none },
   .typeObj { Name := "arr.str", Original := .array, IndexOf := some 1, Func := none },
   .typeObj { Name := "arr*", Original := .array, IndexOf := none, Func := none },
   .typeObj { Name := "map.int", Original := .map, IndexOf := some 0, Func := none },
   .typeObj { Name := "fn", Original := .fn, IndexOf := none,
              Func := some { Params := [some 0, some 1], Result := some 0 } },
   .typeObj { Name := "fn", Original := .fn, IndexOf := none,
              Func := some { Params := [some 0, some 1], Result := some 0 } },
   .typeObj { Name := "fn", Original := .fn, IndexOf := none,
              Func := some { Params := [some 0, some 0], Result := some 0 } }]

/-- The state inside `func f { x; while c { y; | } }`: `x` is declared in
the block of the function, `y` in the block of the loop. -/
def twoScopes : compiler :=
  mkCompiler
    [{ mkBlock 1 none with VarNames := [("x", 0)], Vars := [none] },
     { mkBlock StackWhile (some 0) with VarNames := [("y", 0)], Vars := [none] }]
    [.block 0, .block 1]

/-- The state of `coVariadic` after its first statement: the current block
`block`, behind `p`, has its `Variadic` mark set. -/
def markVariadic (cmpl : compiler) (p : Nat) (block : CmdBlock) : compiler :=
  { cmpl with blocks := cmpl.blocks.set p { block with Variadic := true } }

/-- The state inside the parameters of `func f(int a | )` of a unit in which
`int` is the only registered type (object 0): the parameter `a` is declared
with the current type `int`. -/
def intParam : compiler :=
  { mkCompiler [{ mkBlock 1 none with VarNames := [("a", 0)], Vars := [some 0] }] [.block 0] with
    ws := { ws0 with
      Objects := [.typeObj { Name := "int", Original := .other "int64", IndexOf := none,
                             Func := none }] },
    unit := { InitUnit with NameSpace := [("int", 0)] },
    curType := some 0 }

/-- The token is a line token whose source character is not a semicolon: the
end of a logical line, where `colonToLine` stops. -/
def isBreak (K : Consts) (source : List Char) (t : Token) : Prop :=
  t.Type_ = K.tkLine ∧ source[t.Offset]? ≠ some ';'

/-- The tokens of `if a : b` followed by a line break and `c`, over the
source `if a:b` with a newline and `c`: token 2 is the colon, token 4 the
line token. -/
def colonLex : Lex :=
  { Source := ['i', 'f', ' ', 'a', ':', 'b', '\n', 'c'],
    Tokens := [{ Type_ := 20, Offset := 0, Length := 2 },
               { Type_ := K0.tkIdent, Offset := 3, Length := 1 },
               { Type_ := K0.tkColon, Offset := 4, Length := 1 },
               { Type_ := K0.tkIdent, Offset := 5, Length := 1 },
               { Type_ := K0.tkLine, Offset := 6, Length := 1 },
               { Type_ := K0.tkIdent, Offset := 7, Length := 1 }],
    Lines := [0, 7], Path := "" }

/-- The state of the compiler over `colonLex`, no colon resolved yet. -/
def colonState : compiler :=
  { inFunc with unit := { InitUnit with Lexeme := colonLex } }

/-- The workspace `ws1` has the objects and the units of `ws`, in their
order, and possibly more after them. -/
def grows (ws ws1 : Workspace) : Prop :=
  (∃ ext, ws1.Objects = ws.Objects ++ ext) ∧ (∃ ext, ws1.Units = ws.Units ++ ext)

/-- The compiler state with which a loop of `Compile` ends. -/
def LoopEnd.final : LoopEnd → compiler
  | .goOn c _ _ => c
  | .failed c _ => c

/-- The functions that the listed sources call without defining them only
add to the objects and to the units of the workspace, and `copyNameSpace`,
which copies names into the name space of the new unit, leaves the workspace
as it is. -/
def EnvAppends (E : Env) : Prop :=
  (∀ f c c1 e, E.funcs f c = some (c1, e) → grows c.ws c1.ws) ∧
  (∀ c c1 b e, E.coOptionalFunc c = some (c1, b, e) → grows c.ws c1.ws) ∧
  (∀ c u b, (E.copyNameSpace c u b).1.ws = c.ws)

/-- The callbacks leave the units of the workspace and their names as they
are: no other unit is compiled while a unit is. -/
def EnvKeepsUnits (E : Env) : Prop :=
  (∀ f c c1 e, E.funcs f c = some (c1, e) →
    c1.ws.Units = c.ws.Units ∧ c1.ws.UnitNames = c.ws.UnitNames) ∧
  (∀ c c1 b e, E.coOptionalFunc c = some (c1, b, e) →
    c1.ws.Units = c.ws.Units ∧ c1.ws.UnitNames = c.ws.UnitNames)

/-- A lexer for the examples: every character is a token, whose type is the
code of the character, and there is no lexical error. -/
def lexChars (src : List Char) : Lex × Nat :=
  ({ Source := src,
     Tokens := (List.range src.length).map
       (fun k => { Type_ := (src.getD k ' ').toNat, Offset := k, Length := 1 }),
     Lines := [], Path := "" }, 0)

/-- The end of a nested `Compile` of a unit named `lib`, as the callback of an
include statement runs it: the unit is appended and registered. -/
def includeLib (c : compiler) : compiler :=
  { c with
    ws := (commit { newCompiler K0 c.ws (lexChars []).1 with
                    unit := { InitUnit with Name := "lib" } } "lib.g").1 }

/-- Callbacks for the examples: 1 appends an object to the workspace, 2 fails,
3 declares the entry function `run` (object 0), 4 includes the unit `lib`. -/
def exampleFuncs (f : Nat) (c : compiler) : Option (compiler × Option CompError) :=
  if f = 1 then
    some ({ c with ws := { c.ws with Objects := c.ws.Objects ++ [.otherObj "a"] } }, none)
  else if f = 2 then some (c, some (c.Error 300 []))
  else if f = 3 then some ({ c with runID := 0 }, none)
  else if f = 4 then some (includeLib c, none)
  else some (c, none)

/-- An environment for the examples: the token `a` (97) runs callback 1, `e`
(101) callback 2, `r` (114) callback 3, `n` (110) callback 4; every entry of
the compile table stays in the current state. -/
def E0 : Env :=
  { K := K0,
    LexParsing := lexChars,
    compileTable := fun _ tok =>
      { Token := tok, State := 0,
        Func := if tok = 97 then some 1 else if tok = 101 then some 2
          else if tok = 114 then some 3 else if tok = 110 then some 4 else none,
        Callback := none, Flags := 0 },
    funcs := exampleFuncs,
    copyNameSpace := fun c _ _ => (c, none),
    coOptionalFunc := fun c => some (c, false, none) }

/-- A workspace with the standard library as unit 0 and a unit `lib` as
unit 1. -/
def wsLib : Workspace :=
  { Units := [{ InitUnit with Name := "stdlib" }, { InitUnit with Index := 1, Name := "lib" }],
    UnitNames := [("stdlib", 0), ("lib", 1)],
    Objects := [], Linked := [], IotaID := 0 }

/-- The environment `E0` without the include statement: callback 4 does
nothing. -/
def E1 : Env :=
  { E0 with funcs := fun f c => if f = 4 then some (c, none) else exampleFuncs f c }

/-- The workspace `wsLib` after the compilation of the source `a` at the path
`main.g`: one object and the unit 2, without a name, are added. -/
def wsAfterA : Workspace :=
  { Units := wsLib.Units ++
      [{ InitUnit with
         Index := 2,
         Lexeme := { Source := ['a'], Tokens := [{ Type_ := 97, Offset := 0, Length := 1 }],
                     Lines := [], Path := "main.g" } }],
    UnitNames := [("", 2), ("stdlib", 0), ("lib", 1)],
    Objects := [.otherObj "a"], Linked := [], IotaID := 0 }

/-- The workspace `wsLib` after the compilation of the source `r`, which
declares the entry function, at the path `main.g`. -/
def wsAfterR : Workspace :=
  { Units := wsLib.Units ++
      [{ InitUnit with
         Index := 2,
         Lexeme := { Source := ['r'], Tokens := [{ Type_ := 114, Offset := 0, Length := 1 }],
                     Lines := [], Path := "main.g" },
         RunID := 0, Name := "main.g" }],
    UnitNames := [("main.g", 2), ("stdlib", 0), ("lib", 1)],
    Objects := [], Linked := [], IotaID := 0 }

/-- The state `colonState` after `colonToLine` on token 2: the colon is an
open brace, the close brace stands at index 4 before the line token, and
`endColon` is 4. -/
def colonDone : compiler :=
  { colonState with
    unit := { colonState.unit with
      Lexeme := { colonLex with
        Tokens := [{ Type_ := 20, Offset := 0, Length := 2 },
                   { Type_ := K0.tkIdent, Offset := 3, Length := 1 },
                   { Type_ := K0.tkLCurly, Offset := 4, Length := 1 },
                   { Type_ := K0.tkIdent, Offset := 5, Length := 1 },
                   { Type_ := K0.tkRCurly, Offset := 6, Length := 1 },
                   { Type_ := K0.tkLine, Offset := 6, Length := 1 },
                   { Type_ := K0.tkIdent, Offset := 7, Length := 1 }] } },
    endColon := 4 }

/-- A source of three lines that start at the offsets 0, 5 and 9, with three
tokens: at offset 0, at offset 6 (of length 2) and at offset 9 (of length 3). -/
def lexLines : Lex :=
  { Source := [],
    Tokens := [{ Type_ := 2, Offset := 0, Length := 4 },
               { Type_ := 2, Offset := 6, Length := 2 },
               { Type_ := 2, Offset := 9, Length := 3 }],
    Lines := [0, 5, 9], Path := "" }

/-- The environment `E0` with one more entry in the compile table: the token
`p` (112) enters the state 7, so a frame is pushed on the state stack. -/
def E2 : Env :=
  { E0 with
    compileTable := fun st tok =>
      if tok = 112 then { Token := tok, State := 7, Func := none, Callback := none, Flags := 0 }
      else E0.compileTable st tok }

/-- The state of the compiler before the main loop for the source `p`
compiled into `wsLib` at the path `main.g`. -/
def beforeP : compiler :=
  newCompiler K0 wsLib { (lexChars ['p']).1 with Path := "main.g" }

/-- The state of the compiler after the main loop of `E2` on the source `p`:
one frame is left on the state stack. -/
def afterP : compiler :=
  { beforeP with
    next := { Token := 112, State := 7, Func := none, Callback := none, Flags := 0 },
    states := [{ Origin := { Token := 112, State := 7, Func := none, Callback := none,
                             Flags := 0 },
                 Pos := 0, State := 1 }] }

/-- The argument makes `args` fail with the flag `f`, given the arguments
`post` that follow it: it is exactly the flag and an empty argument follows
before any argument that begins with a dash, or it is the flag, `=` or `:`,
and one lone quote character. -/
def failsAt (f arg : GoString) (post : List GoString) : Prop :=
  (arg = f ∧ arg ≠ [dash] ∧
    ∃ q r, post = q ++ [] :: r ∧ ∀ a, a ∈ q → a ≠ [] ∧ a.head? ≠ some dash) ∨
  (∃ sep qt, (sep = 61 ∨ sep = 58) ∧ (qt = 34 ∨ qt = 39) ∧ arg = f ++ [sep, qt])

/-- The command line has an argument at which `args` fails with the flag `f`,
and no argument before it stops the scan or decides the lookup. -/
def failsIn (f : GoString) (l : List GoString) : Prop :=
  ∃ pre arg post, l = pre ++ arg :: post ∧
    (∀ a, a ∈ pre → a ≠ [dash] ∧ ¬ decides f a) ∧ failsAt f arg post

/-- The callback of a frame of the state stack, when it has one, run on the
state `c`: the state it leaves and its error (`c` itself without a
callback). -/
def frameCallback (E : Env) (fr : StateStack) (c : compiler) :
    Option (compiler × Option CompError) :=
  match fr.Origin.Callback with
  | some cb => E.funcs cb c
  | none => some (c, none)

/-- The frames `frs`, the first one on top, are popped one after the other
from the state `c`: the callback of each frame is run on the state that the
frames before it left, it returns no error and does not set `dynamic`, and
the top of the stack is then removed. The result is the state left. -/
def popsAll (E : Env) : List StateStack → compiler → Option compiler
  | [], c => some c
  | fr :: rest, c =>
    match frameCallback E fr c with
    | some (c1, none) =>
      if c1.dynamic = none then popsAll E rest { c1 with states := c1.states.dropLast }
      else none
    | _ => none

/-- The frame is flagged stop-back. -/
def stopBack (K : Consts) (fr : StateStack) : Bool :=
  hasFlag fr.Origin.Flags K.cfStopBack

/-- An environment in which callback 5 sets `cmpl.dynamic` to an entry of the
state 9. -/
def E3 : Env :=
  { E0 with
    funcs := fun f c =>
      if f = 5 then
        some ({ c with dynamic := some { Token := 0, State := 9, Func := none,
                                         Callback := none, Flags := 0 } }, none)
      else exampleFuncs f c }

/-- A state of the compiler whose state stack holds one frame, saved in the
state 1, with the closing callback 5. -/
def oneFrame : compiler :=
  { inFunc with
    states := [{ Origin := { Token := 0, State := 7, Func := none, Callback := some 5,
                             Flags := 0 },
                 Pos := 0, State := 1 }] }

/-- A state whose state stack holds three frames without callbacks, saved in
the states 1, 2 and 3; the middle one is flagged stop-back. -/
def threeFrames : compiler :=
  { inFunc with
    states := [{ Origin := { Token := 0, State := 7, Func := none, Callback := none,
                             Flags := 0 }, Pos := 0, State := 1 },
               { Origin := { Token := 0, State := 7, Func := none, Callback := none,
                             Flags := K0.cfStopBack }, Pos := 0, State := 2 },
               { Origin := { Token := 0, State := 7, Func := none, Callback := none,
                             Flags := 0 }, Pos := 0, State := 3 }] }

/-- The state `oneFrame` at a table entry whose next state is the backtrack
state. -/
def backOne : compiler :=
  { oneFrame with
    next := { Token := 0, State := K0.cmBack, Func := none, Callback := none, Flags := 0 } }

/-- The state `threeFrames` at a table entry whose next state is the
backtrack state. -/
def backThree : compiler :=
  { threeFrames with
    next := { Token := 0, State := K0.cmBack, Func := none, Callback := none, Flags := 0 } }

/-- The workspace `wsLib` after the compilation of the source `n`, which
includes a unit named `lib`, at the path `main.g`: the included unit is unit
2, the unit compiled is unit 3, and the name `lib` goes to unit 2. -/
def wsAfterN : Workspace :=
  { Units := wsLib.Units ++
      [{ InitUnit with Index := 2, Name := "lib" },
       { InitUnit with
         Index := 3,
         Lexeme := { Source := ['n'], Tokens := [{ Type_ := 110, Offset := 0, Length := 1 }],
                     Lines := [], Path := "main.g" } }],
    UnitNames := [("", 3), ("lib", 2), ("stdlib", 0)],
    Objects := [], Linked := [], IotaID := 0 }

/-- The state inside the parameters of `func f(arr a | )` of a unit in which
`str` (object 0) and the container `arr` (object 1) are registered: the
parameter `a` is declared with the current type `arr`. -/
def arrParam : compiler :=
  { mkCompiler [{ mkBlock 1 none with VarNames := [("a", 0)], Vars := [some 1] }] [.block 0] with
    ws := { ws0 with
      Objects := [.typeObj { Name := "str", Original := .other "string", IndexOf := none,
                             Func := none },
                  .typeObj { Name := "arr", Original := .array, IndexOf := none,
                             Func := none }] },
    unit := { InitUnit with NameSpace := [("str", 0), ("arr", 1)] },
    curType := some 1 }

/-- The state `arrParam` after `coVariadic`: the objects 2, `arr.str`, and 3,
`arr.arr.str`, are new, and slot 0 of the block holds object 3. -/
def arrParamDone : compiler :=
  { arrParam with
    blocks := [{ mkBlock 1 none with
                 VarNames := [("a", 0)], Vars := [some 3], Variadic := true }],
    ws := { ws0 with
      Objects := [.typeObj { Name := "str", Original := .other "string", IndexOf := none,
                             Func := none },
                  .typeObj { Name := "arr", Original := .array, IndexOf := none,
                             Func := none },
                  .typeObj { Name := "arr.str", Original := .array, IndexOf := some 0,
                             Func := none },
                  .typeObj { Name := "arr.arr.str", Original := .array, IndexOf := some 2,
                             Func := none }] },
    unit := { InitUnit with
      NameSpace := [("arr.arr.str", 3), ("arr.str", 2), ("str", 0), ("arr", 1)] } }

/-! ## Theorems -/

theorem isInLoopFrom_false (K : Consts) (blocks : List CmdBlock) (incase : Bool)
    (owners : List ICmd)
    (h : ∀ p, ICmd.block p ∈ owners → ∃ b, blocks[p]? = some b ∧
      ¬ (b.ID = StackWhile ∨ b.ID = K.StackFor ∨
        (incase = true ∧ (b.ID = K.StackCase ∨ b.ID = K.StackDefault)))) :
    isInLoopFrom K blocks incase owners = some false := by
  induction owners with
  | nil => rfl
  | cons item rest ih =>
    have ih1 := ih (fun p hp => h p (List.mem_cons_of_mem _ hp))
    cases item with
    | block p =>
      obtain ⟨b, hb, hn⟩ := h p (List.mem_cons_self _ _)
      simp only [isInLoopFrom, ICmd.GetType, if_true, hb, if_neg hn, ih1]
    | _ => simp [isInLoopFrom, ICmd.GetType, CtStack, ih1]

theorem isInLoopFrom_true (K : Consts) (blocks : List CmdBlock) (incase : Bool)
    (owners : List ICmd)
    (hv : ∀ p, ICmd.block p ∈ owners → ∃ b, blocks[p]? = some b)
    (h : ∃ p b, ICmd.block p ∈ owners ∧ blocks[p]? = some b ∧
      (b.ID = StackWhile ∨ b.ID = K.StackFor ∨
        (incase = true ∧ (b.ID = K.StackCase ∨ b.ID = K.StackDefault)))) :
    isInLoopFrom K blocks incase owners = some true := by
  induction owners with
  | nil =>
    obtain ⟨p, b, hp, _⟩ := h
    cases hp
  | cons item rest ih =>
    have hv1 : ∀ p, ICmd.block p ∈ rest → ∃ b, blocks[p]? = some b :=
      fun p hp => hv p (List.mem_cons_of_mem _ hp)
    have hrest : (∃ p b, ICmd.block p ∈ rest ∧ blocks[p]? = some b ∧
        (b.ID = StackWhile ∨ b.ID = K.StackFor ∨
          (incase = true ∧ (b.ID = K.StackCase ∨ b.ID = K.StackDefault)))) →
        isInLoopFrom K blocks incase rest = some true := ih hv1
    cases item with
    | block q =>
      obtain ⟨bq, hbq⟩ := hv q (List.mem_cons_self _ _)
      by_cases hc : bq.ID = StackWhile ∨ bq.ID = K.StackFor ∨
          (incase = true ∧ (bq.ID = K.StackCase ∨ bq.ID = K.StackDefault))
      · simp only [isInLoopFrom, ICmd.GetType, if_true, hbq, if_pos hc]
      · simp only [isInLoopFrom, ICmd.GetType, if_true, hbq, if_neg hc]
        apply hrest
        obtain ⟨p, b, hp, hb, hcond⟩ := h
        rcases List.mem_cons.mp hp with heq | hmem
        · cases heq
          rw [hbq] at hb
          cases hb
          exact absurd hcond hc
        · exact ⟨p, b, hmem, hb, hcond⟩
    | _ =>
      simp only [isInLoopFrom, ICmd.GetType, CtStack]
      simp only [Nat.reduceEqDiff, if_false]
      apply hrest
      obtain ⟨p, b, hp, hb, hcond⟩ := h
      rcases List.mem_cons.mp hp with heq | hmem
      · cases heq
      · exact ⟨p, b, hmem, hb, hcond⟩




theorem curOwner_mem (cmpl : compiler) (p : Nat) (h : curOwner cmpl = some p) :
    ICmd.block p ∈ cmpl.owners := by
  unfold curOwner at h
  cases hl : cmpl.owners.getLast? with
  | none => simp [hl] at h
  | some item =>
    rw [hl] at h
    cases item <;> simp at h
    subst h
    exact List.mem_of_getLast?_eq_some hl

/-! ### Maps and chains of parents -/

theorem mapGet_mapDel_ne {β : Type} (m : GoMap β) (k k1 : String) (h : k1 ≠ k) :
    mapGet (mapDel m k) k1 = mapGet m k1 := by
  induction m with
  | nil => rfl
  | cons e rest ih =>
    obtain ⟨a, v⟩ := e
    by_cases ha : a = k
    · have : a ≠ k1 := by rw [ha]; exact fun hh => h hh.symm
      simp only [mapDel, List.filter, ha, ne_eq, not_true_eq_false, decide_False, mapGet]
      rw [ha] at this
      simp only [if_neg this]
      exact ih
    · have hd : decide (a ≠ k) = true := by simpa using ha
      simp only [mapDel, List.filter, hd, mapGet]
      by_cases hk : a = k1
      · simp only [if_pos hk]
      · simp only [if_neg hk]
        exact ih

theorem mapGet_mapSet_self {β : Type} (m : GoMap β) (k : String) (v : β) :
    mapGet (mapSet m k v) k = some v := by
  simp [mapSet, mapGet]

theorem mapGet_mapSet_ne {β : Type} (m : GoMap β) (k k1 : String) (v : β) (h : k1 ≠ k) :
    mapGet (mapSet m k v) k1 = mapGet m k1 := by
  have hk : ¬ k = k1 := fun hh => h hh.symm
  simp only [mapSet, mapGet, if_neg hk]
  exact mapGet_mapDel_ne m k k1 h

theorem ancestor_none (blocks : List CmdBlock) (k : Nat) : ancestor blocks k none = none := by
  cases k <;> rfl

theorem ancestor_succ (blocks : List CmdBlock) (k : Nat) (s : Option Nat) :
    ancestor blocks (k + 1) s = ancestor blocks k (ancestor blocks 1 s) := by
  cases s with
  | none => simp [ancestor_none]
  | some p =>
    cases hb : blocks[p]? with
    | none => simp [ancestor, hb, ancestor_none]
    | some b => simp [ancestor, hb]

theorem ancestor_add (blocks : List CmdBlock) (i j : Nat) (s : Option Nat) :
    ancestor blocks (i + j) s = ancestor blocks j (ancestor blocks i s) := by
  induction i generalizing s with
  | zero => simp [ancestor]
  | succ n ih =>
    have h1 : n + 1 + j = (n + j) + 1 := by omega
    rw [h1, ancestor_succ, ih, ← ancestor_succ]

theorem ancestor_valid (blocks : List CmdBlock) (s : Option Nat) (k q : Nat)
    (hk : ancestor blocks k s = some q) (hq : q < blocks.length) (j : Nat) (hj : j ≤ k) :
    ∃ x, ancestor blocks j s = some x ∧ x < blocks.length := by
  have hsplit : ancestor blocks k s = ancestor blocks (k - j) (ancestor blocks j s) := by
    rw [← ancestor_add]
    congr 1
    omega
  cases hx : ancestor blocks j s with
  | none => rw [hsplit, hx, ancestor_none] at hk; cases hk
  | some x =>
    refine ⟨x, rfl, ?_⟩
    rw [hsplit, hx] at hk
    cases hd : k - j with
    | zero =>
      rw [hd] at hk
      simp only [ancestor, Option.some.injEq] at hk
      rw [hk]; exact hq
    | succ d =>
      rw [hd] at hk
      cases hb : blocks[x]? with
      | none => simp [ancestor, hb] at hk
      | some b =>
        by_contra hlt
        have : blocks[x]? = none := List.getElem?_eq_none (by omega)
        rw [this] at hb
        cases hb

theorem hit_bound (blocks : List CmdBlock) (token : String) (s : Option Nat) (k q : Nat)
    (hk : ancestor blocks k s = some q) (hq : declaredIn blocks token q) :
    ∃ k1 q1, k1 < blocks.length ∧ ancestor blocks k1 s = some q1 ∧
      declaredIn blocks token q1 := by
  induction k using Nat.strong_induction_on generalizing q with
  | _ k ih =>
    by_cases hlt : k < blocks.length
    · exact ⟨k, q, hlt, hk, hq⟩
    · have hqv : q < blocks.length := by
        obtain ⟨b, ind, hb, _⟩ := hq
        by_contra hn
        have : blocks[q]? = none := List.getElem?_eq_none (by omega)
        rw [this] at hb
        cases hb
      have hval := ancestor_valid blocks s k q hk hqv
      have hmaps : ∀ j ∈ Finset.range (blocks.length + 1),
          (ancestor blocks j s).getD 0 ∈ Finset.range blocks.length := by
        intro j hj
        obtain ⟨x, hx, hxl⟩ := hval j (by simp at hj; omega)
        simp [hx, hxl]
      obtain ⟨i, hi, j, hj, hne, hfij⟩ :=
        Finset.exists_ne_map_eq_of_card_lt_of_maps_to (by simp) hmaps
      simp only [Finset.mem_range] at hi hj
      obtain ⟨xi, hxi, _⟩ := hval i (by omega)
      obtain ⟨xj, hxj, _⟩ := hval j (by omega)
      have hx : xi = xj := by simpa [hxi, hxj] using hfij
      have key : ∀ a b, a < b → b ≤ blocks.length → ancestor blocks a s = ancestor blocks b s →
          ∃ k1 q1, k1 < blocks.length ∧ ancestor blocks k1 s = some q1 ∧
            declaredIn blocks token q1 := by
        intro a b hab hb heq
        have h1 : ancestor blocks (a + (k - b)) s = some q := by
          rw [ancestor_add, heq, ← ancestor_add]
          have : b + (k - b) = k := by omega
          rw [this]; exact hk
        exact ih (a + (k - b)) (by omega) q h1 hq
      rcases Nat.lt_or_gt_of_ne hne with h | h
      · exact key i j h (by omega) (by rw [hxi, hxj, hx])
      · exact key j i h (by omega) (by rw [hxi, hxj, hx])


theorem findVarFrom_first (blocks : List CmdBlock) (token : String) (k : Nat) :
    ∀ (fuel : Nat) (s : Option Nat) (q : Nat) (b : CmdBlock) (ind : Nat),
      (∀ j, j < k → ∀ x, ancestor blocks j s = some x → ¬ declaredIn blocks token x) →
      ancestor blocks k s = some q → blocks[q]? = some b →
      mapGet b.VarNames token = some ind → k < fuel →
      findVarFrom blocks token fuel s = some (some q, ind) := by
  induction k with
  | zero =>
    intro fuel s q b ind _ hk hb hg hf
    obtain ⟨f, rfl⟩ : ∃ f, fuel = f + 1 := ⟨fuel - 1, by omega⟩
    simp only [ancestor] at hk
    subst hk
    simp only [findVarFrom, hb, hg]
  | succ k ih =>
    intro fuel s q b ind hno hk hb hg hf
    obtain ⟨f, rfl⟩ : ∃ f, fuel = f + 1 := ⟨fuel - 1, by omega⟩
    cases s with
    | none => rw [ancestor_none] at hk; cases hk
    | some p =>
      cases hbp : blocks[p]? with
      | none => simp [ancestor, hbp] at hk
      | some bp =>
        have hmiss : mapGet bp.VarNames token = none := by
          cases hm : mapGet bp.VarNames token with
          | none => rfl
          | some i => exact absurd ⟨bp, i, hbp, hm⟩ (hno 0 (by omega) p rfl)
        simp only [findVarFrom, hbp, hmiss]
        simp only [ancestor, hbp] at hk
        apply ih f bp.Parent q b ind _ hk hb hg (by omega)
        intro j hj x hx
        apply hno (j + 1) (by omega) x
        simp only [ancestor, hbp]
        exact hx

theorem first_hit (blocks : List CmdBlock) (token : String) (s : Option Nat) (k : Nat) :
    ∀ q, ancestor blocks k s = some q → declaredIn blocks token q →
      ∃ k0 q0, k0 ≤ k ∧ ancestor blocks k0 s = some q0 ∧ declaredIn blocks token q0 ∧
        ∀ j, j < k0 → ∀ x, ancestor blocks j s = some x → ¬ declaredIn blocks token x := by
  induction k using Nat.strong_induction_on with
  | _ k ih =>
    intro q hk hq
    by_cases he : ∃ j, j < k ∧ ∃ x, ancestor blocks j s = some x ∧ declaredIn blocks token x
    · obtain ⟨j, hj, x, hx, hdx⟩ := he
      obtain ⟨k0, q0, hle, h1, h2, h3⟩ := ih j hj x hx hdx
      exact ⟨k0, q0, by omega, h1, h2, h3⟩
    · refine ⟨k, q, le_refl k, hk, hq, ?_⟩
      intro j hj x hx hdx
      exact he ⟨j, hj, x, hx, hdx⟩

theorem findVarFrom_found (blocks : List CmdBlock) (token : String) (s : Option Nat)
    (k q : Nat) (hk : ancestor blocks k s = some q) (hq : declaredIn blocks token q) :
    ∃ q0 ind, findVarFrom blocks token blocks.length s = some (some q0, ind) := by
  obtain ⟨k1, q1, hlt, hk1, hq1⟩ := hit_bound blocks token s k q hk hq
  obtain ⟨k0, q0, hle, hk0, ⟨b0, ind0, hb0, hg0⟩, hfirst⟩ :=
    first_hit blocks token s k1 q1 hk1 hq1
  exact ⟨q0, ind0, findVarFrom_first blocks token k0 blocks.length s q0 b0 ind0 hfirst hk0 hb0 hg0
    (by omega)⟩

theorem usedFrom_eq (blocks : List CmdBlock) (token : String) (fuel : Nat) (s : Option Nat) :
    usedFrom blocks token fuel s =
      (findVarFrom blocks token fuel s).map (fun r => r.1.isSome) := by
  induction fuel generalizing s with
  | zero => cases s <;> rfl
  | succ f ih =>
    cases s with
    | none => rfl
    | some p =>
      cases hb : blocks[p]? with
      | none => simp [usedFrom, findVarFrom, hb]
      | some b =>
        cases hm : mapGet b.VarNames token with
        | none => simp [usedFrom, findVarFrom, hb, hm, ih]
        | some i => simp [usedFrom, findVarFrom, hb, hm]

/-! ### C7: a name already in use -/

theorem coVarToken_collision (K : Consts) (cmpl : compiler) (token : String)
    (hcap : isCapital token = false) (hdot : '.' ∉ token.data)
    (h : FindType cmpl.ws cmpl.unit token ≠ none ∨
      ∃ p k q, curOwner cmpl = some p ∧ ancestor cmpl.blocks k (some p) = some q ∧
        declaredIn cmpl.blocks token q) :
    coVarToken K cmpl token = some (cmpl, some (cmpl.Error K.ErrUsedName [token])) := by
  have hcheck : checkUsedName K cmpl token = some (some (cmpl.Error K.ErrUsedName [token])) := by
    unfold checkUsedName
    cases hf : FindType cmpl.ws cmpl.unit token with
    | some i => rfl
    | none =>
      rcases h with h | ⟨p, k, q, hcur, hk, hq⟩
      · exact absurd hf h
      · obtain ⟨q0, ind, hfound⟩ := findVarFrom_found cmpl.blocks token (some p) k q hk hq
        simp only [hcur, usedFrom_eq, hfound, Option.map_some', Option.isSome_some]
  simp only [coVarToken, hcap, Bool.false_eq_true, if_false, if_neg hdot, hcheck]

theorem coVarToken_success (K : Consts) (cmpl c1 : compiler) (token : String)
    (h : coVarToken K cmpl token = some (c1, none)) :
    ∃ p block, curOwner cmpl = some p ∧ cmpl.blocks[p]? = some block ∧
      checkUsedName K cmpl token = some none ∧
      c1 = { cmpl with
              blocks := cmpl.blocks.set p
                { block with
                  VarNames := mapSet block.VarNames token block.Vars.length,
                  Optional := (if cmpl.curOptional = true then
                    mapSet block.Optional token block.Vars.length else block.Optional),
                  Vars := block.Vars ++ [cmpl.curType] } } := by
  unfold coVarToken at h
  split at h
  · simp at h
  · split at h
    · simp at h
    · cases hc : checkUsedName K cmpl token with
      | none => simp [hc] at h
      | some e =>
        cases e with
        | some err => simp [hc] at h
        | none =>
          cases hp : curOwner cmpl with
          | none => simp [hc, hp] at h
          | some p =>
            cases hb : cmpl.blocks[p]? with
            | none => simp [hc, hp, hb] at h
            | some block =>
              simp only [hc, hp, hb, Option.some.injEq, Prod.mk.injEq, and_true] at h
              refine ⟨p, block, rfl, hb, rfl, ?_⟩
              rw [← h]
              by_cases ho : cmpl.curOptional = true <;> simp [ho]

/-- C7: for every token that is lowercase-initial and contains no dot, if the
token names a known type of the unit, or is a key of `VarNames` in the current
owner block or in a block reached from it by following `Parent` any number of
times, then `coVarToken` returns the name-collision error and leaves the whole
state, so `Vars`, `VarNames` and `Optional` of the current block, unchanged; in
particular, after a successful declaration of the token a second declaration
of it fails with that error. -/
theorem coVarToken_used_name (K : Consts) (cmpl : compiler) (token : String)
    (hcap : isCapital token = false) (hdot : '.' ∉ token.data) :
    ((FindType cmpl.ws cmpl.unit token ≠ none ∨
      ∃ p k q, curOwner cmpl = some p ∧ ancestor cmpl.blocks k (some p) = some q ∧
        declaredIn cmpl.blocks token q) →
      coVarToken K cmpl token = some (cmpl, some (cmpl.Error K.ErrUsedName [token]))) ∧
    (∀ c1, coVarToken K cmpl token = some (c1, none) →
      coVarToken K c1 token = some (c1, some (c1.Error K.ErrUsedName [token]))) := by
  refine ⟨coVarToken_collision K cmpl token hcap hdot, ?_⟩
  intro c1 h1
  obtain ⟨p, block, hp, hb, _, hc1⟩ := coVarToken_success K cmpl c1 token h1
  apply coVarToken_collision K c1 token hcap hdot
  right
  have hlt : p < cmpl.blocks.length := by
    rcases Nat.lt_or_ge p cmpl.blocks.length with h | h
    · exact h
    · rw [List.getElem?_eq_none h] at hb; cases hb
  refine ⟨p, 0, p, ?_, rfl, ?_⟩
  · rw [hc1]; exact hp
  · unfold declaredIn
    rw [hc1]
    simp only [List.getElem?_set_self hlt]
    exact ⟨_, _, rfl, mapGet_mapSet_self _ _ _⟩

/-- The double declaration `x x` in the block of a function: the first call
declares `x` in slot 0, the second one is refused and changes nothing. -/
theorem coVarToken_used_name_witness :
    coVarToken K0 inFunc "x" = some (declaredX, none) ∧
    coVarToken K0 declaredX "x" = some (declaredX, some (declaredX.Error K0.ErrUsedName ["x"])) :=
  ⟨by decide,
   (coVarToken_used_name K0 inFunc "x" (by decide) (by decide)).2 declaredX (by decide)⟩

theorem coVarToken_error (K : Consts) (cmpl c1 : compiler) (token : String) (e : CompError)
    (h : coVarToken K cmpl token = some (c1, some e)) : c1 = cmpl := by
  unfold coVarToken at h
  split at h
  · simp only [Option.some.injEq, Prod.mk.injEq] at h
    exact h.1.symm
  · split at h
    · simp only [Option.some.injEq, Prod.mk.injEq] at h
      exact h.1.symm
    · cases hc : checkUsedName K cmpl token with
      | none => simp [hc] at h
      | some r =>
        cases r with
        | some err =>
          simp only [hc, Option.some.injEq, Prod.mk.injEq] at h
          exact h.1.symm
        | none =>
          cases hp : curOwner cmpl with
          | none => simp [hc, hp] at h
          | some p =>
            cases hb : cmpl.blocks[p]? with
            | none => simp [hc, hp, hb] at h
            | some block => simp [hc, hp, hb] at h

theorem checkUsedName_miss (K : Consts) (cmpl : compiler) (token : String) (p : Nat)
    (block : CmdBlock) (hp : curOwner cmpl = some p) (hb : cmpl.blocks[p]? = some block)
    (h : checkUsedName K cmpl token = some none) : mapGet block.VarNames token = none := by
  have hlt : p < cmpl.blocks.length := by
    rcases Nat.lt_or_ge p cmpl.blocks.length with h | h
    · exact h
    · rw [List.getElem?_eq_none h] at hb; cases hb
  obtain ⟨n, hn⟩ : ∃ n, cmpl.blocks.length = n + 1 := ⟨cmpl.blocks.length - 1, by omega⟩
  unfold checkUsedName at h
  cases hf : FindType cmpl.ws cmpl.unit token with
  | some i => simp [hf] at h
  | none =>
    simp only [hf, hp, hn, usedFrom, hb] at h
    cases hm : mapGet block.VarNames token with
    | none => rfl
    | some i => simp [hm] at h

theorem slotInv_declare (block : CmdBlock) (token : String) (o : GoMap Nat) (t : Option Nat)
    (hinv : slotInv block) :
    slotInv { block with
      VarNames := mapSet block.VarNames token block.Vars.length,
      Optional := o, Vars := block.Vars ++ [t] } := by
  obtain ⟨hlt, hinj⟩ := hinv
  have key : ∀ n i, mapGet (mapSet block.VarNames token block.Vars.length) n = some i →
      (n = token ∧ i = block.Vars.length) ∨ (n ≠ token ∧ mapGet block.VarNames n = some i) := by
    intro n i h
    by_cases hn : n = token
    · subst hn
      rw [mapGet_mapSet_self] at h
      exact Or.inl ⟨rfl, (Option.some.inj h).symm⟩
    · rw [mapGet_mapSet_ne _ _ _ _ hn] at h
      exact Or.inr ⟨hn, h⟩
  constructor
  · intro n i h
    simp only [List.length_append, List.length_singleton]
    rcases key n i h with ⟨_, hi⟩ | ⟨_, hi⟩
    · omega
    · have := hlt n i hi
      omega
  · intro n m i h1 h2
    rcases key n i h1 with ⟨hn, hi⟩ | ⟨hn, hi⟩ <;> rcases key m i h2 with ⟨hm, hj⟩ | ⟨hm, hj⟩
    · rw [hn, hm]
    · have := hlt m i hj
      omega
    · have := hlt n i hi
      omega
    · exact hinj n m i hi hj

/-! ### The type resolver -/

theorem cutDot_spec (l : List Char) :
    ∀ a b, cutDot l = some (a, b) → l = a ++ '.' :: b := by
  induction l with
  | nil => intro a b h; simp [cutDot] at h
  | cons c rest ih =>
    intro a b h
    unfold cutDot at h
    split at h
    · rename_i hc
      simp only [Option.some.injEq, Prod.mk.injEq] at h
      rw [← h.1, ← h.2, hc]
      rfl
    · cases hr : cutDot rest with
      | none => simp [hr] at h
      | some r =>
        obtain ⟨a1, b1⟩ := r
        simp only [hr, Option.some.injEq, Prod.mk.injEq] at h
        rw [← h.1, ← h.2, ih a1 b1 hr]
        rfl

theorem SplitN2_cases (n : String) :
    SplitN2 n = [n] ∨ ∃ a b, SplitN2 n = [String.mk a, String.mk b] ∧ n.data = a ++ '.' :: b := by
  unfold SplitN2
  cases h : cutDot n.data with
  | none => exact Or.inl rfl
  | some r =>
    obtain ⟨a, b⟩ := r
    exact Or.inr ⟨a, b, rfl, cutDot_spec n.data a b h⟩

theorem autoTypeFuel_succ (K : Consts) (fuel : Nat) (cmpl : compiler) (name : String) :
    autoTypeFuel K (fuel + 1) cmpl name =
      match FindType cmpl.ws cmpl.unit (fullName name) with
      | some obj => some (cmpl, some obj, none)
      | none =>
        match generic (fullName name) with
        | some (kind, rest) => wrapType K (fullName name) kind (autoTypeFuel K fuel cmpl rest)
        | none => some (cmpl, none, some (cmpl.Error K.ErrType [])) := by
  rw [autoTypeFuel]
  cases FindType cmpl.ws cmpl.unit (fullName name) with
  | some obj => rfl
  | none =>
    simp only [generic]
    rcases SplitN2_cases (fullName name) with h | ⟨a, b, h, _⟩
    · rw [h]
    · rw [h]
      simp only
      by_cases h1 : String.mk a = "arr"
      · simp only [h1, if_true]
      · by_cases h2 : String.mk a = "map"
        · simp only [h2, if_true]
          rfl
        · simp only [h1, h2, if_false]

theorem generic_data (n : String) (kind : GoType) (rest : String)
    (h : generic n = some (kind, rest)) :
    (kind = GoType.array ∧ n.data = 'a' :: 'r' :: 'r' :: '.' :: rest.data) ∨
    (kind = GoType.map ∧ n.data = 'm' :: 'a' :: 'p' :: '.' :: rest.data) := by
  unfold generic at h
  rcases SplitN2_cases n with h0 | ⟨a, b, h0, hd⟩
  · rw [h0] at h; cases h
  · rw [h0] at h
    simp only at h
    by_cases h1 : String.mk a = "arr"
    · simp only [h1, if_true, Option.some.injEq, Prod.mk.injEq] at h
      have ha : a = ['a', 'r', 'r'] := congrArg String.data h1
      left
      refine ⟨h.1.symm, ?_⟩
      rw [hd, ha, ← h.2]
      rfl
    · by_cases h2 : String.mk a = "map"
      · have hne : ¬ ("map" = "arr") := by decide
        simp only [h2, hne, if_true, if_false, Option.some.injEq, Prod.mk.injEq] at h
        have ha : a = ['m', 'a', 'p'] := congrArg String.data h2
        right
        refine ⟨h.1.symm, ?_⟩
        rw [hd, ha, ← h.2]
        rfl
      · simp [h1, h2] at h

theorem generic_arr (rest : String) : generic ("arr." ++ rest) = some (GoType.array, rest) := by
  have hd : ("arr." ++ rest).data = 'a' :: 'r' :: 'r' :: '.' :: rest.data := by
    rw [String.data_append]; rfl
  simp [generic, SplitN2, hd, cutDot]

theorem generic_map (rest : String) : generic ("map." ++ rest) = some (GoType.map, rest) := by
  have hd : ("map." ++ rest).data = 'm' :: 'a' :: 'p' :: '.' :: rest.data := by
    rw [String.data_append]; rfl
  simp [generic, SplitN2, hd, cutDot]

theorem typesAdded_refl (cmpl : compiler) : typesAdded cmpl cmpl :=
  ⟨rfl, [], (List.append_nil _).symm⟩

theorem typesAdded_trans (a b c : compiler) (h1 : typesAdded a b) (h2 : typesAdded b c) :
    typesAdded a c := by
  obtain ⟨e1, x1, hx1⟩ := h1
  obtain ⟨e2, x2, hx2⟩ := h2
  refine ⟨?_, x1 ++ x2, ?_⟩
  · rw [e2]
    rw [e1]
  · rw [hx2, hx1, List.append_assoc]

theorem typesAdded_NewType (c : compiler) (name : String) (kind : GoType) (idx : Nat) :
    typesAdded c (NewType c name kind idx).1 :=
  ⟨rfl, _, rfl⟩

theorem FindType_NewType (c : compiler) (name : String) (kind : GoType) (idx : Nat) :
    FindType (NewType c name kind idx).1.ws (NewType c name kind idx).1.unit name =
      (NewType c name kind idx).2 := by
  simp only [FindType, NewType, mapGet_mapSet_self]
  rw [List.getElem?_append_right (le_refl _)]
  simp

theorem autoTypeFuel_cases (K : Consts) (fuel : Nat) (cmpl c1 : compiler) (name : String)
    (obj : Option Nat) (e : Option CompError)
    (h : autoTypeFuel K (fuel + 1) cmpl name = some (c1, obj, e)) :
    (FindType cmpl.ws cmpl.unit (fullName name) = obj ∧ obj ≠ none ∧ c1 = cmpl ∧ e = none) ∨
    (FindType cmpl.ws cmpl.unit (fullName name) = none ∧
      ∃ kind rest c0 idx, generic (fullName name) = some (kind, rest) ∧
        autoTypeFuel K fuel cmpl rest = some (c0, some idx, e) ∧
        (c1, obj) = NewType c0 (fullName name) kind idx) ∨
    (FindType cmpl.ws cmpl.unit (fullName name) = none ∧ obj = none ∧
      e = some (c1.Error K.ErrType []) ∧
      ((generic (fullName name) = none ∧ c1 = cmpl) ∨
        ∃ kind rest e0, generic (fullName name) = some (kind, rest) ∧
          autoTypeFuel K fuel cmpl rest = some (c1, none, e0))) := by
  rw [autoTypeFuel_succ] at h
  cases hf : FindType cmpl.ws cmpl.unit (fullName name) with
  | some o =>
    simp only [hf, Option.some.injEq, Prod.mk.injEq] at h
    left
    refine ⟨h.2.1, ?_, h.1.symm, h.2.2.symm⟩
    rw [← h.2.1]
    simp
  | none =>
    right
    simp only [hf] at h
    cases hg : generic (fullName name) with
    | none =>
      simp only [hg, Option.some.injEq, Prod.mk.injEq] at h
      right
      refine ⟨rfl, h.2.1.symm, ?_, Or.inl ⟨rfl, h.1.symm⟩⟩
      rw [← h.2.2, ← h.1]
    | some kr =>
      obtain ⟨kind, rest⟩ := kr
      simp only [hg] at h
      cases hr : autoTypeFuel K fuel cmpl rest with
      | none => simp [hr, wrapType] at h
      | some r =>
        obtain ⟨c0, o0, e0⟩ := r
        cases o0 with
        | none =>
          simp only [hr, wrapType, Option.some.injEq, Prod.mk.injEq] at h
          right
          refine ⟨rfl, h.2.1.symm, ?_, Or.inr ⟨kind, rest, e0, rfl, ?_⟩⟩
          · rw [← h.2.2, ← h.1]
          · rw [← h.1]
            exact hr
        | some idx =>
          simp only [hr, wrapType, NewType, Option.some.injEq, Prod.mk.injEq] at h
          left
          refine ⟨rfl, kind, rest, c0, idx, rfl, ?_, ?_⟩
          · rw [← h.2.2]
            exact hr
          · simp only [NewType, Prod.mk.injEq]
            exact ⟨h.1.symm, h.2.1.symm⟩

theorem autoTypeFuel_shape (K : Consts) (fuel : Nat) :
    ∀ (cmpl c1 : compiler) (name : String) (obj : Option Nat) (e : Option CompError),
      autoTypeFuel K fuel cmpl name = some (c1, obj, e) →
      (∃ o, obj = some o ∧ e = none ∧ FindType c1.ws c1.unit (fullName name) = some o ∧
        typesAdded cmpl c1) ∨
      (obj = none ∧ e = some (cmpl.Error K.ErrType []) ∧ c1 = cmpl) := by
  induction fuel with
  | zero => intro cmpl c1 name obj e h; simp [autoTypeFuel] at h
  | succ f ih =>
    intro cmpl c1 name obj e h
    rcases autoTypeFuel_cases K f cmpl c1 name obj e h with
      ⟨hf, hne, hc, he⟩ | ⟨_, kind, rest, c0, idx, _, hr, hn⟩ |
      ⟨_, ho, he, ⟨_, hc⟩ | ⟨kind, rest, e0, _, hr⟩⟩
    · left
      cases obj with
      | none => exact absurd rfl hne
      | some o => exact ⟨o, rfl, he, by rw [hc]; exact hf, by rw [hc]; exact typesAdded_refl cmpl⟩
    · left
      rcases ih cmpl c0 rest (some idx) e hr with ⟨o, _, he, _, hadd⟩ | ⟨hno, _, _⟩
      · have h1 : c1 = (NewType c0 (fullName name) kind idx).1 := congrArg Prod.fst hn
        have h2 : obj = (NewType c0 (fullName name) kind idx).2 := congrArg Prod.snd hn
        refine ⟨c0.ws.Objects.length, h2, he, ?_, ?_⟩
        · rw [h1, FindType_NewType]
          rfl
        · rw [h1]
          exact typesAdded_trans _ _ _ hadd (typesAdded_NewType c0 _ kind idx)
      · cases hno
    · right
      rw [hc] at he
      exact ⟨ho, he, hc⟩
    · right
      rcases ih cmpl c1 rest none e0 hr with ⟨o, ho1, _⟩ | ⟨_, _, hc⟩
      · cases ho1
      · rw [hc] at he
        exact ⟨ho, he, hc⟩

theorem autoTypeFuel_mono (K : Consts) (f : Nat) :
    ∀ (cmpl : compiler) (name : String) (r : compiler × Option Nat × Option CompError),
      autoTypeFuel K f cmpl name = some r →
      ∀ g, f ≤ g → autoTypeFuel K g cmpl name = some r := by
  induction f with
  | zero => intro cmpl name r h; simp [autoTypeFuel] at h
  | succ f ih =>
    intro cmpl name r h g hg
    obtain ⟨g1, rfl⟩ : ∃ g1, g = g1 + 1 := ⟨g - 1, by omega⟩
    rw [autoTypeFuel_succ] at h ⊢
    cases hf : FindType cmpl.ws cmpl.unit (fullName name) with
    | some o => simpa [hf] using h
    | none =>
      simp only [hf] at h ⊢
      cases hgen : generic (fullName name) with
      | none => simpa [hgen] using h
      | some kr =>
        obtain ⟨kind, rest⟩ := kr
        simp only [hgen] at h ⊢
        cases hr : autoTypeFuel K f cmpl rest with
        | none => simp [hr, wrapType] at h
        | some r0 =>
          rw [ih cmpl rest r0 hr g1 (by omega)]
          rw [hr] at h
          exact h

theorem wrapType_some (K : Consts) (name : String) (kind : GoType)
    (r : compiler × Option Nat × Option CompError) :
    ∃ r1, wrapType K name kind (some r) = some r1 := by
  obtain ⟨c, o, e⟩ := r
  cases o with
  | none => exact ⟨_, rfl⟩
  | some idx => exact ⟨_, rfl⟩

theorem generic_rest (n : String) (kind : GoType) (rest : String)
    (h : generic n = some (kind, rest)) :
    rest.length + 4 = n.length ∧ rest.data <:+ n.data := by
  have hd : ∃ pre : List Char, pre.length = 4 ∧ n.data = pre ++ rest.data := by
    rcases generic_data n kind rest h with ⟨_, hd⟩ | ⟨_, hd⟩
    · exact ⟨['a', 'r', 'r', '.'], rfl, hd⟩
    · exact ⟨['m', 'a', 'p', '.'], rfl, hd⟩
  obtain ⟨pre, hl, hd⟩ := hd
  constructor
  · show rest.data.length + 4 = n.data.length
    rw [hd, List.length_append, hl]
    omega
  · exact ⟨pre, hd.symm⟩

theorem HasSuffix_iff (s suffix : String) : HasSuffix s suffix = true ↔ suffix.data <:+ s.data := by
  unfold HasSuffix
  exact List.isSuffixOf_iff_suffix

theorem nosuffix_rest (n : String) (kind : GoType) (rest : String)
    (h : generic n = some (kind, rest))
    (hn : ¬ (HasSuffix n ".arr" = true ∨ HasSuffix n ".map" = true)) :
    ¬ (HasSuffix rest ".arr" = true ∨ HasSuffix rest ".map" = true) := by
  obtain ⟨_, hs⟩ := generic_rest n kind rest h
  intro hc
  apply hn
  rcases hc with hc | hc
  · exact Or.inl ((HasSuffix_iff _ _).2 (((HasSuffix_iff _ _).1 hc).trans hs))
  · exact Or.inr ((HasSuffix_iff _ _).2 (((HasSuffix_iff _ _).1 hc).trans hs))

theorem nosuffix_str (n : String) :
    ¬ (HasSuffix (n ++ ".str") ".arr" = true ∨ HasSuffix (n ++ ".str") ".map" = true) := by
  have hs : ".str".data <:+ (n ++ ".str").data := ⟨n.data, by rw [String.data_append]⟩
  intro hc
  rcases hc with hc | hc
  · have h1 := (HasSuffix_iff _ _).1 hc
    have := List.IsSuffix.eq_of_length
      (List.suffix_of_suffix_length_le h1 hs (by decide)) (by decide)
    exact absurd this (by decide)
  · have h1 := (HasSuffix_iff _ _).1 hc
    have := List.IsSuffix.eq_of_length
      (List.suffix_of_suffix_length_le h1 hs (by decide)) (by decide)
    exact absurd this (by decide)

theorem fullName_plain (n : String)
    (hn : ¬ (HasSuffix n ".arr" = true ∨ HasSuffix n ".map" = true)) : fullName n = n := by
  simp only [fullName, if_neg hn]

theorem fullName_suffixed (n : String)
    (hn : HasSuffix n ".arr" = true ∨ HasSuffix n ".map" = true) : fullName n = n ++ ".str" := by
  simp only [fullName, if_pos hn]

theorem fullName_idem (n : String) : fullName (fullName n) = fullName n := by
  by_cases hn : HasSuffix n ".arr" = true ∨ HasSuffix n ".map" = true
  · rw [fullName_suffixed n hn, fullName_plain _ (nosuffix_str n)]
  · rw [fullName_plain n hn, fullName_plain n hn]

theorem autoTypeFuel_total_plain (K : Consts) (f : Nat) :
    ∀ (cmpl : compiler) (n : String),
      ¬ (HasSuffix n ".arr" = true ∨ HasSuffix n ".map" = true) → n.length < f →
      ∃ r, autoTypeFuel K f cmpl n = some r := by
  induction f with
  | zero => intro cmpl n _ h; omega
  | succ f ih =>
    intro cmpl n hn hlen
    rw [autoTypeFuel_succ, fullName_plain n hn]
    cases hf : FindType cmpl.ws cmpl.unit n with
    | some o => exact ⟨_, rfl⟩
    | none =>
      cases hg : generic n with
      | none => exact ⟨_, rfl⟩
      | some kr =>
        obtain ⟨kind, rest⟩ := kr
        obtain ⟨hl, _⟩ := generic_rest n kind rest hg
        obtain ⟨r, hr⟩ := ih cmpl rest (nosuffix_rest n kind rest hg hn) (by omega)
        simp only [hr]
        exact wrapType_some K n kind r

theorem autoType_total (K : Consts) (cmpl : compiler) (n : String) :
    ∃ r, autoType K cmpl n = some r := by
  unfold autoType
  by_cases hn : HasSuffix n ".arr" = true ∨ HasSuffix n ".map" = true
  · rw [show n.length + 2 = (n.length + 1) + 1 from rfl, autoTypeFuel_succ,
      fullName_suffixed n hn]
    cases hf : FindType cmpl.ws cmpl.unit (n ++ ".str") with
    | some o => exact ⟨_, rfl⟩
    | none =>
      cases hg : generic (n ++ ".str") with
      | none => exact ⟨_, rfl⟩
      | some kr =>
        obtain ⟨kind, rest⟩ := kr
        obtain ⟨hl, _⟩ := generic_rest _ kind rest hg
        have hlen : (n ++ ".str").length = n.length + 4 := by
          rw [String.length_append]; rfl
        obtain ⟨r, hr⟩ := autoTypeFuel_total_plain K (n.length + 1) cmpl rest
          (nosuffix_rest _ kind rest hg (nosuffix_str n)) (by omega)
        simp only [hr]
        exact wrapType_some K _ kind r
  · exact autoTypeFuel_total_plain K (n.length + 2) cmpl n hn (by omega)

theorem autoTypeFuel_eq_autoType (K : Consts) (f : Nat) (cmpl : compiler) (n : String)
    (r : compiler × Option Nat × Option CompError)
    (h : autoTypeFuel K f cmpl n = some r) : autoType K cmpl n = some r := by
  obtain ⟨r1, hr1⟩ := autoType_total K cmpl n
  rcases Nat.le_total f (n.length + 2) with hle | hle
  · exact autoTypeFuel_mono K f cmpl n r h _ hle
  · have := autoTypeFuel_mono K _ cmpl n r1 hr1 f hle
    rw [h] at this
    rw [hr1, Option.some.inj this]

theorem autoType_unfold (K : Consts) (cmpl : compiler) (n : String) :
    autoType K cmpl n =
      match FindType cmpl.ws cmpl.unit (fullName n) with
      | some obj => some (cmpl, some obj, none)
      | none =>
        match generic (fullName n) with
        | some (kind, rest) => wrapType K (fullName n) kind (autoType K cmpl rest)
        | none => some (cmpl, none, some (cmpl.Error K.ErrType [])) := by
  obtain ⟨r, hr⟩ := autoType_total K cmpl n
  have h := hr
  unfold autoType at h
  rw [show n.length + 2 = (n.length + 1) + 1 from rfl, autoTypeFuel_succ] at h
  rw [hr, ← h]
  cases hf : FindType cmpl.ws cmpl.unit (fullName n) with
  | some o => rfl
  | none =>
    cases hg : generic (fullName n) with
    | none => rfl
    | some kr =>
      obtain ⟨kind, rest⟩ := kr
      simp only [hf, hg] at h ⊢
      cases hrest : autoTypeFuel K (n.length + 1) cmpl rest with
      | none => simp [hrest, wrapType] at h
      | some r0 => rw [autoTypeFuel_eq_autoType K _ cmpl rest r0 hrest]

theorem autoType_shape (K : Consts) (cmpl c1 : compiler) (name : String) (obj : Option Nat)
    (e : Option CompError) (h : autoType K cmpl name = some (c1, obj, e)) :
    (∃ o, obj = some o ∧ e = none ∧ FindType c1.ws c1.unit (fullName name) = some o ∧
      typesAdded cmpl c1) ∨
    (obj = none ∧ e = some (cmpl.Error K.ErrType []) ∧ c1 = cmpl) :=
  autoTypeFuel_shape K _ cmpl c1 name obj e h

theorem autoType_again (K : Consts) (cmpl c1 : compiler) (name : String) (obj : Option Nat)
    (e : Option CompError) (h : autoType K cmpl name = some (c1, obj, e)) :
    autoType K c1 name = some (c1, obj, e) := by
  rcases autoType_shape K cmpl c1 name obj e h with ⟨o, ho, he, hf, _⟩ | ⟨_, _, hc⟩
  · rw [autoType_unfold, hf, ho, he]
  · rw [hc]
    rw [hc] at h
    exact h

theorem generic_form (n : String) (kind : GoType) (rest : String)
    (h : generic n = some (kind, rest)) :
    (kind = GoType.array ∧ n = "arr." ++ rest) ∨ (kind = GoType.map ∧ n = "map." ++ rest) := by
  rcases generic_data n kind rest h with ⟨hk, hd⟩ | ⟨hk, hd⟩
  · left
    refine ⟨hk, String.ext ?_⟩
    rw [hd, String.data_append]
    rfl
  · right
    refine ⟨hk, String.ext ?_⟩
    rw [hd, String.data_append]
    rfl

theorem wrapType_found (K : Consts) (name : String) (kind : GoType) (c0 : compiler)
    (idx : Nat) :
    wrapType K name kind (some (c0, some idx, none)) =
      some ((NewType c0 name kind idx).1, some c0.ws.Objects.length, none) := rfl

theorem wrapType_failed (K : Consts) (name : String) (kind : GoType) (c0 : compiler)
    (e : Option CompError) :
    wrapType K name kind (some (c0, none, e)) =
      some (c0, none, some (c0.Error K.ErrType [])) := rfl

theorem autoType_suffixed (K : Consts) (cmpl : compiler) (n : String)
    (hn : HasSuffix n ".arr" = true ∨ HasSuffix n ".map" = true) :
    autoType K cmpl n = autoType K cmpl (n ++ ".str") := by
  rw [autoType_unfold K cmpl n, autoType_unfold K cmpl (n ++ ".str"),
    fullName_suffixed n hn, fullName_plain _ (nosuffix_str n)]

theorem suffix_of_composed (pre : List Char) (T : String) (suf : String)
    (_hpre : pre.length = 4) (hsuf : suf.length = 4)
    (h : suf.data <:+ pre ++ T.data) (hlen : 4 ≤ T.length) : HasSuffix T suf = true := by
  rw [HasSuffix_iff]
  exact List.suffix_of_suffix_length_le h ⟨pre, rfl⟩ (by
    have h1 : suf.data.length = 4 := hsuf
    have h2 : 4 ≤ T.data.length := hlen
    omega)

theorem short_suffix (pre suf T : List Char) (_hpre : pre.length = 4) (hsuf : suf.length = 4)
    (h : suf <:+ pre ++ T) (hlen : T.length < 4) :
    suf = pre.drop T.length ++ T := by
  obtain ⟨front, hf⟩ := h
  have hl : front.length = T.length := by
    have := congrArg List.length hf
    simp only [List.length_append] at this
    omega
  have h1 : pre ++ T = pre.take T.length ++ (pre.drop T.length ++ T) := by
    rw [← List.append_assoc, List.take_append_drop]
  rw [h1] at hf
  have hl2 : front.length = (pre.take T.length).length := by
    rw [List.length_take, hl]
    omega
  exact (List.append_inj hf hl2).2

theorem short_composed (P S d : List Char)
    (hP : P = ['a', 'r', 'r', '.'] ∨ P = ['m', 'a', 'p', '.'])
    (hS : S = ['.', 'a', 'r', 'r'] ∨ S = ['.', 'm', 'a', 'p'])
    (h : S = P.drop d.length ++ d) (hlen : d.length < 4) :
    d = ['a', 'r', 'r'] ∨ d = ['m', 'a', 'p'] := by
  rcases d with _ | ⟨a, _ | ⟨b, _ | ⟨c, _ | ⟨x, rest⟩⟩⟩⟩
  · rcases hP with rfl | rfl <;> rcases hS with rfl | rfl <;> simp at h
  · rcases hP with rfl | rfl <;> rcases hS with rfl | rfl <;> simp at h
  · rcases hP with rfl | rfl <;> rcases hS with rfl | rfl <;> simp at h
  · rcases hP with rfl | rfl <;> rcases hS with rfl | rfl <;>
      simp only [List.length_cons, List.length_nil, List.drop_succ_cons, List.drop_zero,
        List.cons_append, List.nil_append, List.cons.injEq, true_and, and_true] at h
    · left; rw [← h.1, ← h.2.1, ← h.2.2]
    · right; rw [← h.1, ← h.2.1, ← h.2.2]
    · left; rw [← h.1, ← h.2.1, ← h.2.2]
    · right; rw [← h.1, ← h.2.1, ← h.2.2]
  · simp only [List.length_cons] at hlen
    omega

theorem composed_suffix (pre T : String) (hpre : pre = "arr." ∨ pre = "map.")
    (h : HasSuffix (pre ++ T) ".arr" = true ∨ HasSuffix (pre ++ T) ".map" = true) :
    (HasSuffix T ".arr" = true ∨ HasSuffix T ".map" = true) ∨ T = "arr" ∨ T = "map" := by
  have hP : pre.data = ['a', 'r', 'r', '.'] ∨ pre.data = ['m', 'a', 'p', '.'] := by
    rcases hpre with rfl | rfl
    · exact Or.inl rfl
    · exact Or.inr rfl
  have hP4 : pre.data.length = 4 := by
    rcases hP with h | h <;> rw [h] <;> rfl
  by_cases hlen : 4 ≤ T.length
  · left
    rcases h with h | h
    · rw [HasSuffix_iff, String.data_append] at h
      exact Or.inl (suffix_of_composed pre.data T ".arr" hP4 rfl h hlen)
    · rw [HasSuffix_iff, String.data_append] at h
      exact Or.inr (suffix_of_composed pre.data T ".map" hP4 rfl h hlen)
  · right
    have hl : T.data.length < 4 := by
      have : T.length = T.data.length := rfl
      omega
    have key : T.data = ['a', 'r', 'r'] ∨ T.data = ['m', 'a', 'p'] := by
      rcases h with h | h
      · rw [HasSuffix_iff, String.data_append] at h
        exact short_composed pre.data _ T.data hP (Or.inl rfl)
          (short_suffix pre.data _ T.data hP4 rfl h hl) hl
      · rw [HasSuffix_iff, String.data_append] at h
        exact short_composed pre.data _ T.data hP (Or.inr rfl)
          (short_suffix pre.data _ T.data hP4 rfl h hl) hl
    rcases key with k | k
    · exact Or.inl (String.ext k)
    · exact Or.inr (String.ext k)

theorem generic_composed (pre T : String) (hpre : pre = "arr." ∨ pre = "map.") :
    ∃ kind, generic (pre ++ T) = some (kind, T) := by
  rcases hpre with rfl | rfl
  · exact ⟨_, generic_arr T⟩
  · exact ⟨_, generic_map T⟩

theorem autoType_composed (K : Consts) (cmpl c0 : compiler) (pre T : String) (t : Nat)
    (hpre : pre = "arr." ∨ pre = "map.") (h1 : T ≠ "arr") (h2 : T ≠ "map")
    (hT : autoType K cmpl T = some (c0, some t, none)) :
    ∃ c1 o, autoType K cmpl (pre ++ T) = some (c1, some o, none) := by
  rw [autoType_unfold]
  cases hf : FindType cmpl.ws cmpl.unit (fullName (pre ++ T)) with
  | some o => exact ⟨_, _, rfl⟩
  | none =>
    by_cases hs : HasSuffix (pre ++ T) ".arr" = true ∨ HasSuffix (pre ++ T) ".map" = true
    · rcases composed_suffix pre T hpre hs with hTs | hT1 | hT2
      · obtain ⟨kind, hg⟩ := generic_composed pre (T ++ ".str") hpre
        have hn : fullName (pre ++ T) = pre ++ (T ++ ".str") := by
          rw [fullName_suffixed _ hs, String.append_assoc]
        rw [hn, hg]
        simp only
        rw [← autoType_suffixed K cmpl T hTs, hT]
        exact ⟨_, _, rfl⟩
      · exact absurd hT1 h1
      · exact absurd hT2 h2
    · obtain ⟨kind, hg⟩ := generic_composed pre T hpre
      rw [fullName_plain _ hs, hg]
      simp only
      rw [hT]
      exact ⟨_, _, rfl⟩

/-! ### Equality of types -/

theorem isEqualTypes_succ (objs : List IObject) (fuel l r : Nat) :
    isEqualTypes objs (fuel + 1) (some l) (some r) =
      match typeAt objs l, typeAt objs r with
      | some left, some right =>
        match left.Original with
        | .fn =>
          if right.Original ≠ GoType.fn then some false
          else
            match left.Func, right.Func with
            | some lf, some rf =>
              if lf.Params.length ≠ rf.Params.length then some false
              else
                match isEqualTypes objs fuel lf.Result rf.Result with
                | none => none
                | some false => some false
                | some true => eqParams (isEqualTypes objs fuel) lf.Params rf.Params
            | _, _ => none
        | .array =>
          if right.Original ≠ GoType.array then some false
          else if left.IndexOf = none ∨ right.IndexOf = none then some true
          else isEqualTypes objs fuel left.IndexOf right.IndexOf
        | .map =>
          if right.Original ≠ GoType.map then some false
          else if left.IndexOf = none ∨ right.IndexOf = none then some true
          else isEqualTypes objs fuel left.IndexOf right.IndexOf
        | .other _ => some (decide (l = r))
      | _, _ => none := by
  rw [isEqualTypes]

theorem eqParams_mono (eq1 eq2 : Option Nat → Option Nat → Option Bool)
    (h : ∀ a b v, eq1 a b = some v → eq2 a b = some v) :
    ∀ (ls rs : List (Option Nat)) (v : Bool),
      eqParams eq1 ls rs = some v → eqParams eq2 ls rs = some v := by
  intro ls
  induction ls with
  | nil => intro rs v hv; simpa [eqParams] using hv
  | cons a ls ih =>
    intro rs v hv
    cases rs with
    | nil => simp [eqParams] at hv
    | cons b rs =>
      simp only [eqParams] at hv ⊢
      cases he : eq1 a b with
      | none => simp [he] at hv
      | some w =>
        rw [h a b w he]
        cases w with
        | false => simpa [he] using hv
        | true =>
          simp only [he] at hv
          exact ih rs v hv

theorem isEqualTypes_mono (objs : List IObject) (f : Nat) :
    ∀ (l r : Option Nat) (v : Bool), isEqualTypes objs f l r = some v →
      ∀ g, f ≤ g → isEqualTypes objs g l r = some v := by
  induction f with
  | zero =>
    intro l r v h g _
    cases l <;> cases r <;> simp [isEqualTypes] at h ⊢ <;> exact h
  | succ f ih =>
    intro l r v h g hg
    obtain ⟨g1, rfl⟩ : ∃ g1, g = g1 + 1 := ⟨g - 1, by omega⟩
    cases l with
    | none => cases r <;> simp [isEqualTypes] at h ⊢ <;> exact h
    | some l =>
      cases r with
      | none => simp [isEqualTypes] at h ⊢; exact h
      | some r =>
        rw [isEqualTypes_succ] at h ⊢
        have ihg : ∀ a b w, isEqualTypes objs f a b = some w →
            isEqualTypes objs g1 a b = some w :=
          fun a b w hw => ih a b w hw g1 (by omega)
        cases hl : typeAt objs l with
        | none => simp [hl] at h
        | some left =>
          cases hr : typeAt objs r with
          | none => simp [hl, hr] at h
          | some right =>
            simp only [hl, hr] at h ⊢
            cases ho : left.Original with
            | fn =>
              simp only [ho] at h ⊢
              by_cases hro : right.Original ≠ GoType.fn
              · simpa [hro] using h
              · simp only [hro, if_false] at h ⊢
                cases hlf : left.Func with
                | none => simp [hlf] at h
                | some lf =>
                  cases hrf : right.Func with
                  | none => simp [hlf, hrf] at h
                  | some rf =>
                    simp only [hlf, hrf] at h ⊢
                    by_cases hlen : lf.Params.length ≠ rf.Params.length
                    · simpa [hlen] using h
                    · simp only [hlen, if_false] at h ⊢
                      cases hres : isEqualTypes objs f lf.Result rf.Result with
                      | none => simp [hres] at h
                      | some w =>
                        rw [ihg _ _ w hres]
                        cases w with
                        | false => simpa [hres] using h
                        | true =>
                          simp only [hres] at h ⊢
                          exact eqParams_mono _ _ ihg _ _ v h
            | array =>
              simp only [ho] at h ⊢
              by_cases hro : right.Original ≠ GoType.array
              · simpa [hro] using h
              · simp only [hro, if_false] at h ⊢
                by_cases hi : left.IndexOf = none ∨ right.IndexOf = none
                · simpa [hi] using h
                · simp only [hi, if_false] at h ⊢
                  exact ihg _ _ v h
            | map =>
              simp only [ho] at h ⊢
              by_cases hro : right.Original ≠ GoType.map
              · simpa [hro] using h
              · simp only [hro, if_false] at h ⊢
                by_cases hi : left.IndexOf = none ∨ right.IndexOf = none
                · simpa [hi] using h
                · simp only [hi, if_false] at h ⊢
                  exact ihg _ _ v h
            | other nm =>
              simpa [ho] using h

theorem EqualTypes_unique (objs : List IObject) (l r : Option Nat) (v w : Bool)
    (h1 : EqualTypes objs l r v) (h2 : EqualTypes objs l r w) : v = w := by
  obtain ⟨f, hf⟩ := h1
  obtain ⟨g, hg⟩ := h2
  have a := isEqualTypes_mono objs f l r v hf (max f g) (le_max_left f g)
  have b := isEqualTypes_mono objs g l r w hg (max f g) (le_max_right f g)
  rw [a] at b
  exact Option.some.inj b

theorem eqParams_true (eq : Option Nat → Option Nat → Option Bool) :
    ∀ (ls rs : List (Option Nat)), ls.length = rs.length →
      (eqParams eq ls rs = some true ↔
        ∀ (i : Nat) (a b : Option Nat), ls[i]? = some a → rs[i]? = some b →
          eq a b = some true) := by
  intro ls
  induction ls with
  | nil =>
    intro rs _
    simp [eqParams]
  | cons a ls ih =>
    intro rs hlen
    cases rs with
    | nil => simp at hlen
    | cons b rs =>
      have hlen1 : ls.length = rs.length := by simpa using hlen
      simp only [eqParams]
      constructor
      · intro h i x y hx hy
        cases he : eq a b with
        | none => simp [he] at h
        | some w =>
          cases w with
          | false => simp [he] at h
          | true =>
            simp only [he] at h
            cases i with
            | zero =>
              simp only [List.getElem?_cons_zero, Option.some.injEq] at hx hy
              rw [← hx, ← hy]
              exact he
            | succ i =>
              simp only [List.getElem?_cons_succ] at hx hy
              exact (ih rs hlen1).1 h i x y hx hy
      · intro h
        have h0 : eq a b = some true := h 0 a b (by simp) (by simp)
        simp only [h0]
        exact (ih rs hlen1).2 (fun i x y hx hy =>
          h (i + 1) x y (by simpa using hx) (by simpa using hy))

theorem common_fuel (objs : List IObject) :
    ∀ (ls rs : List (Option Nat)),
      (∀ (i : Nat) (a b : Option Nat), ls[i]? = some a → rs[i]? = some b →
        EqualTypes objs a b true) →
      ∃ F, ∀ (i : Nat) (a b : Option Nat), ls[i]? = some a → rs[i]? = some b →
        isEqualTypes objs F a b = some true := by
  intro ls
  induction ls with
  | nil => intro rs _; exact ⟨0, fun i a b hx _ => by simp at hx⟩
  | cons a ls ih =>
    intro rs h
    cases rs with
    | nil => exact ⟨0, fun i x y _ hy => by simp at hy⟩
    | cons b rs =>
      obtain ⟨f0, hf0⟩ := h 0 a b (by simp) (by simp)
      obtain ⟨F, hF⟩ := ih rs (fun i x y hx hy =>
        h (i + 1) x y (by simpa using hx) (by simpa using hy))
      refine ⟨max f0 F, ?_⟩
      intro i x y hx hy
      cases i with
      | zero =>
        simp only [List.getElem?_cons_zero, Option.some.injEq] at hx hy
        rw [← hx, ← hy]
        exact isEqualTypes_mono objs f0 a b true hf0 _ (le_max_left f0 F)
      | succ i =>
        simp only [List.getElem?_cons_succ] at hx hy
        exact isEqualTypes_mono objs F x y true (hF i x y hx hy) _ (le_max_right f0 F)

theorem isEqualTypes_other_kind (objs : List IObject) (l x : Nat) (left other : TypeObject)
    (hl : typeAt objs l = some left) (hx : typeAt objs x = some other)
    (hne : other.Original ≠ left.Original)
    (hk : left.Original = GoType.fn ∨ left.Original = GoType.array ∨
      left.Original = GoType.map) :
    isEqualTypes objs 1 (some l) (some x) = some false ∧
    isEqualTypes objs 1 (some x) (some l) = some false := by
  have hxl : x ≠ l := by
    intro h
    rw [h, hl] at hx
    exact hne (by rw [Option.some.inj hx])
  constructor
  · rw [isEqualTypes_succ, hl, hx]
    rcases hk with hk | hk | hk <;> simp only [hk] <;> rw [hk] at hne <;> simp [hne]
  · rw [isEqualTypes_succ, hl, hx]
    have hne2 : left.Original ≠ other.Original := fun h => hne h.symm
    cases ho : other.Original with
    | fn => rw [ho] at hne2; simp [ho, hne2]
    | array => rw [ho] at hne2; simp [ho, hne2]
    | map => rw [ho] at hne2; simp [ho, hne2]
    | other nm => simp [ho, hxl]

/-! ### Chains of blocks -/

theorem IsChain_cons (blocks : List CmdBlock) (s : Option Nat) (q : Nat) (rest : List Nat) :
    IsChain blocks s (q :: rest) ↔
      s = some q ∧ ∃ b, blocks[q]? = some b ∧ IsChain blocks b.Parent rest := by
  cases s with
  | none => simp [IsChain]
  | some p =>
    simp only [IsChain, Option.some.injEq]
    constructor
    · rintro ⟨rfl, b, hb, hc⟩
      exact ⟨rfl, b, hb, hc⟩
    · rintro ⟨rfl, b, hb, hc⟩
      exact ⟨rfl, b, hb, hc⟩

theorem IsChain_nil (blocks : List CmdBlock) (s : Option Nat) :
    IsChain blocks s [] ↔ s = none := by
  cases s <;> simp [IsChain]

theorem chain_unique (blocks : List CmdBlock) :
    ∀ (l1 l2 : List Nat) (s : Option Nat), IsChain blocks s l1 → IsChain blocks s l2 →
      l1 = l2 := by
  intro l1
  induction l1 with
  | nil =>
    intro l2 s h1 h2
    rw [IsChain_nil] at h1
    cases l2 with
    | nil => rfl
    | cons q rest =>
      rw [IsChain_cons, h1] at h2
      cases h2.1
  | cons q rest ih =>
    intro l2 s h1 h2
    rw [IsChain_cons] at h1
    obtain ⟨hs, b, hb, hc⟩ := h1
    cases l2 with
    | nil =>
      rw [IsChain_nil, hs] at h2
      cases h2
    | cons q2 rest2 =>
      rw [IsChain_cons, hs] at h2
      obtain ⟨hq, b2, hb2, hc2⟩ := h2
      have hq1 : q = q2 := Option.some.inj hq
      subst hq1
      rw [hb] at hb2
      have hbb : b = b2 := Option.some.inj hb2
      subst hbb
      rw [ih rest2 b.Parent hc hc2]

theorem chain_suffix (blocks : List CmdBlock) :
    ∀ (pre : List Nat) (s : Option Nat) (q : Nat) (post : List Nat),
      IsChain blocks s (pre ++ q :: post) → IsChain blocks (some q) (q :: post) := by
  intro pre
  induction pre with
  | nil =>
    intro s q post h
    have h1 := h
    rw [List.nil_append, IsChain_cons] at h1
    rw [← h1.1]
    exact h
  | cons x pre ih =>
    intro s q post h
    rw [List.cons_append, IsChain_cons] at h
    obtain ⟨_, b, _, hc⟩ := h
    exact ih b.Parent q post hc

theorem chain_nodup (blocks : List CmdBlock) :
    ∀ (ps : List Nat) (s : Option Nat), IsChain blocks s ps → ps.Nodup := by
  intro ps
  induction ps with
  | nil => intro s _; exact List.nodup_nil
  | cons q rest ih =>
    intro s h
    have h0 := h
    rw [IsChain_cons] at h
    obtain ⟨hs, b, hb, hc⟩ := h
    refine List.nodup_cons.2 ⟨?_, ih b.Parent hc⟩
    intro hmem
    obtain ⟨pre, post, hsplit⟩ := List.append_of_mem hmem
    rw [hsplit] at hc
    have h1 := chain_suffix blocks pre b.Parent q post hc
    rw [hs] at h0
    have h2 := chain_unique blocks _ _ _ h1 h0
    have h3 := congrArg List.length h2
    rw [hsplit] at h3
    simp only [List.length_cons, List.length_append] at h3
    omega

theorem chain_valid (blocks : List CmdBlock) :
    ∀ (ps : List Nat) (s : Option Nat), IsChain blocks s ps →
      ∀ x, x ∈ ps → x < blocks.length := by
  intro ps
  induction ps with
  | nil => intro s _ x hx; cases hx
  | cons q rest ih =>
    intro s h x hx
    rw [IsChain_cons] at h
    obtain ⟨_, b, hb, hc⟩ := h
    rcases List.mem_cons.1 hx with hx | hx
    · rw [hx]
      rcases Nat.lt_or_ge q blocks.length with h | h
      · exact h
      · rw [List.getElem?_eq_none h] at hb; cases hb
    · exact ih b.Parent hc x hx

theorem chain_length (blocks : List CmdBlock) (ps : List Nat) (s : Option Nat)
    (h : IsChain blocks s ps) : ps.length ≤ blocks.length := by
  have hnd := chain_nodup blocks ps s h
  have hv := chain_valid blocks ps s h
  have hsub : ps.toFinset ⊆ Finset.range blocks.length := by
    intro x hx
    rw [List.mem_toFinset] at hx
    exact Finset.mem_range.2 (hv x hx)
  have hcard := Finset.card_le_card hsub
  rw [List.toFinset_card_of_nodup hnd, Finset.card_range] at hcard
  exact hcard

theorem findVarFrom_chain_hit (blocks : List CmdBlock) (token : String) :
    ∀ (pre : List Nat) (s : Option Nat) (fuel q : Nat) (post : List Nat) (b : CmdBlock)
      (ind : Nat),
      IsChain blocks s (pre ++ q :: post) → pre.length < fuel →
      (∀ x, x ∈ pre → ¬ declaredIn blocks token x) →
      blocks[q]? = some b → mapGet b.VarNames token = some ind →
      findVarFrom blocks token fuel s = some (some q, ind) := by
  intro pre
  induction pre with
  | nil =>
    intro s fuel q post b ind hc hf _ hb hm
    obtain ⟨f, rfl⟩ : ∃ f, fuel = f + 1 := ⟨fuel - 1, by omega⟩
    rw [List.nil_append, IsChain_cons] at hc
    rw [hc.1]
    simp only [findVarFrom, hb, hm]
  | cons x pre ih =>
    intro s fuel q post b ind hc hf hno hb hm
    obtain ⟨f, rfl⟩ : ∃ f, fuel = f + 1 := ⟨fuel - 1, by simp at hf; omega⟩
    rw [List.cons_append, IsChain_cons] at hc
    obtain ⟨hs, bx, hbx, hrest⟩ := hc
    have hmiss : mapGet bx.VarNames token = none := by
      cases hg : mapGet bx.VarNames token with
      | none => rfl
      | some i => exact absurd ⟨bx, i, hbx, hg⟩ (hno x (List.mem_cons_self x pre))
    rw [hs]
    simp only [findVarFrom, hbx, hmiss]
    exact ih bx.Parent f q post b ind hrest (by simp at hf; omega)
      (fun y hy => hno y (List.mem_cons_of_mem x hy)) hb hm

theorem findVarFrom_chain_miss (blocks : List CmdBlock) (token : String) :
    ∀ (ps : List Nat) (s : Option Nat) (fuel : Nat),
      IsChain blocks s ps → ps.length ≤ fuel →
      (∀ x, x ∈ ps → ¬ declaredIn blocks token x) →
      findVarFrom blocks token fuel s = some (none, 0) := by
  intro ps
  induction ps with
  | nil =>
    intro s fuel hc _ _
    rw [IsChain_nil] at hc
    rw [hc]
    cases fuel <;> rfl
  | cons x ps ih =>
    intro s fuel hc hf hno
    obtain ⟨f, rfl⟩ : ∃ f, fuel = f + 1 := ⟨fuel - 1, by simp at hf; omega⟩
    rw [IsChain_cons] at hc
    obtain ⟨hs, bx, hbx, hrest⟩ := hc
    have hmiss : mapGet bx.VarNames token = none := by
      cases hg : mapGet bx.VarNames token with
      | none => rfl
      | some i => exact absurd ⟨bx, i, hbx, hg⟩ (hno x (List.mem_cons_self x ps))
    rw [hs]
    simp only [findVarFrom, hbx, hmiss]
    exact ih bx.Parent f hrest (by simp at hf; omega)
      (fun y hy => hno y (List.mem_cons_of_mem x hy))

theorem first_in_list (P : Nat → Prop) :
    ∀ (ps : List Nat), (∃ x, x ∈ ps ∧ P x) →
      ∃ pre q post, ps = pre ++ q :: post ∧ P q ∧ ∀ x, x ∈ pre → ¬ P x := by
  intro ps
  induction ps with
  | nil => rintro ⟨x, hx, _⟩; cases hx
  | cons a ps ih =>
    rintro ⟨x, hx, hP⟩
    by_cases ha : P a
    · exact ⟨[], a, ps, rfl, ha, fun y hy => by cases hy⟩
    · rcases List.mem_cons.1 hx with hx | hx
      · rw [hx] at hP; exact absurd hP ha
      · obtain ⟨pre, q, post, hsplit, hq, hpre⟩ := ih ⟨x, hx, hP⟩
        refine ⟨a :: pre, q, post, by rw [hsplit]; rfl, hq, ?_⟩
        intro y hy
        rcases List.mem_cons.1 hy with hy | hy
        · rw [hy]; exact ha
        · exact hpre y hy

/-! ### Variadic parameters -/

theorem typesAdded_blocks (a b : compiler) (h : typesAdded a b) :
    b.blocks = a.blocks ∧ b.owners = a.owners ∧ b.curType = a.curType := by
  obtain ⟨e, _⟩ := h
  refine ⟨?_, ?_, ?_⟩
  · rw [e]
  · rw [e]
  · rw [e]

theorem coVariadic_success (K : Consts) (cmpl c1 : compiler) (p : Nat) (block : CmdBlock)
    (name : String) (o : Nat)
    (hp : curOwner cmpl = some p) (hb : cmpl.blocks[p]? = some block)
    (hv : block.Vars ≠ []) (hn : curTypeName cmpl = some name)
    (ha : autoType K (markVariadic cmpl p block) ("arr." ++ name) = some (c1, some o, none)) :
    coVariadic K cmpl =
      some ({ c1 with
              blocks := cmpl.blocks.set p
                { block with
                  Variadic := true,
                  Vars := block.Vars.set (block.Vars.length - 1) (some o) } }, none) := by
  have hlt : p < cmpl.blocks.length := by
    rcases Nat.lt_or_ge p cmpl.blocks.length with h | h
    · exact h
    · rw [List.getElem?_eq_none h] at hb; cases hb
  have hn1 : curTypeName (markVariadic cmpl p block) = some name := hn
  have hblocks : c1.blocks = cmpl.blocks.set p { block with Variadic := true } := by
    rcases autoType_shape K _ c1 _ _ _ ha with ⟨_, _, _, _, hadd⟩ | ⟨h, _, _⟩
    · exact (typesAdded_blocks _ _ hadd).1
    · cases h
  have hc1p : c1.blocks[p]? = some { block with Variadic := true } := by
    rw [hblocks]
    simp only [List.getElem?_set_self hlt]
  have hlen : ¬ (block.Vars.length = 0) := by
    intro h
    exact hv (List.length_eq_zero.1 h)
  unfold coVariadic
  simp only [hp, hb]
  change (match curTypeName (markVariadic cmpl p block) with
    | none => none
    | some name =>
      match autoType K (markVariadic cmpl p block) ("arr." ++ name) with
      | none => none
      | some (c2, _, some err) => some (c2, some err)
      | some (_, none, none) => none
      | some (c2, some obj, none) =>
        match c2.blocks[p]? with
        | none => none
        | some block2 =>
          if block2.Vars.length = 0 then none
          else
            some ({ c2 with
                    blocks := c2.blocks.set p
                      { block2 with
                        Vars := block2.Vars.set (block2.Vars.length - 1) (some obj) } },
                  none)) = _
  rw [hn1]
  simp only [ha, hc1p, hlen, if_false]
  rw [hblocks, List.set_set]

theorem coVariadic_failure (K : Consts) (cmpl c1 : compiler) (p : Nat) (block : CmdBlock)
    (name : String) (e : CompError)
    (hp : curOwner cmpl = some p) (hb : cmpl.blocks[p]? = some block)
    (hn : curTypeName cmpl = some name)
    (ha : autoType K (markVariadic cmpl p block) ("arr." ++ name) = some (c1, none, some e)) :
    coVariadic K cmpl = some (c1, some e) := by
  have hn1 : curTypeName (markVariadic cmpl p block) = some name := hn
  unfold coVariadic
  simp only [hp, hb]
  change (match curTypeName (markVariadic cmpl p block) with
    | none => none
    | some name =>
      match autoType K (markVariadic cmpl p block) ("arr." ++ name) with
      | none => none
      | some (c2, _, some err) => some (c2, some err)
      | some (_, none, none) => none
      | some (c2, some obj, none) =>
        match c2.blocks[p]? with
        | none => none
        | some block2 =>
          if block2.Vars.length = 0 then none
          else
            some ({ c2 with
                    blocks := c2.blocks.set p
                      { block2 with
                        Vars := block2.Vars.set (block2.Vars.length - 1) (some obj) } },
                  none)) = _
  rw [hn1]
  simp only [ha]

theorem FindType_typeAt (ws : Workspace) (unit : Unit) (n : String) (i : Nat)
    (h : FindType ws unit n = some i) : ∃ t, typeAt ws.Objects i = some t := by
  unfold FindType at h
  cases hm : mapGet unit.NameSpace n with
  | none => simp [hm] at h
  | some j =>
    simp only [hm] at h
    cases ho : ws.Objects[j]? with
    | none => simp [ho] at h
    | some x =>
      cases x with
      | typeObj t =>
        simp only [ho, Option.some.injEq] at h
        rw [← h]
        exact ⟨t, by simp [typeAt, ho]⟩
      | funcObj f => simp [ho] at h
      | otherObj nm => simp [ho] at h

theorem autoType_array_of (K : Consts) (c c1 : compiler) (name : String) (o ti : Nat)
    (hplain : ¬ (HasSuffix ("arr." ++ name) ".arr" = true ∨
      HasSuffix ("arr." ++ name) ".map" = true))
    (hreg : FindType c.ws c.unit name = some ti)
    (hmemo : ∀ (x : Nat) (t : TypeObject), FindType c.ws c.unit ("arr." ++ name) = some x →
      typeAt c.ws.Objects x = some t → t.Original = GoType.array ∧ t.IndexOf = some ti)
    (ha : autoType K c ("arr." ++ name) = some (c1, some o, none)) :
    ∃ t, typeAt c1.ws.Objects o = some t ∧ t.Original = GoType.array ∧
      t.IndexOf = some ti := by
  rw [autoType_unfold, fullName_plain _ hplain] at ha
  cases hf : FindType c.ws c.unit ("arr." ++ name) with
  | some x =>
    simp only [hf, Option.some.injEq, Prod.mk.injEq, and_true] at ha
    obtain ⟨t, ht⟩ := FindType_typeAt _ _ _ _ hf
    rw [← ha.1, ← ha.2]
    exact ⟨t, ht, hmemo x t hf ht⟩
  | none =>
    have hname : ¬ (HasSuffix name ".arr" = true ∨ HasSuffix name ".map" = true) :=
      nosuffix_rest _ _ _ (generic_arr name) hplain
    have hrest : autoType K c name = some (c, some ti, none) := by
      rw [autoType_unfold, fullName_plain _ hname, hreg]
    simp only [hf, generic_arr, hrest, wrapType_found, Option.some.injEq, Prod.mk.injEq,
      and_true] at ha
    rw [← ha.1, ← ha.2]
    refine ⟨{ Name := "arr." ++ name, Original := GoType.array, IndexOf := some ti,
              Func := none }, ?_, rfl, rfl⟩
    simp only [typeAt, NewType]
    rw [List.getElem?_append_right (le_refl _)]
    simp

/-! ### The colon sugar -/

theorem lineEnd_spec (K : Consts) (source : List Char) :
    ∀ (toks : List Token) (e0 : Nat),
      (∀ t, t ∈ toks → t.Type_ = K.tkLine → t.Offset < source.length) →
      ∃ k, lineEnd K source toks e0 = some (e0 + k) ∧ k ≤ toks.length ∧
        (∀ (j : Nat) (t : Token), j < k → toks[j]? = some t → ¬ isBreak K source t) ∧
        (k < toks.length → ∃ t, toks[k]? = some t ∧ isBreak K source t) := by
  intro toks
  induction toks with
  | nil =>
    intro e0 _
    exact ⟨0, rfl, le_refl _, fun j t hj _ => by omega, fun h => by simp at h⟩
  | cons t rest ih =>
    intro e0 hoff
    have hrest : ∀ t1, t1 ∈ rest → t1.Type_ = K.tkLine → t1.Offset < source.length :=
      fun t1 h1 => hoff t1 (List.mem_cons_of_mem t h1)
    obtain ⟨k, hk, hle, hbefore, hat⟩ := ih (e0 + 1) hrest
    have next : lineEnd K source rest (e0 + 1) = some (e0 + (k + 1)) := by
      rw [hk]; congr 1; omega
    have skip : ¬ isBreak K source t →
        ∃ k1, some (e0 + (k + 1)) = some (e0 + k1) ∧ k1 ≤ (t :: rest).length ∧
          (∀ (j : Nat) (t1 : Token), j < k1 → (t :: rest)[j]? = some t1 →
            ¬ isBreak K source t1) ∧
          (k1 < (t :: rest).length → ∃ t1, (t :: rest)[k1]? = some t1 ∧
            isBreak K source t1) := by
      intro hnot
      refine ⟨k + 1, rfl, by simp only [List.length_cons]; omega, ?_, ?_⟩
      · intro j t1 hj hget
        cases j with
        | zero =>
          simp only [List.getElem?_cons_zero, Option.some.injEq] at hget
          rw [← hget]; exact hnot
        | succ j =>
          simp only [List.getElem?_cons_succ] at hget
          exact hbefore j t1 (by omega) hget
      · intro hlt
        simp only [List.length_cons] at hlt
        simp only [List.getElem?_cons_succ]
        exact hat (by omega)
    unfold lineEnd
    by_cases hline : t.Type_ = K.tkLine
    · have hlt := hoff t (List.mem_cons_self t rest) hline
      have hsome : source[t.Offset]? = some (source.get ⟨t.Offset, hlt⟩) :=
        List.getElem?_eq_getElem hlt
      simp only [hline, if_true, hsome]
      by_cases hch : source.get ⟨t.Offset, hlt⟩ ≠ ';'
      · simp only [hch, ne_eq, not_false_eq_true, if_true]
        refine ⟨0, rfl, Nat.zero_le _, fun j t1 hj _ => by omega, ?_⟩
        intro _
        refine ⟨t, by simp, hline, ?_⟩
        rw [hsome]
        intro h
        exact hch (Option.some.inj h)
      · simp only [hch, if_false]
        rw [next]
        apply skip
        intro ⟨_, hne⟩
        apply hne
        rw [hsome]
        congr 1
        exact not_not.1 hch
    · simp only [hline, if_false]
      rw [next]
      apply skip
      intro ⟨h, _⟩
      exact hline h

theorem splice_spec {α : Type} (l : List α) (e : Nat) (x : α) (he : e ≤ l.length) :
    (l.take e ++ [x] ++ l.drop e).length = l.length + 1 ∧
    (∀ j, j < e → (l.take e ++ [x] ++ l.drop e)[j]? = l[j]?) ∧
    (l.take e ++ [x] ++ l.drop e)[e]? = some x ∧
    (∀ j, e ≤ j → (l.take e ++ [x] ++ l.drop e)[j + 1]? = l[j]?) := by
  have hlen : (l.take e).length = e := by
    rw [List.length_take]; omega
  refine ⟨?_, ?_, ?_, ?_⟩
  · simp only [List.length_append, List.length_take, List.length_drop, List.length_singleton]
    omega
  · intro j hj
    rw [List.append_assoc, List.getElem?_append_left (by omega)]
    exact List.getElem?_take_of_lt hj
  · rw [List.append_assoc, List.getElem?_append_right (by omega), hlen]
    simp
  · intro j hj
    rw [List.append_assoc, List.getElem?_append_right (by omega), hlen,
      List.getElem?_append_right (by simp; omega)]
    simp only [List.length_singleton, List.getElem?_drop]
    congr 1
    omega

/-! ### The compile transaction -/

theorem grows_refl (ws : Workspace) : grows ws ws :=
  ⟨⟨[], (List.append_nil _).symm⟩, ⟨[], (List.append_nil _).symm⟩⟩

theorem grows_trans (a b c : Workspace) (h1 : grows a b) (h2 : grows b c) : grows a c := by
  obtain ⟨⟨x1, hx1⟩, ⟨y1, hy1⟩⟩ := h1
  obtain ⟨⟨x2, hx2⟩, ⟨y2, hy2⟩⟩ := h2
  exact ⟨⟨x1 ++ x2, by rw [hx2, hx1, List.append_assoc]⟩,
    ⟨y1 ++ y2, by rw [hy2, hy1, List.append_assoc]⟩⟩

theorem grows_of_eq (a b : Workspace) (h : b = a) : grows a b := by
  rw [h]; exact grows_refl a

theorem typesAdded_grows (a b : compiler) (h : typesAdded a b) : grows a.ws b.ws := by
  obtain ⟨e, ext, hext⟩ := h
  refine ⟨⟨ext, hext⟩, ⟨[], ?_⟩⟩
  rw [e, List.append_nil]

theorem colonToLine_ws (K : Consts) (c c1 : compiler) (i : Int) (e : Option CompError)
    (h : colonToLine K c i = some (c1, e)) : c1.ws = c.ws := by
  unfold colonToLine at h
  split at h
  · simp only [Option.some.injEq, Prod.mk.injEq] at h
    rw [← h.1]
  · split at h
    · cases h
    · simp only at h
      split at h
      · cases h
      · split at h
        · cases h
        · split at h
          · cases h
          · simp only [Option.some.injEq, Prod.mk.injEq] at h
            rw [← h.1]

theorem getType_grows (K : Consts) (c c1 : compiler) (o : Option Nat) (e : Option CompError)
    (h : getType K c = some (c1, o, e)) : grows c.ws c1.ws := by
  unfold getType at h
  split at h
  · cases h
  · rcases autoType_shape K c c1 _ o e h with ⟨_, _, _, _, hadd⟩ | ⟨_, _, hc⟩
    · exact typesAdded_grows _ _ hadd
    · rw [hc]; exact grows_refl _

theorem backLoop_inv (E : Env) (R : Workspace → Workspace → Prop)
    (hrefl : ∀ w, R w w) (htrans : ∀ a b c, R a b → R b c → R a c)
    (hfuncs : ∀ f c c1 e, E.funcs f c = some (c1, e) → R c.ws c1.ws) :
    ∀ (fuel : Nat) (c : compiler) (i : Int) (s : Nat) (r : LoopEnd),
      backLoop E fuel c i s = some r → R c.ws r.final.ws := by
  intro fuel
  induction fuel with
  | zero => intro c i s r h; simp [backLoop] at h
  | succ f ih =>
    intro c i s r h
    rw [backLoop] at h
    cases hlast : c.states.getLast? with
    | none =>
      simp only [hlast, Option.some.injEq] at h
      rw [← h]
      exact hrefl _
    | some prev =>
      simp only [hlast] at h
      cases hcb : prev.Origin.Callback with
      | none =>
        simp only [hcb] at h
        split at h
        · simp only [Option.some.injEq] at h
          rw [← h]
          exact hrefl _
        · exact ih { c with states := c.states.dropLast } _ _ r h
      | some cb =>
        simp only [hcb] at h
        cases hf : E.funcs cb c with
        | none => simp [hf] at h
        | some res =>
          obtain ⟨c1, e⟩ := res
          have hR := hfuncs cb c c1 e hf
          cases e with
          | some err =>
            simp only [hf, Option.some.injEq] at h
            rw [← h]
            exact hR
          | none =>
            simp only [hf] at h
            have hws : (match c1.dynamic with
                | some d => pushDynamic E.K c1 d i prev.State
                | none => (c1, i, prev.State)).1.ws = c1.ws := by
              cases c1.dynamic <;> rfl
            split at h
            · cases h
            · split at h
              · simp only [Option.some.injEq] at h
                rw [← h]
                show R c.ws _
                simp only [LoopEnd.final]
                rw [hws]
                exact hR
              · have := ih _ _ _ r h
                simp only at this
                rw [hws] at this
                exact htrans _ _ _ hR this

theorem afterFunc_inv (E : Env) (R : Workspace → Workspace → Prop)
    (hrefl : ∀ w, R w w) (htrans : ∀ a b c, R a b → R b c → R a c)
    (hfuncs : ∀ f c c1 e, E.funcs f c = some (c1, e) → R c.ws c1.ws)
    (fuel : Nat) (c : compiler) (i : Int) (s : Nat) (r : LoopEnd)
    (h : afterFunc E fuel c i s = some r) : R c.ws r.final.ws := by
  unfold afterFunc at h
  split at h
  · simp only [Option.some.injEq] at h
    rw [← h]; exact hrefl _
  · simp only at h
    split at h
    · split at h
      · simp only [Option.some.injEq] at h
        rw [← h]; exact hrefl _
      · exact backLoop_inv E R hrefl htrans hfuncs fuel c _ _ r h
    · simp only [Option.some.injEq] at h
      rw [← h]; exact hrefl _

theorem callFunc_inv (E : Env) (R : Workspace → Workspace → Prop)
    (hrefl : ∀ w, R w w) (htrans : ∀ a b c, R a b → R b c → R a c)
    (hfuncs : ∀ f c c1 e, E.funcs f c = some (c1, e) → R c.ws c1.ws)
    (fuel : Nat) (c : compiler) (i : Int) (s : Nat) (r : LoopEnd)
    (h : callFunc E fuel c i s = some r) : R c.ws r.final.ws := by
  unfold callFunc at h
  cases hn : c.next.Func with
  | none =>
    simp only [hn] at h
    exact afterFunc_inv E R hrefl htrans hfuncs fuel c i s r h
  | some f =>
    simp only [hn] at h
    cases hf : E.funcs f c with
    | none => simp [hf] at h
    | some res =>
      obtain ⟨c1, e⟩ := res
      have hR := hfuncs f c c1 e hf
      cases e with
      | some err =>
        simp only [hf, Option.some.injEq] at h
        rw [← h]; exact hR
      | none =>
        simp only [hf] at h
        cases hd : c1.dynamic with
        | some d =>
          simp only [hd, Option.some.injEq] at h
          rw [← h]; exact hR
        | none =>
          simp only [hd] at h
          exact htrans _ _ _ hR (afterFunc_inv E R hrefl htrans hfuncs fuel c1 _ s r h)

theorem loopBody_inv (E : Env) (R : Workspace → Workspace → Prop)
    (hrefl : ∀ w, R w w) (htrans : ∀ a b c, R a b → R b c → R a c)
    (hfuncs : ∀ f c c1 e, E.funcs f c = some (c1, e) → R c.ws c1.ws)
    (hopt : ∀ c c1 b e, E.coOptionalFunc c = some (c1, b, e) → R c.ws c1.ws)
    (htypes : ∀ a b, grows a b → b.Units = a.Units → b.UnitNames = a.UnitNames → R a b)
    (fuel : Nat) (c0 : compiler) (i : Int) (s : Nat) (r : LoopEnd)
    (h : loopBody E fuel c0 i s = some r) : R c0.ws r.final.ws := by
  unfold loopBody at h
  simp only at h
  cases ht0 : c0.unit.Lexeme.Tokens[i.toNat]? with
  | none => simp [ht0] at h
  | some tok0 =>
    simp only [ht0] at h
    have hcolon : ∀ c1 e,
        (if c0.inits = 0 ∧ tok0.Type_ = E.K.tkColon then colonToLine E.K c0 i
          else some (c0, none)) = some (c1, e) → c1.ws = c0.ws := by
      intro c1 e hc
      split at hc
      · exact colonToLine_ws E.K c0 c1 i e hc
      · simp only [Option.some.injEq, Prod.mk.injEq] at hc
        rw [← hc.1]
    cases hc : (if c0.inits = 0 ∧ tok0.Type_ = E.K.tkColon then colonToLine E.K c0 i
        else some (c0, none)) with
    | none => simp [hc] at h
    | some res =>
      obtain ⟨c1, e⟩ := res
      have hws1 := hcolon c1 e hc
      cases e with
      | some err =>
        simp only [hc, Option.some.injEq] at h
        rw [← h]
        show R c0.ws c1.ws
        rw [hws1]; exact hrefl _
      | none =>
        simp only [hc] at h
        cases ht1 : c1.unit.Lexeme.Tokens[i.toNat]? with
        | none => simp [ht1] at h
        | some token0 =>
          simp only [ht1] at h
          split at h
          · cases h
          · rename_i c3 token htyped
            have hR3 : R c0.ws c3.ws := by
              split at htyped
              · cases hg : getType E.K { c1 with pos := i } with
                | none => simp [hg] at htyped
                | some g =>
                  obtain ⟨cg, og, eg⟩ := g
                  have hgrow := getType_grows E.K _ cg og eg hg
                  have hU : cg.ws.Units = c1.ws.Units ∧ cg.ws.UnitNames = c1.ws.UnitNames := by
                    unfold getType at hg
                    split at hg
                    · cases hg
                    · rcases autoType_shape E.K _ cg _ og eg hg with
                        ⟨_, _, _, _, hadd, _⟩ | ⟨_, _, hcg⟩
                      · rw [hadd]; exact ⟨rfl, rfl⟩
                      · rw [hcg]; exact ⟨rfl, rfl⟩
                  have hcg : R c0.ws cg.ws := by
                    rw [← hws1]
                    exact htypes _ _ hgrow hU.1 hU.2
                  cases og with
                  | some o =>
                    simp only [hg, Option.some.injEq, Prod.mk.injEq] at htyped
                    rw [← htyped.1]; exact hcg
                  | none =>
                    simp only [hg, Option.some.injEq, Prod.mk.injEq] at htyped
                    rw [← htyped.1]; exact hcg
              · simp only [Option.some.injEq, Prod.mk.injEq] at htyped
                rw [← htyped.1]
                show R c0.ws c1.ws
                rw [hws1]; exact hrefl _
            split at h
            · cases h
            · simp only [Option.some.injEq] at h
              rw [← h]; exact hR3
            · split at h
              · cases ho : E.coOptionalFunc
                    { c3 with next := E.compileTable s token.Type_, dynamic := none,
                              newPos := 0 } with
                | none => simp [ho] at h
                | some res =>
                  obtain ⟨c5, b, e5⟩ := res
                  have hR5 : R c0.ws c5.ws := htrans _ _ _ hR3
                    (hopt { c3 with next := E.compileTable s token.Type_, dynamic := none,
                                    newPos := 0 } c5 b e5 ho)
                  cases e5 with
                  | some err =>
                    simp only [ho, Option.some.injEq] at h
                    rw [← h]; exact hR5
                  | none =>
                    cases b with
                    | true =>
                      simp only [ho, Option.some.injEq] at h
                      rw [← h]; exact hR5
                    | false =>
                      simp only [ho] at h
                      exact htrans _ _ _ hR5
                        (callFunc_inv E R hrefl htrans hfuncs fuel c5 i s r h)
              · exact htrans _ _ _ hR3
                  (callFunc_inv E R hrefl htrans hfuncs fuel
                    { c3 with next := E.compileTable s token.Type_, dynamic := none,
                              newPos := 0 } i s r h)

theorem mainLoop_inv (E : Env) (R : Workspace → Workspace → Prop)
    (hrefl : ∀ w, R w w) (htrans : ∀ a b c, R a b → R b c → R a c)
    (hfuncs : ∀ f c c1 e, E.funcs f c = some (c1, e) → R c.ws c1.ws)
    (hopt : ∀ c c1 b e, E.coOptionalFunc c = some (c1, b, e) → R c.ws c1.ws)
    (htypes : ∀ a b, grows a b → b.Units = a.Units → b.UnitNames = a.UnitNames → R a b) :
    ∀ (fuel : Nat) (c : compiler) (i : Int) (s : Nat) (r : LoopEnd),
      mainLoop E fuel c i s = some r → R c.ws r.final.ws := by
  intro fuel
  induction fuel with
  | zero => intro c i s r h; simp [mainLoop] at h
  | succ f ih =>
    intro c i s r h
    rw [mainLoop] at h
    split at h
    · split at h
      · cases h
      · cases hb : loopBody E f c i s with
        | none => simp [hb] at h
        | some res =>
          have hR := loopBody_inv E R hrefl htrans hfuncs hopt htypes f c i s res hb
          cases res with
          | failed c1 err =>
            simp only [hb, Option.some.injEq] at h
            rw [← h]; exact hR
          | goOn c1 i1 s1 =>
            simp only [hb] at h
            exact htrans _ _ _ hR (ih c1 _ s1 r h)
    · simp only [Option.some.injEq] at h
      rw [← h]; exact hrefl _

theorem Compile_cases (E : Env) (R : Workspace → Workspace → Prop)
    (hrefl : ∀ w, R w w) (htrans : ∀ a b c, R a b → R b c → R a c)
    (hfuncs : ∀ f c c1 e, E.funcs f c = some (c1, e) → R c.ws c1.ws)
    (hopt : ∀ c c1 b e, E.coOptionalFunc c = some (c1, b, e) → R c.ws c1.ws)
    (htypes : ∀ a b, grows a b → b.Units = a.Units → b.UnitNames = a.UnitNames → R a b)
    (fuel : Nat) (ws : Workspace) (input path : String) (ws1 : Workspace) (id : Int)
    (err : Option CompError)
    (h : Compile E fuel ws input path = some (ws1, id, err)) :
    ∃ stdlib cs, ws.StdLib = some stdlib ∧
      cs = E.copyNameSpace
        (newCompiler E.K ws { (E.LexParsing input.data).1 with Path := path }) stdlib true ∧
      ((∃ e, cs.2 = some e ∧ ws1 = cs.1.ws ∧ id = Undefined ∧ err = some e) ∨
       (∃ (c : compiler) (e : CompError), R cs.1.ws c.ws ∧
          ws1 = rollback c.ws ws.Objects.length ws.Units.length ∧
          id = Undefined ∧ err = some e) ∨
       (∃ c : compiler, R cs.1.ws c.ws ∧ ws1 = (commit c path).1 ∧ id = (commit c path).2 ∧
          err = none)) := by
  unfold Compile at h
  simp only at h
  cases hs : ws.StdLib with
  | none => simp [hs] at h
  | some stdlib =>
    simp only [hs] at h
    refine ⟨stdlib, _, rfl, rfl, ?_⟩
    rcases hcs : E.copyNameSpace
        (newCompiler E.K ws { (E.LexParsing input.data).1 with Path := path }) stdlib true
      with ⟨c1, _ | e⟩
    · right
      simp only [hcs] at h
      split at h
      · simp only [Option.some.injEq, Prod.mk.injEq] at h
        exact Or.inl ⟨c1, _, hrefl _, h.1.symm, h.2.1.symm, h.2.2.symm⟩
      · split at h
        · simp only [Option.some.injEq, Prod.mk.injEq] at h
          exact Or.inl ⟨c1, _, hrefl _, h.1.symm, h.2.1.symm, h.2.2.symm⟩
        · cases hm : mainLoop E fuel c1 0 E.K.cmMain with
          | none => simp [hm] at h
          | some res =>
            have hR := mainLoop_inv E R hrefl htrans hfuncs hopt htypes fuel c1 0 _ res hm
            cases res with
            | failed c2 e2 =>
              simp only [hm, Option.some.injEq, Prod.mk.injEq] at h
              exact Or.inl ⟨c2, e2, hR, h.1.symm, h.2.1.symm, h.2.2.symm⟩
            | goOn c2 i2 s2 =>
              simp only [hm] at h
              split at h
              · simp only [Option.some.injEq, Prod.mk.injEq] at h
                exact Or.inl ⟨c2, _, hR, h.1.symm, h.2.1.symm, h.2.2.symm⟩
              · simp only [Option.some.injEq, Prod.mk.injEq] at h
                exact Or.inr ⟨c2, hR, h.1.symm, h.2.1.symm, h.2.2.symm⟩
    · left
      simp only [hcs, Option.some.injEq, Prod.mk.injEq] at h
      exact ⟨e, rfl, h.1.symm, h.2.1.symm, h.2.2.symm⟩

theorem rollback_grown (ws w : Workspace) (h : grows ws w) :
    (rollback w ws.Objects.length ws.Units.length).Objects = ws.Objects ∧
    (rollback w ws.Objects.length ws.Units.length).Units = ws.Units := by
  obtain ⟨⟨x, hx⟩, ⟨y, hy⟩⟩ := h
  constructor
  · simp only [rollback, hx, List.take_left']
  · simp only [rollback, hy, List.take_left']

theorem E0_appends : EnvAppends E0 := by
  refine ⟨?_, ?_, ?_⟩
  · intro f c c1 e h
    simp only [E0, exampleFuncs] at h
    split at h
    · simp only [Option.some.injEq, Prod.mk.injEq] at h
      rw [← h.1]
      exact ⟨⟨_, rfl⟩, ⟨[], (List.append_nil _).symm⟩⟩
    · split at h
      · simp only [Option.some.injEq, Prod.mk.injEq] at h
        rw [← h.1]; exact grows_refl _
      · split at h
        · simp only [Option.some.injEq, Prod.mk.injEq] at h
          rw [← h.1]; exact grows_refl _
        · split at h
          · simp only [Option.some.injEq, Prod.mk.injEq] at h
            rw [← h.1]
            exact ⟨⟨[], (List.append_nil _).symm⟩, ⟨_, rfl⟩⟩
          · simp only [Option.some.injEq, Prod.mk.injEq] at h
            rw [← h.1]; exact grows_refl _
  · intro c c1 b e h
    simp only [E0, Option.some.injEq, Prod.mk.injEq] at h
    rw [← h.1]; exact grows_refl _
  · intro c u b
    rfl

theorem Compile_failure_restores (E : Env) (hE : EnvAppends E) (fuel : Nat) (ws : Workspace)
    (input path : String) (ws1 : Workspace) (id : Int) (e : CompError)
    (h : Compile E fuel ws input path = some (ws1, id, some e)) :
    ws1.Objects = ws.Objects ∧ ws1.Units = ws.Units ∧ id = Undefined := by
  obtain ⟨stdlib, cs, _, hcs, hcase⟩ := Compile_cases E grows grows_refl grows_trans
    hE.1 hE.2.1 (fun _ _ hg _ _ => hg) fuel ws input path ws1 id (some e) h
  have hws : cs.1.ws = ws := by
    rw [hcs, hE.2.2]
    rfl
  rcases hcase with ⟨_, _, h1, h2, _⟩ | ⟨c, _, hR, h1, h2, _⟩ | ⟨_, _, _, _, h3⟩
  · rw [h1, hws]
    exact ⟨rfl, rfl, h2⟩
  · rw [hws] at hR
    obtain ⟨ho, hu⟩ := rollback_grown ws c.ws hR
    rw [h1]
    exact ⟨ho, hu, h2⟩
  · cases h3

theorem E1_appends : EnvAppends E1 := by
  refine ⟨?_, E0_appends.2.1, E0_appends.2.2⟩
  intro f c c1 e h
  simp only [E1] at h
  split at h
  · simp only [Option.some.injEq, Prod.mk.injEq] at h
    rw [← h.1]; exact grows_refl _
  · exact E0_appends.1 f c c1 e h

theorem E1_keeps : EnvKeepsUnits E1 := by
  refine ⟨?_, ?_⟩
  · intro f c c1 e h
    simp only [E1] at h
    split at h
    · simp only [Option.some.injEq, Prod.mk.injEq] at h
      rw [← h.1]; exact ⟨rfl, rfl⟩
    · rename_i hf4
      simp only [exampleFuncs, hf4, if_false] at h
      split at h
      · simp only [Option.some.injEq, Prod.mk.injEq] at h
        rw [← h.1]; exact ⟨rfl, rfl⟩
      · split at h
        · simp only [Option.some.injEq, Prod.mk.injEq] at h
          rw [← h.1]; exact ⟨rfl, rfl⟩
        · split at h
          · simp only [Option.some.injEq, Prod.mk.injEq] at h
            rw [← h.1]; exact ⟨rfl, rfl⟩
          · simp only [Option.some.injEq, Prod.mk.injEq] at h
            rw [← h.1]; exact ⟨rfl, rfl⟩
  · intro c c1 b e h
    simp only [E1, E0, Option.some.injEq, Prod.mk.injEq] at h
    rw [← h.1]; exact ⟨rfl, rfl⟩

theorem commit_spec (c : compiler) (path : String) :
    ∃ u : Unit, (commit c path).1.Units = c.ws.Units ++ [u] ∧
      (commit c path).2 = (c.ws.Units.length : Int) ∧
      u.Index = c.ws.Units.length ∧
      (commit c path).1.UnitNames = mapSet c.ws.UnitNames u.Name (c.ws.Units.length : Int) ∧
      (commit c path).1.Objects = c.ws.Objects ∧
      u.Name = (if c.runID ≠ Undefined then
        (if c.unit.Name.length = 0 then path else c.unit.Name) else c.unit.Name) := by
  unfold commit
  refine ⟨_, rfl, rfl, rfl, rfl, rfl, ?_⟩
  by_cases hr : c.runID ≠ Undefined
  · simp only [hr, ne_eq, not_false_eq_true, if_true]
  · simp only [hr, if_false]

theorem Compile_success (E : Env) (fuel : Nat) (ws : Workspace) (input path : String)
    (ws1 : Workspace) (id : Int)
    (h : Compile E fuel ws input path = some (ws1, id, none)) :
    ∃ (stdlib : Unit) (c : compiler) (i : Int) (s : Nat), ws.StdLib = some stdlib ∧
      mainLoop E fuel (E.copyNameSpace
        (newCompiler E.K ws { (E.LexParsing input.data).1 with Path := path })
        stdlib true).1 0 E.K.cmMain = some (.goOn c i s) ∧
      c.states = [] ∧ ws1 = (commit c path).1 ∧ id = (commit c path).2 := by
  unfold Compile at h
  simp only at h
  cases hs : ws.StdLib with
  | none => simp [hs] at h
  | some stdlib =>
    simp only [hs] at h
    rcases hcs : E.copyNameSpace
        (newCompiler E.K ws { (E.LexParsing input.data).1 with Path := path }) stdlib true
      with ⟨c1, _ | e⟩
    · simp only [hcs] at h
      split at h
      · simp at h
      · split at h
        · simp at h
        · cases hm : mainLoop E fuel c1 0 E.K.cmMain with
          | none => simp [hm] at h
          | some res =>
            cases res with
            | failed c2 e2 => simp [hm] at h
            | goOn c2 i2 s2 =>
              simp only [hm] at h
              split at h
              · simp at h
              · rename_i hlen
                simp only [Option.some.injEq, Prod.mk.injEq, and_true] at h
                refine ⟨stdlib, c2, i2, s2, rfl, ?_, ?_, h.1.symm, h.2.symm⟩
                · rw [hcs]; exact hm
                · apply List.length_eq_zero.1
                  omega
    · simp [hcs] at h

/-! ### Positions of tokens -/

theorem scanLines_takeWhile (lines : List Nat) (offset : Nat) :
    ∀ line, scanLines lines offset line =
      line + (lines.takeWhile (fun l => decide (l ≤ offset))).length := by
  induction lines with
  | nil => intro line; simp [scanLines]
  | cons l rest ih =>
    intro line
    unfold scanLines
    by_cases h : l > offset
    · have h1 : ¬ l ≤ offset := by omega
      simp [h, h1, List.takeWhile]
    · have h1 : l ≤ offset := by omega
      simp only [h, if_false, ih, List.takeWhile, h1, decide_True, List.length_cons]
      omega

theorem takeWhile_sorted (lines : List Nat) (offset : Nat)
    (hs : lines.Pairwise (fun a b => a ≤ b)) :
    lines.takeWhile (fun l => decide (l ≤ offset)) =
      lines.filter (fun l => decide (l ≤ offset)) := by
  induction lines with
  | nil => rfl
  | cons l rest ih =>
    rw [List.pairwise_cons] at hs
    by_cases h : l ≤ offset
    · simp only [List.takeWhile, h, decide_True, List.filter_cons_of_pos, ih hs.2]
    · have hall : ∀ x, x ∈ rest → ¬ (decide (x ≤ offset) = true) := by
        intro x hx hd
        have := hs.1 x hx
        have := of_decide_eq_true hd
        omega
      simp only [List.takeWhile, h, decide_False]
      rw [List.filter_cons_of_neg (by simp [h])]
      exact (List.filter_eq_nil_iff.2 hall).symm

theorem takeWhile_get (lines : List Nat) (offset : Nat) (k : Nat)
    (hk : k < (lines.takeWhile (fun l => decide (l ≤ offset))).length) :
    ∃ start, lines[k]? = some start ∧ start ≤ offset := by
  have hpre : (lines.takeWhile (fun l => decide (l ≤ offset))) <+: lines :=
    List.takeWhile_prefix _
  obtain ⟨t, ht⟩ := hpre
  have hmem : (lines.takeWhile (fun l => decide (l ≤ offset)))[k] ∈
      lines.takeWhile (fun l => decide (l ≤ offset)) := List.getElem_mem _
  have hd := List.mem_takeWhile_imp hmem
  have hle : (lines.takeWhile (fun l => decide (l ≤ offset)))[k] ≤ offset := by
    simpa using hd
  refine ⟨(lines.takeWhile (fun l => decide (l ≤ offset)))[k], ?_, hle⟩
  conv_lhs => rw [← ht]
  rw [List.getElem?_append_left hk]
  exact List.getElem?_eq_getElem hk

theorem LineColumn_token (lp : Lex) (ind : Nat) (tok : Token)
    (ht : lp.Tokens[ind]? = some tok)
    (h0 : ∃ l0, lp.Lines.head? = some l0 ∧ l0 ≤ tok.Offset) :
    ∃ start : Nat,
      LineColumn lp (ind : Int) =
        some (((lp.Lines.takeWhile (fun l => decide (l ≤ tok.Offset))).length : Int),
          (tok.Offset : Int) - (start : Int) + 1) ∧
      1 ≤ (lp.Lines.takeWhile (fun l => decide (l ≤ tok.Offset))).length ∧
      lp.Lines[(lp.Lines.takeWhile (fun l => decide (l ≤ tok.Offset))).length - 1]? =
        some start ∧
      start ≤ tok.Offset := by
  have hi : ind < lp.Tokens.length := by
    rcases Nat.lt_or_ge ind lp.Tokens.length with h | h
    · exact h
    · rw [List.getElem?_eq_none h] at ht; cases ht
  have hpos : 1 ≤ (lp.Lines.takeWhile (fun l => decide (l ≤ tok.Offset))).length := by
    obtain ⟨l0, hl0, hle⟩ := h0
    cases hL : lp.Lines with
    | nil => rw [hL] at hl0; cases hl0
    | cons a rest =>
      rw [hL] at hl0
      simp only [List.head?_cons, Option.some.injEq] at hl0
      rw [hl0]
      simp [List.takeWhile, hle]
  obtain ⟨start, hstart, hle⟩ := takeWhile_get lp.Lines tok.Offset
    ((lp.Lines.takeWhile (fun l => decide (l ≤ tok.Offset))).length - 1) (by omega)
  refine ⟨start, ?_, hpos, hstart, hle⟩
  unfold LineColumn
  have hend : ¬ ((lp.Tokens.length : Int) = (ind : Int) ∧ (ind : Int) > 0) := by
    intro h; omega
  have hgt : (lp.Tokens.length : Int) > (ind : Int) := by omega
  have hneg : ¬ ((ind : Int) < 0) := by omega
  have hline : ¬ (lp.Lines.takeWhile (fun l => decide (l ≤ tok.Offset))).length = 0 := by
    omega
  simp only [hend, decide_False, Bool.false_eq_true, if_false, hgt, if_true, hneg,
    Int.toNat_ofNat, ht, scanLines_takeWhile, Nat.zero_add, hline, hstart]

theorem LineColumn_end (lp : Lex) (tok : Token) (hlen : 0 < lp.Tokens.length)
    (ht : lp.Tokens[lp.Tokens.length - 1]? = some tok)
    (h0 : ∃ l0, lp.Lines.head? = some l0 ∧ l0 ≤ tok.Offset) :
    ∃ start : Nat,
      LineColumn lp (lp.Tokens.length : Int) =
        some (((lp.Lines.takeWhile (fun l => decide (l ≤ tok.Offset))).length : Int),
          (tok.Offset : Int) - (start : Int) + 1 + (tok.Length : Int)) ∧
      lp.Lines[(lp.Lines.takeWhile (fun l => decide (l ≤ tok.Offset))).length - 1]? =
        some start := by
  obtain ⟨start, _, hpos, hstart, _⟩ := LineColumn_token lp (lp.Tokens.length - 1) tok ht h0
  refine ⟨start, ?_, hstart⟩
  unfold LineColumn
  have hend : ((lp.Tokens.length : Int) = (lp.Tokens.length : Int) ∧
      (lp.Tokens.length : Int) > 0) := ⟨rfl, by omega⟩
  have hgt : (lp.Tokens.length : Int) > (lp.Tokens.length : Int) - 1 := by omega
  have hneg : ¬ ((lp.Tokens.length : Int) - 1 < 0) := by omega
  have hnat : ((lp.Tokens.length : Int) - 1).toNat = lp.Tokens.length - 1 := by omega
  have hline : ¬ (lp.Lines.takeWhile (fun l => decide (l ≤ tok.Offset))).length = 0 := by
    omega
  simp only [hend, and_self, decide_True, if_true, hgt, hneg, if_false, hnat, ht,
    scanLines_takeWhile, Nat.zero_add, hline, hstart]

/-! ### The flags of the command line -/

theorem prefix_length (f a : GoString) (h : f.isPrefixOf a = true) : f.length ≤ a.length := by
  rw [List.isPrefixOf_iff_prefix] at h
  exact h.length_le

theorem argsLoop_skip (f a : GoString) (rest : List GoString)
    (hd : a ≠ [dash]) (hn : ¬ decides f a) :
    argsLoop f (a :: rest) = argsLoop f rest := by
  rw [argsLoop]
  rw [if_neg hd]
  by_cases hp : f.isPrefixOf a = true
  · rw [if_pos hp]
    have hlen : ¬ a.length = f.length := fun h => hn ⟨hp, Or.inl h⟩
    rw [if_neg hlen]
    have hlt : f.length < a.length := by
      have := prefix_length f a hp
      omega
    rw [List.getElem?_eq_getElem hlt]
    have hch : ¬ (a[f.length] = 61 ∨ a[f.length] = 58) := by
      intro h
      apply hn
      refine ⟨hp, Or.inr ?_⟩
      rw [List.getElem?_eq_getElem hlt]
      rcases h with h | h
      · exact Or.inl (by rw [h])
      · exact Or.inr (by rw [h])
    simp only [hch, if_false]
  · rw [if_neg hp]

theorem argsLoop_skip_all (f : GoString) (pre rest : List GoString)
    (hpre : ∀ a, a ∈ pre → a ≠ [dash] ∧ ¬ decides f a) :
    argsLoop f (pre ++ rest) = argsLoop f rest := by
  induction pre with
  | nil => rfl
  | cons a pre ih =>
    rw [List.cons_append, argsLoop_skip f a _ (hpre a (List.mem_cons_self a pre)).1
      (hpre a (List.mem_cons_self a pre)).2]
    exact ih (fun x hx => hpre x (List.mem_cons_of_mem a hx))

theorem withDash_head (flag : GoString) (h : flag ≠ []) :
    ∃ rest, withDash flag = dash :: rest := by
  cases flag with
  | nil => exact absurd rfl h
  | cons b bs =>
    simp only [withDash]
    by_cases hb : b ≠ dash
    · rw [if_pos hb]; exact ⟨_, rfl⟩
    · rw [if_neg hb]
      have : b = dash := not_not.1 hb
      rw [this]; exact ⟨_, rfl⟩

theorem argsLoop_value (f val : GoString) (sep : Nat) (post : List GoString)
    (hf : ∃ rest, f = dash :: rest) (hsep : sep = 61 ∨ sep = 58) :
    argsLoop f ((f ++ sep :: val) :: post) =
      if val = [] then some (true, [])
      else (unquote val).map (fun v => (true, [v])) := by
  obtain ⟨r, hr⟩ := hf
  have hne : f ++ sep :: val ≠ [dash] := by
    intro h
    have := congrArg List.length h
    rw [hr] at this
    simp at this
  have hp : f.isPrefixOf (f ++ sep :: val) = true := by
    rw [List.isPrefixOf_iff_prefix]
    exact List.prefix_append _ _
  have hlen : ¬ (f ++ sep :: val).length = f.length := by
    simp
  have hget : (f ++ sep :: val)[f.length]? = some sep := by
    rw [List.getElem?_append_right (le_refl _)]
    simp
  have hdrop : (f ++ sep :: val).drop (f.length + 1) = val := by
    rw [List.drop_append_eq_append_drop]
    simp
  rw [argsLoop]
  rw [if_neg hne, if_pos hp, if_neg hlen, hget]
  simp only [hsep, if_true, hdrop]
  by_cases hv : val = []
  · rw [hv]
    simp
  · rw [if_neg hv]
    have : (f ++ sep :: val).length > f.length + 1 := by
      have : 0 < val.length := List.length_pos.2 hv
      simp only [List.length_append, List.length_cons]
      omega
    rw [if_pos this]

theorem unquote_quoted (q : Nat) (mid : GoString) (hq : q = 34 ∨ q = 39) :
    unquote (q :: (mid ++ [q])) = some mid := by
  unfold unquote
  have h1 : (q :: (mid ++ [q])).head? = some q := rfl
  have h2 : (q :: (mid ++ [q])).getLast? = some q := by
    rw [← List.cons_append, List.getLast?_append]
    simp
  rw [h1, h2]
  have h4 : (q :: (mid ++ [q])).length - 1 = (q :: mid).length := by
    simp
  have h3 : 1 ≤ (q :: (mid ++ [q])).length - 1 := by
    rw [h4]; simp
  simp only [true_and, hq, if_true]
  rw [if_pos h3, h4, ← List.cons_append, List.take_left' rfl]
  rfl

theorem unquote_lone (q : Nat) (hq : q = 34 ∨ q = 39) : unquote [q] = none := by
  unfold unquote
  simp [hq]

theorem unquote_plain (val : GoString)
    (h : val.head? ≠ val.getLast? ∨ (val.head? ≠ some 34 ∧ val.head? ≠ some 39)) :
    unquote val = some val := by
  unfold unquote
  cases hh : val.head? with
  | none => rfl
  | some a =>
    cases hl : val.getLast? with
    | none => rfl
    | some b =>
      simp only
      have hcond : ¬ (a = b ∧ (a = 34 ∨ a = 39)) := by
        rintro ⟨hab, hq⟩
        rw [hh, hl] at h
        rcases h with h | ⟨h1, h2⟩
        · exact h (by rw [hab])
        · rcases hq with hq | hq
          · exact h1 (by rw [hq])
          · exact h2 (by rw [hq])
      rw [if_neg hcond]

theorem collect_none_iff (l : List GoString) :
    collect l = none ↔
      ∃ q r, l = q ++ [] :: r ∧ ∀ a, a ∈ q → a ≠ [] ∧ a.head? ≠ some dash := by
  induction l with
  | nil =>
    simp only [collect]
    constructor
    · intro h; cases h
    · rintro ⟨q, r, h, _⟩
      have := congrArg List.length h
      simp only [List.length_nil, List.length_append, List.length_cons] at this
      omega
  | cons a rest ih =>
    cases a with
    | nil =>
      simp only [collect, true_iff]
      exact ⟨[], rest, rfl, fun a ha => by cases ha⟩
    | cons b bs =>
      simp only [collect]
      by_cases hb : b ≠ dash
      · rw [if_pos hb]
        rw [Option.map_eq_none', ih]
        constructor
        · rintro ⟨q, r, h, hq⟩
          refine ⟨(b :: bs) :: q, r, by rw [h]; rfl, ?_⟩
          intro a ha
          rcases List.mem_cons.1 ha with ha | ha
          · rw [ha]
            refine ⟨by simp, ?_⟩
            simp only [List.head?_cons, ne_eq, Option.some.injEq]
            exact hb
          · exact hq a ha
        · rintro ⟨q, r, h, hq⟩
          cases q with
          | nil =>
            simp only [List.nil_append, List.cons.injEq] at h
            cases h.1
          | cons x q =>
            simp only [List.cons_append, List.cons.injEq] at h
            exact ⟨q, r, h.2, fun a ha => hq a (List.mem_cons_of_mem x ha)⟩
      · rw [if_neg hb]
        have hbd : b = dash := not_not.1 hb
        constructor
        · intro h; cases h
        · rintro ⟨q, r, h, hq⟩
          cases q with
          | nil =>
            simp only [List.nil_append, List.cons.injEq] at h
            cases h.1
          | cons x q =>
            simp only [List.cons_append, List.cons.injEq] at h
            have := (hq x (List.mem_cons_self x q)).2
            rw [← h.1, hbd] at this
            exact absurd rfl this

theorem unquote_none_iff (v : GoString) : unquote v = none ↔ v = [34] ∨ v = [39] := by
  constructor
  · intro h
    unfold unquote at h
    cases hh : v.head? with
    | none => simp [hh] at h
    | some a =>
      cases hl : v.getLast? with
      | none => simp [hh, hl] at h
      | some b =>
        simp only [hh, hl] at h
        split at h
        · rename_i hc
          split at h
          · cases h
          · rename_i hlen
            cases v with
            | nil => simp at hh
            | cons x xs =>
              simp only [List.head?_cons, Option.some.injEq] at hh
              have hxs : xs = [] := by
                apply List.length_eq_zero.1
                simp only [List.length_cons] at hlen
                omega
              rw [hxs, hh]
              rcases hc.2 with hq | hq
              · exact Or.inl (by rw [hq])
              · exact Or.inr (by rw [hq])
        · cases h
  · rintro (h | h)
    · rw [h]; exact unquote_lone 34 (Or.inl rfl)
    · rw [h]; exact unquote_lone 39 (Or.inr rfl)

theorem failsAt_decides (f arg : GoString) (post : List GoString)
    (h : failsAt f arg post) : decides f arg ∧ arg ≠ [dash] := by
  rcases h with ⟨h1, h2, _⟩ | ⟨sep, qt, hsep, _, h1⟩
  · rw [h1]
    exact ⟨⟨List.isPrefixOf_iff_prefix.2 (List.prefix_refl f), Or.inl rfl⟩, by rw [← h1]; exact h2⟩
  · rw [h1]
    refine ⟨⟨List.isPrefixOf_iff_prefix.2 (List.prefix_append _ _), Or.inr ?_⟩, ?_⟩
    · rw [List.getElem?_append_right (le_refl _)]
      simp only [Nat.sub_self, List.getElem?_cons_zero]
      rcases hsep with h | h
      · exact Or.inl (by rw [h])
      · exact Or.inr (by rw [h])
    · intro h
      have := congrArg List.length h
      simp at this

theorem failsIn_cons_skip (f a : GoString) (rest : List GoString)
    (hd : a ≠ [dash]) (hn : ¬ decides f a) :
    failsIn f (a :: rest) ↔ failsIn f rest := by
  constructor
  · rintro ⟨pre, arg, post, h, hpre, hfail⟩
    cases pre with
    | nil =>
      simp only [List.nil_append, List.cons.injEq] at h
      rw [← h.1] at hfail
      exact absurd (failsAt_decides f a post hfail).1 hn
    | cons x pre =>
      simp only [List.cons_append, List.cons.injEq] at h
      exact ⟨pre, arg, post, h.2, fun y hy => hpre y (List.mem_cons_of_mem x hy), hfail⟩
  · rintro ⟨pre, arg, post, h, hpre, hfail⟩
    refine ⟨a :: pre, arg, post, by rw [h]; rfl, ?_, hfail⟩
    intro y hy
    rcases List.mem_cons.1 hy with hy | hy
    · rw [hy]; exact ⟨hd, hn⟩
    · exact hpre y hy

theorem failsIn_cons_stop (f a : GoString) (rest : List GoString)
    (hdec : decides f a ∨ a = [dash]) :
    failsIn f (a :: rest) ↔ failsAt f a rest := by
  constructor
  · rintro ⟨pre, arg, post, h, hpre, hfail⟩
    cases pre with
    | nil =>
      simp only [List.nil_append, List.cons.injEq] at h
      rw [h.1, h.2]
      exact hfail
    | cons x pre =>
      simp only [List.cons_append, List.cons.injEq] at h
      have hx := hpre x (List.mem_cons_self x pre)
      rw [← h.1] at hx
      rcases hdec with hdec | hdec
      · exact absurd hdec hx.2
      · exact absurd hdec hx.1
  · intro hfail
    refine ⟨[], a, rest, rfl, ?_, hfail⟩
    intro y hy
    cases hy

theorem prefix_split (f a : GoString) (hp : f.isPrefixOf a = true) :
    a = f ++ a.drop f.length := by
  rw [List.isPrefixOf_iff_prefix] at hp
  obtain ⟨t, ht⟩ := hp
  rw [← ht, List.drop_left]

theorem argsLoop_none_iff (f : GoString) :
    ∀ l : List GoString, argsLoop f l = none ↔ failsIn f l := by
  intro l
  induction l with
  | nil =>
    simp only [argsLoop]
    constructor
    · intro h; cases h
    · rintro ⟨pre, arg, post, h, _⟩
      have := congrArg List.length h
      simp only [List.length_nil, List.length_append, List.length_cons] at this
      omega
  | cons a rest ih =>
    by_cases hd : a = [dash]
    · rw [failsIn_cons_stop f a rest (Or.inr hd)]
      rw [argsLoop, if_pos hd]
      constructor
      · intro h; cases h
      · intro h
        exact absurd hd (failsAt_decides f a rest h).2
    · by_cases hdec : decides f a
      · rw [failsIn_cons_stop f a rest (Or.inl hdec)]
        obtain ⟨hp, hform⟩ := hdec
        have hsplit := prefix_split f a hp
        rw [argsLoop, if_neg hd, if_pos hp]
        by_cases hlen : a.length = f.length
        · rw [if_pos hlen, Option.map_eq_none', collect_none_iff]
          have haf : a = f := by
            have h0 : a.drop f.length = [] := by
              apply List.length_eq_zero.1
              rw [List.length_drop]; omega
            rw [h0, List.append_nil] at hsplit
            exact hsplit
          constructor
          · intro h
            exact Or.inl ⟨haf, hd, h⟩
          · rintro (⟨_, _, h⟩ | ⟨sep, qt, _, _, h⟩)
            · exact h
            · have := congrArg List.length h
              simp only [List.length_append, List.length_cons, List.length_nil] at this
              omega
        · rw [if_neg hlen]
          have hlt : f.length < a.length := by
            have := prefix_length f a hp
            omega
          have hget : a[f.length]? = some a[f.length] := List.getElem?_eq_getElem hlt
          have hch : a[f.length] = 61 ∨ a[f.length] = 58 := by
            rcases hform with h | h | h
            · exact absurd h hlen
            · rw [hget] at h; exact Or.inl (Option.some.inj h)
            · rw [hget] at h; exact Or.inr (Option.some.inj h)
          rw [hget]
          simp only [hch, if_true]
          have hdrop : a.drop f.length = a[f.length] :: a.drop (f.length + 1) :=
            List.drop_eq_getElem_cons hlt
          by_cases hlong : a.length > f.length + 1
          · rw [if_pos hlong, Option.map_eq_none', unquote_none_iff]
            constructor
            · intro h
              right
              rcases h with h | h
              · exact ⟨a[f.length], 34, hch, Or.inl rfl, by
                  conv_lhs => rw [hsplit, hdrop, h]⟩
              · exact ⟨a[f.length], 39, hch, Or.inr rfl, by
                  conv_lhs => rw [hsplit, hdrop, h]⟩
            · rintro (⟨h, _, _⟩ | ⟨sep, qt, _, hq, h⟩)
              · have := congrArg List.length h
                omega
              · have hd2 : a.drop (f.length + 1) = [qt] := by
                  rw [h, List.drop_append_eq_append_drop]
                  simp
                rw [hd2]
                rcases hq with hq | hq
                · exact Or.inl (by rw [hq])
                · exact Or.inr (by rw [hq])
          · rw [if_neg hlong]
            constructor
            · intro h; cases h
            · rintro (⟨h, _, _⟩ | ⟨sep, qt, _, _, h⟩)
              · have := congrArg List.length h
                omega
              · have := congrArg List.length h
                simp only [List.length_append, List.length_cons, List.length_nil] at this
                omega
      · rw [argsLoop_skip f a rest hd hdec, failsIn_cons_skip f a rest hd hdec]
        exact ih

/-! ### The loop of backtracking -/

theorem backLoop_empty (E : Env) (fuel : Nat) (c : compiler) (i : Int) (s : Nat) (r : LoopEnd)
    (hnil : c.states = []) (h : backLoop E fuel c i s = some r) : r = .goOn c i s := by
  cases fuel with
  | zero => simp [backLoop] at h
  | succ f =>
    rw [backLoop, hnil] at h
    simp only [List.getLast?_nil, Option.some.injEq] at h
    exact h.symm

theorem backLoop_outcome (E : Env)
    (hquiet : ∀ cb c0 c1 e, E.funcs cb c0 = some (c1, e) → c1.states = c0.states) :
    ∀ (fuel : Nat) (c : compiler) (i : Int) (s : Nat) (r : LoopEnd),
      c.dynamic = none → c.states ≠ [] → backLoop E fuel c i s = some r →
      ∃ (kept : List StateStack) (fr : StateStack) (above : List StateStack) (cm : compiler),
        c.states = kept ++ fr :: above ∧
        (∀ x, x ∈ above → stopBack E.K x = false) ∧
        popsAll E above.reverse c = some cm ∧
        ((∃ c1, frameCallback E fr cm = some (c1, none) ∧ c1.dynamic = none ∧
            r = .goOn { c1 with states := kept } i fr.State ∧
            (kept = [] ∨ stopBack E.K fr = true)) ∨
         (∃ c1 d, frameCallback E fr cm = some (c1, none) ∧ c1.dynamic = some d ∧
            r = .goOn { c1 with states := kept ++ [fr] }
              (if hasFlag d.Flags E.K.cfStay = true then i - 1 else i) d.State) ∨
         (∃ c1 err, frameCallback E fr cm = some (c1, some err) ∧ r = .failed c1 err)) := by
  intro fuel
  induction fuel with
  | zero => intro c i s r _ _ h; simp [backLoop] at h
  | succ f ih =>
    intro c i s r hdyn hne h
    rw [backLoop] at h
    cases hlast : c.states.getLast? with
    | none => exact absurd (List.getLast?_eq_none_iff.1 hlast) hne
    | some prev =>
      have hsplit : c.states = c.states.dropLast ++ [prev] :=
        (List.dropLast_append_getLast? prev hlast).symm
      simp only [hlast] at h
      have hnone : ∀ x, x ∈ ([] : List StateStack) → stopBack E.K x = false :=
        fun x hx => absurd hx (List.not_mem_nil x)
      have key : ∀ c1 : compiler, frameCallback E prev c = some (c1, none) →
          c1.states = c.states → c1.dynamic = none →
          (if (hasFlag prev.Origin.Flags E.K.cfStopBack || c1.dynamic.isSome) = true then
            some (LoopEnd.goOn { c1 with states := c1.states.dropLast } i prev.State)
          else backLoop E f { c1 with states := c1.states.dropLast } i prev.State) = some r →
          ∃ (kept : List StateStack) (fr : StateStack) (above : List StateStack)
            (cm : compiler),
            c.states = kept ++ fr :: above ∧
            (∀ x, x ∈ above → stopBack E.K x = false) ∧
            popsAll E above.reverse c = some cm ∧
            ((∃ c1, frameCallback E fr cm = some (c1, none) ∧ c1.dynamic = none ∧
                r = .goOn { c1 with states := kept } i fr.State ∧
                (kept = [] ∨ stopBack E.K fr = true)) ∨
             (∃ c1 d, frameCallback E fr cm = some (c1, none) ∧ c1.dynamic = some d ∧
                r = .goOn { c1 with states := kept ++ [fr] }
                  (if hasFlag d.Flags E.K.cfStay = true then i - 1 else i) d.State) ∨
             (∃ c1 err, frameCallback E fr cm = some (c1, some err) ∧
                r = .failed c1 err)) := by
        intro c1 hfc hst hd1 hcont
        have hsome : c1.dynamic.isSome = false := by rw [hd1]; rfl
        simp only [hsome, Bool.or_false] at hcont
        by_cases hstop : hasFlag prev.Origin.Flags E.K.cfStopBack = true
        · rw [if_pos hstop] at hcont
          refine ⟨c.states.dropLast, prev, [], c, hsplit, hnone, rfl, ?_⟩
          left
          refine ⟨c1, hfc, hd1, ?_, Or.inr hstop⟩
          rw [← Option.some.inj hcont, hst]
        · rw [if_neg hstop] at hcont
          by_cases hinit : c.states.dropLast = []
          · have hr := backLoop_empty E f _ i prev.State r (by
              show c1.states.dropLast = []
              rw [hst]; exact hinit) hcont
            refine ⟨[], prev, [], c, by rw [hinit] at hsplit; exact hsplit,
              hnone, rfl, ?_⟩
            left
            refine ⟨c1, hfc, hd1, ?_, Or.inl rfl⟩
            rw [hr, hst, hinit]
          · obtain ⟨kept, fr, above, cm, h1, h2, h3, h4⟩ :=
              ih { c1 with states := c1.states.dropLast } i prev.State r hd1
                (by show c1.states.dropLast ≠ []
                    rw [hst]; exact hinit) hcont
            have h1a : c.states.dropLast = kept ++ fr :: above := by
              rw [← hst]; exact h1
            refine ⟨kept, fr, above ++ [prev], cm, ?_, ?_, ?_, h4⟩
            · rw [hsplit, h1a, List.append_assoc]
              rfl
            · intro x hx
              rcases List.mem_append.1 hx with hx | hx
              · exact h2 x hx
              · rw [List.mem_singleton.1 hx]
                simp only [stopBack]
                exact Bool.eq_false_iff.2 hstop
            · rw [List.reverse_append, List.reverse_singleton, List.singleton_append,
                popsAll, hfc]
              show (if c1.dynamic = none then
                  popsAll E above.reverse { c1 with states := c1.states.dropLast }
                else none) = some cm
              rw [if_pos hd1]
              exact h3
      cases hcb : prev.Origin.Callback with
      | none =>
        simp only [hcb] at h
        exact key c (by simp [frameCallback, hcb]) rfl hdyn h
      | some cb =>
        simp only [hcb] at h
        have hfcb : frameCallback E prev c = E.funcs cb c := by
          simp [frameCallback, hcb]
        cases hf : E.funcs cb c with
        | none => simp [hf] at h
        | some res =>
          obtain ⟨c1, e⟩ := res
          have hst := hquiet cb c c1 e hf
          cases e with
          | some err =>
            simp only [hf, Option.some.injEq] at h
            refine ⟨c.states.dropLast, prev, [], c, hsplit, hnone, rfl, ?_⟩
            right; right
            exact ⟨c1, err, by rw [hfcb, hf], h.symm⟩
          | none =>
            simp only [hf] at h
            cases hd : c1.dynamic with
            | none =>
              simp only [hd] at h
              have hne1 : ¬ c1.states = [] := by rw [hst]; exact hne
              rw [if_neg hne1] at h
              apply key c1 (by rw [hfcb, hf]) hst hd
              rw [hd]
              exact h
            | some d =>
              simp only [hd, pushDynamic] at h
              have hne1 : ¬ c1.states ++
                  [({ Origin := d, Pos := i, State := prev.State } : StateStack)] = [] := by
                simp
              rw [if_neg hne1] at h
              simp only [Option.isSome_some, Bool.or_true, if_true, List.dropLast_concat,
                Option.some.injEq] at h
              refine ⟨c.states.dropLast, prev, [], c, hsplit, hnone, rfl, ?_⟩
              right; left
              refine ⟨c1, d, by rw [hfcb, hf], hd, ?_⟩
              rw [← h, ← hsplit, ← hst, hd]

theorem backLoop_returns (E : Env)
    (hquiet : ∀ cb c0 c1 e, E.funcs cb c0 = some (c1, e) → c1.states = c0.states)
    (hret : ∀ cb c0, E.funcs cb c0 ≠ none) :
    ∀ (fuel : Nat) (c : compiler) (i : Int) (s : Nat), c.states.length < fuel →
      ∃ r, backLoop E fuel c i s = some r := by
  intro fuel
  induction fuel with
  | zero => intro c i s h; omega
  | succ f ih =>
    intro c i s hlen
    rw [backLoop]
    cases hlast : c.states.getLast? with
    | none => exact ⟨_, rfl⟩
    | some prev =>
      have hsplit : c.states = c.states.dropLast ++ [prev] :=
        (List.dropLast_append_getLast? prev hlast).symm
      have hdl : c.states.dropLast.length < f := by
        rw [List.length_dropLast]
        have : 0 < c.states.length := by
          rw [hsplit]; simp
        omega
      simp only
      cases hcb : prev.Origin.Callback with
      | none =>
        simp only
        split
        · exact ⟨_, rfl⟩
        · exact ih _ _ _ hdl
      | some cb =>
        simp only
        cases hf : E.funcs cb c with
        | none => exact absurd hf (hret cb c)
        | some res =>
          obtain ⟨c1, e⟩ := res
          have hst := hquiet cb c c1 e hf
          cases e with
          | some err => exact ⟨_, rfl⟩
          | none =>
            simp only
            cases hd : c1.dynamic with
            | some d =>
              simp only [pushDynamic]
              have hne1 : ¬ c1.states ++
                  [({ Origin := d, Pos := i, State := prev.State } : StateStack)] = [] := by
                simp
              rw [if_neg hne1]
              simp only [hd, Option.isSome_some, Bool.or_true, if_true]
              exact ⟨_, rfl⟩
            | none =>
              simp only
              have hne1 : ¬ c1.states = [] := by
                rw [hst, hsplit]; simp
              rw [if_neg hne1]
              split
              · exact ⟨_, rfl⟩
              · apply ih
                show c1.states.dropLast.length < f
                rw [hst]; exact hdl

theorem E3_quiet : ∀ cb c0 c1 e, E3.funcs cb c0 = some (c1, e) → c1.states = c0.states := by
  intro cb c0 c1 e h
  simp only [E3, exampleFuncs, includeLib] at h
  split at h
  · simp only [Option.some.injEq, Prod.mk.injEq] at h
    rw [← h.1]
  · split at h
    · simp only [Option.some.injEq, Prod.mk.injEq] at h
      rw [← h.1]
    · split at h
      · simp only [Option.some.injEq, Prod.mk.injEq] at h
        rw [← h.1]
      · split at h
        · simp only [Option.some.injEq, Prod.mk.injEq] at h
          rw [← h.1]
        · split at h
          · simp only [Option.some.injEq, Prod.mk.injEq] at h
            rw [← h.1]
          · simp only [Option.some.injEq, Prod.mk.injEq] at h
            rw [← h.1]

theorem E3_returns : ∀ cb c0, E3.funcs cb c0 ≠ none := by
  intro cb c0
  simp only [E3, exampleFuncs]
  split
  · simp
  · split
    · simp
    · split
      · simp
      · split
        · simp
        · split <;> simp

/-! ### Declaration and lookup -/

theorem findVarFrom_other (blocks : List CmdBlock) (p : Nat) (block block1 : CmdBlock)
    (token other : String) (hne : other ≠ token)
    (hb : blocks[p]? = some block) (hpar : block1.Parent = block.Parent)
    (hnames : block1.VarNames = mapSet block.VarNames token block.Vars.length) :
    ∀ (fuel : Nat) (s : Option Nat),
      findVarFrom (blocks.set p block1) other fuel s = findVarFrom blocks other fuel s := by
  have hlt : p < blocks.length := by
    rcases Nat.lt_or_ge p blocks.length with h | h
    · exact h
    · rw [List.getElem?_eq_none h] at hb; cases hb
  intro fuel
  induction fuel with
  | zero => intro s; cases s <;> rfl
  | succ f ih =>
    intro s
    cases s with
    | none => rfl
    | some q =>
      by_cases hq : q = p
      · subst hq
        simp only [findVarFrom, List.getElem?_set_self hlt, hb, hnames,
          mapGet_mapSet_ne _ _ _ _ hne, hpar, ih]
      · simp only [findVarFrom, List.getElem?_set_ne (Ne.symm hq), ih]

/-! ### C8, C9: placement of break and continue -/

/-- C8, as stated, fails: inside a case block and outside every while and for
block, `coBreak` returns no error and appends a break command to the current
owner. -/
theorem coBreak_in_case_succeeds :
    ownersAvoid inCase [StackWhile, K0.StackFor] ∧
    coBreak K0 inCase =
      some ({ inCase with
              blocks := [mkBlock 1 none,
                { mkBlock K0.StackCase (some 0) with Children := [.command 0 K0.RcBreak] }] },
            none) := by
  refine ⟨?_, by decide⟩
  intro p hp
  simp only [inCase, mkCompiler, List.mem_cons, ICmd.block.injEq, List.mem_singleton,
    List.not_mem_nil, or_false] at hp
  rcases hp with rfl | rfl
  · exact ⟨_, rfl, by decide⟩
  · exact ⟨_, rfl, by decide⟩

/-- C8, amended: for every compiler state whose owners stack contains no while,
for, case or default block, `coBreak` returns the break-placement error and
leaves the state as it was: no command is appended to the current owner. -/
theorem coBreak_outside_fails (K : Consts) (cmpl : compiler)
    (h : ownersAvoid cmpl [StackWhile, K.StackFor, K.StackCase, K.StackDefault]) :
    coBreak K cmpl = some (cmpl, some (cmpl.Error K.ErrBreak [])) := by
  have hloop : isInLoop K cmpl true = some false := by
    apply isInLoopFrom_false
    intro p hp
    obtain ⟨b, hb, hn⟩ := h p hp
    refine ⟨b, hb, ?_⟩
    simp only [List.mem_cons, List.mem_singleton, List.not_mem_nil, or_false] at hn
    tauto
  simp only [coBreak, hloop]

/-- C8, witness: in the block of a function, outside every loop and case. -/
theorem coBreak_outside_fails_witness :
    coBreak K0 inFunc = some (inFunc, some (inFunc.Error K0.ErrBreak [])) :=
  coBreak_outside_fails K0 inFunc (by
    intro p hp
    simp only [inFunc, mkCompiler, List.mem_singleton, ICmd.block.injEq] at hp
    subst hp
    exact ⟨_, rfl, by decide⟩)

/-- C9, as stated, fails in its second half: inside a case block and outside
every loop, `coContinue` returns the continue-placement error and appends
nothing. -/
theorem coContinue_in_case_fails :
    ownersHave inCase [K0.StackCase] ∧
    coContinue K0 inCase = some (inCase, some (inCase.Error K0.ErrContinue [])) := by
  refine ⟨⟨1, mkBlock K0.StackCase (some 0), ?_, rfl, by decide⟩, by decide⟩
  simp [inCase, mkCompiler]

/-- C9, amended: for every compiler state whose owners stack contains no while
and no for block, `coContinue` returns the continue-placement error and leaves
the state as it was; and whenever the owners stack (of blocks of the heap)
contains a while or a for block, `coContinue` succeeds and appends exactly one
continue command to the current owner, changing nothing else. -/
theorem coContinue_placement (K : Consts) (cmpl : compiler) :
    (ownersAvoid cmpl [StackWhile, K.StackFor] →
      coContinue K cmpl = some (cmpl, some (cmpl.Error K.ErrContinue []))) ∧
    (ownersValid cmpl → ownersHave cmpl [StackWhile, K.StackFor] →
      ∀ p, curOwner cmpl = some p →
      ∃ owner, cmpl.blocks[p]? = some owner ∧
        coContinue K cmpl =
          some ({ cmpl with
                  blocks := cmpl.blocks.set p
                    { owner with
                      Children := owner.Children ++ [.command cmpl.pos.toNat K.RcContinue] } },
                none)) := by
  constructor
  · intro h
    have hloop : isInLoop K cmpl false = some false := by
      apply isInLoopFrom_false
      intro p hp
      obtain ⟨b, hb, hn⟩ := h p hp
      refine ⟨b, hb, ?_⟩
      simp only [List.mem_cons, List.mem_singleton, List.not_mem_nil, or_false] at hn
      simp only [Bool.false_eq_true, false_and, or_false]
      exact hn
    simp only [coContinue, hloop]
  · intro hv hh
    have hloop : isInLoop K cmpl false = some true := by
      apply isInLoopFrom_true K cmpl.blocks false cmpl.owners hv
      obtain ⟨p, b, hp, hb, hid⟩ := hh
      refine ⟨p, b, hp, hb, ?_⟩
      simp only [List.mem_cons, List.mem_singleton, List.not_mem_nil, or_false] at hid
      simp only [Bool.false_eq_true, false_and, or_false]
      exact hid
    intro p hp
    obtain ⟨owner, ho⟩ := hv p (curOwner_mem cmpl p hp)
    refine ⟨owner, ho, ?_⟩
    simp only [coContinue, hloop, appendCmd, hp, setParent, ICmd.GetType, CtStack,
      Nat.reduceEqDiff, if_false, ho]


/-- C9, witness: outside every loop the call fails, inside a while block it
appends one continue command. -/
theorem coContinue_placement_witness :
    coContinue K0 inFunc = some (inFunc, some (inFunc.Error K0.ErrContinue [])) ∧
    ∃ owner, inWhile.blocks[1]? = some owner ∧
      coContinue K0 inWhile =
        some ({ inWhile with
                blocks := inWhile.blocks.set 1
                  { owner with
                    Children := owner.Children ++ [.command inWhile.pos.toNat K0.RcContinue] } },
              none) :=
  ⟨(coContinue_placement K0 inFunc).1 (by
      intro p hp
      simp only [inFunc, mkCompiler, List.mem_singleton, ICmd.block.injEq] at hp
      subst hp
      exact ⟨_, rfl, by decide⟩),
   (coContinue_placement K0 inWhile).2
      (by
        intro p hp
        simp only [inWhile, mkCompiler, List.mem_cons, ICmd.block.injEq, List.mem_singleton,
          List.not_mem_nil, or_false] at hp
        rcases hp with rfl | rfl
        · exact ⟨_, rfl⟩
        · exact ⟨_, rfl⟩)
      ⟨1, mkBlock StackWhile (some 0), by simp [inWhile, mkCompiler], rfl, by decide⟩
      1 rfl⟩


/-! ### C5, C6: the run entry point -/

/-- C5: for every workspace, unit index and argument list, if the index is
negative or not smaller than the number of units, `Run` returns a nil value and
the run-index error; otherwise, if the unit has no entry function, it returns a
nil value and the no-entry-function error. In both cases the result is the same
for every evaluator and the runtime returned is the fresh one: no command is
evaluated. -/
theorem Run_fails_immediately (E : RunEnv) (fuel : Nat) (mem : List CmdBlock)
    (ws : Workspace) (unitID : Int) (cmdLine : List String) :
    ((unitID < 0 ∨ unitID ≥ ws.Units.length) →
      Run E fuel mem ws unitID cmdLine =
        some (newRunTime, none, some (runtimeError E.ErrRunIndex))) ∧
    (∀ unit, ¬ (unitID < 0 ∨ unitID ≥ ws.Units.length) →
      ws.Units[unitID.toNat]? = some unit → unit.RunID = Undefined →
      Run E fuel mem ws unitID cmdLine =
        some (newRunTime, none, some (runtimeError E.ErrNotRun))) := by
  constructor
  · intro h
    simp only [Run, if_pos h]
  · intro unit hr hu hrun
    simp only [Run, if_neg hr, hu, if_pos hrun]

/-- C5, witness: an index out of range, and a unit without entry function. -/
theorem Run_fails_immediately_witness :
    Run runSpawning 0 memRun wsRun 2 ["a"] =
        some (newRunTime, none, some (runtimeError runSpawning.ErrRunIndex)) ∧
    Run runSpawning 0 memRun wsRun 1 ["a"] =
        some (newRunTime, none, some (runtimeError runSpawning.ErrNotRun)) :=
  ⟨(Run_fails_immediately runSpawning 0 memRun wsRun 2 ["a"]).1 (by decide),
   (Run_fails_immediately runSpawning 0 memRun wsRun 1 ["a"]).2
      { InitUnit with Index := 1, Name := "lib" } (by decide) rfl rfl⟩

theorem drainLoop_spawning (fuel k : Nat) (rt : RunTime) (e : Option RunError)
    (hc : rt.Threads.Count = 1) (hq : rt.Threads.ChError = []) :
    drainLoop runSpawning fuel k rt e = none := by
  induction fuel generalizing k with
  | zero => rfl
  | succ n ih =>
    simp only [drainLoop, runSpawning, hc, hq]
    simp only [gt_iff_lt, zero_lt_one, if_true]
    have := ih (k + 1)
    simpa [runSpawning] using this

theorem drainLoop_count (E : RunEnv) (fuel k : Nat) (rt rt1 : RunTime)
    (e e1 : Option RunError) (h : drainLoop E fuel k rt e = some (rt1, e1)) :
    rt1.Threads.Count ≤ 0 := by
  induction fuel generalizing k rt e with
  | zero => simp [drainLoop] at h
  | succ n ih =>
    simp only [drainLoop] at h
    split at h
    · split at h
      · exact ih _ _ _ h
      · exact ih _ _ _ h
    · rename_i hn
      simp only [Option.some.injEq, Prod.mk.injEq] at h
      rw [← h.1]
      simpa using hn

/-- C6, as stated, fails: when the entry function has spawned a thread that
does not finish, the counter of live threads stays greater than zero and `Run`
does not return, whatever the fuel: its last loop spins until the counter is
zero. -/
theorem Run_waits_for_threads :
    ¬ ∃ fuel : Nat, Run runSpawning fuel memRun wsRun 0 [] ≠ none := by
  rintro ⟨fuel, h⟩
  apply h
  have hd := drainLoop_spawning fuel 0
    { Stack := [], CmdLine := [], Threads := { Count := 1, ChError := [] } } none rfl rfl
  have hrun : Run runSpawning fuel memRun wsRun 0 [] =
      match drainLoop runSpawning fuel 0
        { Stack := [], CmdLine := [], Threads := { Count := 1, ChError := [] } } none with
      | none => none
      | some (rt2, errResult) => some (rt2, none, errResult) := by
    simp [Run, wsRun, memRun, runSpawning, newRunTime, mkBlock, InitUnit, Undefined]
  rw [hrun, hd]

/-- C6, amended: after the entry function finishes, `Run` polls the queue of
thread errors without blocking on it, once per reading of the counter of live
threads, and goes on until that counter is no longer greater than zero: whenever
`Run` returns, the counter it read last is at most zero. -/
theorem Run_returns_when_idle (E : RunEnv) (fuel : Nat) (mem : List CmdBlock)
    (ws : Workspace) (unitID : Int) (cmdLine : List String) (rt : RunTime)
    (v : Option Value) (e : Option RunError)
    (h : Run E fuel mem ws unitID cmdLine = some (rt, v, e)) :
    rt.Threads.Count ≤ 0 := by
  unfold Run at h
  simp only at h
  split at h
  · simp only [Option.some.injEq, Prod.mk.injEq] at h
    rw [← h.1]
    decide
  · split at h
    · simp at h
    · split at h
      · simp only [Option.some.injEq, Prod.mk.injEq] at h
        rw [← h.1]
        decide
      · split at h
        · split at h
          · simp at h
          · split at h
            · simp at h
            · rename_i rt2 e2 hd
              simp only [Option.some.injEq, Prod.mk.injEq] at h
              rw [← h.1]
              exact drainLoop_count _ _ _ _ _ _ _ hd
        · simp at h

/-- C6, witness: a run whose entry function spawns no thread returns. -/
theorem Run_returns_when_idle_witness :
    Run runQuiet 1 memRun wsRun 0 ["a"] =
        some ({ Stack := [], CmdLine := ["a"], Threads := { Count := 0, ChError := [] } },
              none, none) ∧
    (0 : Int) ≤ 0 :=
  ⟨by decide,
   Run_returns_when_idle runQuiet 1 memRun wsRun 0 ["a"]
     { Stack := [], CmdLine := ["a"], Threads := { Count := 0, ChError := [] } } none none
     (by decide)⟩


/-! ### C13: identifiers that cannot be declared -/

/-- C13: for every token that begins with an uppercase letter or contains a
dot, `coVarToken` fails with an identifier error (the capital-letters error in
the first case, the identifier error otherwise) and leaves the whole state, so
`Vars`, `VarNames` and `Optional` of the current block, unchanged. -/
theorem coVarToken_bad_identifier (K : Consts) (cmpl : compiler) (token : String)
    (h : isCapital token = true ∨ '.' ∈ token.data) :
    coVarToken K cmpl token =
      some (cmpl, some (cmpl.Error
        (if isCapital token = true then K.ErrCapitalLetters else K.ErrIdent) [])) := by
  unfold coVarToken
  by_cases hc : isCapital token = true
  · simp only [hc, if_true]
  · rcases h with h | h
    · exact absurd h hc
    · simp only [hc, if_false, Bool.false_eq_true, if_pos h]

/-- The tokens `Abc` and `a.b` in the block of a function. -/
theorem coVarToken_bad_identifier_witness :
    coVarToken K0 inFunc "Abc" = some (inFunc, some (inFunc.Error K0.ErrCapitalLetters [])) ∧
    coVarToken K0 inFunc "a.b" = some (inFunc, some (inFunc.Error K0.ErrIdent [])) :=
  ⟨coVarToken_bad_identifier K0 inFunc "Abc" (Or.inl (by decide)),
   coVarToken_bad_identifier K0 inFunc "a.b" (Or.inr (by decide))⟩

/-! ### C18: the place of optional parameters -/

/-- C18: in a state with a latest function, `coOptional` returns the
illegal-optional-placement error and leaves the state, so `curOptional`,
unchanged whenever the owners stack holds more than one block or the latest
function is named `run`; in every other such state it succeeds and changes
the state only by setting `curOptional` to true. -/
theorem coOptional_placement (K : Consts) (cmpl : compiler) (f : FuncObject)
    (hf : latestFunc cmpl = some f) :
    ((f.Name = "run" ∨ cmpl.owners.length > 1) →
      coOptional K cmpl = some (cmpl, some (cmpl.Error K.ErrOptional []))) ∧
    (¬ (f.Name = "run" ∨ cmpl.owners.length > 1) →
      coOptional K cmpl = some ({ cmpl with curOptional := true }, none)) := by
  constructor
  · intro h
    simp only [coOptional, hf, if_pos h]
  · intro h
    simp only [coOptional, hf, if_neg h]

/-- The parameters of `func f`, and a `while` block inside `f`. -/
theorem coOptional_placement_witness :
    coOptional K0 inParams = some ({ inParams with curOptional := true }, none) ∧
    coOptional K0 inParamsNested =
      some (inParamsNested, some (inParamsNested.Error K0.ErrOptional [])) :=
  ⟨(coOptional_placement K0 inParams { Name := "f", Block := 0 } (by decide)).2 (by decide),
   (coOptional_placement K0 inParamsNested { Name := "f", Block := 0 } (by decide)).1
     (Or.inr (by decide))⟩

/-! ### C12: the slot-index invariant -/

/-- C12: the slot-index invariant (every value of `VarNames` is smaller than
`len(Vars)`, distinct names have distinct indices) is preserved by every
`coVarToken` call, in every block of the heap; a successful call gives the new
name, which no entry of the current block had, the index equal to the previous
`len(Vars)`, appends exactly the current type to `Vars`, and changes no other
name-to-index entry, no existing `Vars` entry and no other block. -/
theorem coVarToken_slot_invariant (K : Consts) (cmpl c1 : compiler) (token : String)
    (err : Option CompError)
    (hinv : ∀ (q : Nat) (b : CmdBlock), cmpl.blocks[q]? = some b → slotInv b)
    (h : coVarToken K cmpl token = some (c1, err)) :
    (∀ (q : Nat) (b : CmdBlock), c1.blocks[q]? = some b → slotInv b) ∧
    (err = none → ∃ p block block1, curOwner cmpl = some p ∧
      cmpl.blocks[p]? = some block ∧ c1.blocks[p]? = some block1 ∧
      mapGet block.VarNames token = none ∧
      mapGet block1.VarNames token = some block.Vars.length ∧
      block1.Vars = block.Vars ++ [cmpl.curType] ∧
      (∀ n, n ≠ token → mapGet block1.VarNames n = mapGet block.VarNames n) ∧
      (∀ q, q ≠ p → c1.blocks[q]? = cmpl.blocks[q]?)) := by
  cases err with
  | some e =>
    have hc := coVarToken_error K cmpl c1 token e h
    subst hc
    exact ⟨hinv, fun hn => by cases hn⟩
  | none =>
    obtain ⟨p, block, hp, hb, hcheck, hc1⟩ := coVarToken_success K cmpl c1 token h
    have hlt : p < cmpl.blocks.length := by
      rcases Nat.lt_or_ge p cmpl.blocks.length with h | h
      · exact h
      · rw [List.getElem?_eq_none h] at hb; cases hb
    have hother : ∀ q, q ≠ p → c1.blocks[q]? = cmpl.blocks[q]? := by
      intro q hq
      rw [hc1]
      exact List.getElem?_set_ne (Ne.symm hq)
    have hself : c1.blocks[p]? = some { block with
        VarNames := mapSet block.VarNames token block.Vars.length,
        Optional := (if cmpl.curOptional = true then
          mapSet block.Optional token block.Vars.length else block.Optional),
        Vars := block.Vars ++ [cmpl.curType] } := by
      rw [hc1]
      simp only [List.getElem?_set_self hlt]
    constructor
    · intro q b hq
      by_cases hqp : q = p
      · subst hqp
        rw [hself] at hq
        rw [← Option.some.inj hq]
        exact slotInv_declare block token _ _ (hinv q block hb)
      · rw [hother q hqp] at hq
        exact hinv q b hq
    · intro _
      exact ⟨p, block, _, hp, hb, hself, checkUsedName_miss K cmpl token p block hp hb hcheck,
        mapGet_mapSet_self _ _ _, rfl, fun n hn => mapGet_mapSet_ne _ _ _ _ hn, hother⟩

/-- The declaration of `y` after `x` in the block of a function: `y` gets
slot 1, `x` keeps slot 0. -/
theorem coVarToken_slot_invariant_witness :
    (∀ (q : Nat) (b : CmdBlock), declaredX.blocks[q]? = some b → slotInv b) ∧
    coVarToken K0 declaredX "y" = some (declaredXY, none) ∧
    (∀ (q : Nat) (b : CmdBlock), declaredXY.blocks[q]? = some b → slotInv b) :=
  have hinv : ∀ (q : Nat) (b : CmdBlock), declaredX.blocks[q]? = some b → slotInv b := by
    intro q b hq
    cases q with
    | zero =>
      have hb : b = { mkBlock 1 none with VarNames := [("x", 0)], Vars := [none] } :=
        (Option.some.inj hq).symm
      subst hb
      constructor
      · intro n i hn
        simp only [mkBlock, mapGet] at hn
        split at hn
        · cases hn; decide
        · cases hn
      · intro n m i hn hm
        simp only [mkBlock, mapGet] at hn hm
        split at hn
        · split at hm
          · rename_i h1 h2; rw [← h1, ← h2]
          · cases hm
        · cases hn
    | succ q => cases hq
  ⟨hinv, by decide,
   (coVarToken_slot_invariant K0 declaredX declaredXY "y" none hinv (by decide)).1⟩

/-! ### C10, C14, C15: the type resolver -/

/-- C10: for every unit and every element type name `T`, the call
`autoType("arr." + T)` (and likewise `"map." + T`) returns, and a second call
in the state it leaves returns the identical descriptor and leaves that state
as it is, so it creates no new type object; when `T` is resolvable, and is not
one of the bare names `arr` and `map`, the descriptor is not nil. -/
theorem autoType_memoized (K : Consts) (cmpl : compiler) (pre T : String)
    (hpre : pre = "arr." ∨ pre = "map.") :
    ∃ c1 obj e, autoType K cmpl (pre ++ T) = some (c1, obj, e) ∧
      autoType K c1 (pre ++ T) = some (c1, obj, e) ∧
      (T ≠ "arr" → T ≠ "map" → (∃ c0 t, autoType K cmpl T = some (c0, some t, none)) →
        obj ≠ none ∧ e = none) := by
  obtain ⟨⟨c1, obj, e⟩, hr⟩ := autoType_total K cmpl (pre ++ T)
  refine ⟨c1, obj, e, hr, autoType_again K cmpl c1 _ obj e hr, ?_⟩
  intro h1 h2 ⟨c0, t, hT⟩
  obtain ⟨c2, o, ho⟩ := autoType_composed K cmpl c0 pre T t hpre h1 h2 hT
  rw [hr] at ho
  simp only [Option.some.injEq, Prod.mk.injEq] at ho
  rw [ho.2.1, ho.2.2]
  simp

/-- In a unit with `str` only, the resolvable element type `str`: `arr.str` is
created by the first call and found again, in an unchanged state, by the
second one. -/
theorem autoType_memoized_witness :
    ∃ c1 obj, autoType K0 strOnly ("arr." ++ "str") = some (c1, some obj, none) ∧
      autoType K0 c1 ("arr." ++ "str") = some (c1, some obj, none) := by
  obtain ⟨c1, obj, e, h1, h2, h3⟩ := autoType_memoized K0 strOnly "arr." "str" (Or.inl rfl)
  obtain ⟨ho, he⟩ := h3 (by decide) (by decide) ⟨strOnly, 0, by decide⟩
  cases obj with
  | none => exact absurd rfl ho
  | some o =>
    rw [he] at h1 h2
    exact ⟨c1, o, h1, h2⟩

/-- C14 (as the code has it): in a unit in which `str` is the only registered
type, `autoType("arr")` fails with the unknown-type error while
`autoType("arr.str")` returns a descriptor (the new object 1): the bare name
`arr` does not get the element type `str`. -/
theorem autoType_bare_container :
    (autoType K0 strOnly "arr").map (fun r => r.2) =
        some (none, some (strOnly.Error K0.ErrType [])) ∧
      (autoType K0 strOnly "arr.str").map (fun r => r.2) = some (some 1, none) := by
  decide

/-- C14 (amended): a name that ends with `.arr` or `.map`, such as `arr.map`,
resolves exactly as that name with `.str` appended; the bare names `arr` and
`map` are looked up as they are, and are unknown types when not registered. -/
theorem autoType_default_element (K : Consts) (cmpl : compiler) (n : String)
    (hn : HasSuffix n ".arr" = true ∨ HasSuffix n ".map" = true) :
    autoType K cmpl n = autoType K cmpl (n ++ ".str") ∧
    (∀ bare, bare = "arr" ∨ bare = "map" →
      autoType K cmpl bare =
        match FindType cmpl.ws cmpl.unit bare with
        | some obj => some (cmpl, some obj, none)
        | none => some (cmpl, none, some (cmpl.Error K.ErrType []))) := by
  refine ⟨autoType_suffixed K cmpl n hn, ?_⟩
  intro bare hb
  rw [autoType_unfold]
  have h1 : fullName bare = bare := by
    rcases hb with rfl | rfl <;> decide
  have h2 : generic bare = none := by
    rcases hb with rfl | rfl <;> decide
  rw [h1, h2]

/-- The name `arr.map` in a unit with `str` only: it resolves as
`arr.map.str`, to the new object 2 (after `map.str`, object 1). -/
theorem autoType_default_element_witness :
    autoType K0 strOnly "arr.map" = autoType K0 strOnly ("arr.map" ++ ".str") ∧
    (autoType K0 strOnly "arr.map").map (fun r => r.2) = some (some 2, none) :=
  ⟨(autoType_default_element K0 strOnly "arr.map" (Or.inr (by decide))).1, by decide⟩

/-- C15: for every unit and every name, `autoType` returns, and it returns
either a descriptor with a nil error or no descriptor with the unknown-type
error `ErrType` (then the state is unchanged); it fails exactly when the name
(completed by `.str` when it ends with `.arr` or `.map`) is not registered and
is not of the form `arr.rest` or `map.rest` with `rest` resolvable. -/
theorem autoType_result (K : Consts) (cmpl : compiler) (name : String) :
    ((∃ c1 obj, autoType K cmpl name = some (c1, some obj, none)) ∨
      autoType K cmpl name = some (cmpl, none, some (cmpl.Error K.ErrType []))) ∧
    (autoType K cmpl name = some (cmpl, none, some (cmpl.Error K.ErrType [])) ↔
      FindType cmpl.ws cmpl.unit (fullName name) = none ∧
      ∀ rest, fullName name = "arr." ++ rest ∨ fullName name = "map." ++ rest →
        autoType K cmpl rest = some (cmpl, none, some (cmpl.Error K.ErrType []))) := by
  have hshape : ∀ n, (∃ c1 obj, autoType K cmpl n = some (c1, some obj, none)) ∨
      autoType K cmpl n = some (cmpl, none, some (cmpl.Error K.ErrType [])) := by
    intro n
    obtain ⟨⟨c1, obj, e⟩, hr⟩ := autoType_total K cmpl n
    rcases autoType_shape K cmpl c1 n obj e hr with ⟨o, ho, he, _, _⟩ | ⟨ho, he, hc⟩
    · left
      exact ⟨c1, o, by rw [hr, ho, he]⟩
    · right
      rw [hr, ho, he, hc]
  refine ⟨hshape name, ?_⟩
  constructor
  · intro h
    rw [autoType_unfold] at h
    cases hf : FindType cmpl.ws cmpl.unit (fullName name) with
    | some o => simp [hf] at h
    | none =>
      refine ⟨rfl, ?_⟩
      intro rest hrest
      have hg : ∃ kind, generic (fullName name) = some (kind, rest) := by
        rcases hrest with hr | hr
        · exact ⟨_, by rw [hr]; exact generic_arr rest⟩
        · exact ⟨_, by rw [hr]; exact generic_map rest⟩
      obtain ⟨kind, hg⟩ := hg
      simp only [hf, hg] at h
      rcases hshape rest with ⟨c1, obj, hr⟩ | hr
      · rw [hr, wrapType_found] at h
        simp at h
      · exact hr
  · intro ⟨hf, hrest⟩
    rw [autoType_unfold, hf]
    cases hg : generic (fullName name) with
    | none => rfl
    | some kr =>
      obtain ⟨kind, rest⟩ := kr
      have hform : fullName name = "arr." ++ rest ∨ fullName name = "map." ++ rest := by
        rcases generic_form _ kind rest hg with ⟨_, h⟩ | ⟨_, h⟩
        · exact Or.inl h
        · exact Or.inr h
      simp only
      rw [hrest rest hform, wrapType_failed]

/-! ### C16, C17: equality of types -/

/-- C16: for every two function-type descriptors `l` and `r` (the same object
or not), `isEqualTypes(l, r)` returns true if and only if they have the same
number of parameters, `isEqualTypes` returns true for their result types and
for each pair of parameters at the same position, and it returns false when
the numbers of parameters differ; two absent types are equal, an absent and a
present type are unequal; and a function-type descriptor is never equal to a
descriptor that is not a function type, on either side. -/
theorem isEqualTypes_functions (objs : List IObject) (l r : Nat) (left right : TypeObject)
    (lf rf : FuncSig)
    (hl : typeAt objs l = some left) (hr : typeAt objs r = some right)
    (hlo : left.Original = GoType.fn) (hro : right.Original = GoType.fn)
    (hlf : left.Func = some lf) (hrf : right.Func = some rf) :
    (EqualTypes objs (some l) (some r) true ↔
      lf.Params.length = rf.Params.length ∧
      EqualTypes objs lf.Result rf.Result true ∧
      ∀ (i : Nat) (a b : Option Nat), lf.Params[i]? = some a → rf.Params[i]? = some b →
        EqualTypes objs a b true) ∧
    (lf.Params.length ≠ rf.Params.length → EqualTypes objs (some l) (some r) false) ∧
    (EqualTypes objs none none true ∧
      ∀ x : Nat, EqualTypes objs none (some x) false ∧ EqualTypes objs (some x) none false) ∧
    (∀ (x : Nat) (other : TypeObject), typeAt objs x = some other →
      other.Original ≠ GoType.fn →
      EqualTypes objs (some l) (some x) false ∧ EqualTypes objs (some x) (some l) false) := by
  have step : ∀ f, isEqualTypes objs (f + 1) (some l) (some r) =
      if lf.Params.length ≠ rf.Params.length then some false
      else
        match isEqualTypes objs f lf.Result rf.Result with
        | none => none
        | some false => some false
        | some true => eqParams (isEqualTypes objs f) lf.Params rf.Params := by
    intro f
    rw [isEqualTypes_succ, hl, hr]
    simp only [hlo, hro, hlf, hrf, ne_eq, not_true_eq_false, if_false]
  refine ⟨⟨?_, ?_⟩, ?_, ⟨⟨0, rfl⟩, fun x => ⟨⟨0, rfl⟩, ⟨0, rfl⟩⟩⟩, ?_⟩
  · intro ⟨f, hf⟩
    cases f with
    | zero => simp [isEqualTypes] at hf
    | succ f =>
      rw [step] at hf
      by_cases hlen : lf.Params.length ≠ rf.Params.length
      · simp [hlen] at hf
      · simp only [hlen, if_false] at hf
        have hlen1 : lf.Params.length = rf.Params.length := not_not.1 hlen
        cases hres : isEqualTypes objs f lf.Result rf.Result with
        | none => simp [hres] at hf
        | some w =>
          cases w with
          | false => simp [hres] at hf
          | true =>
            simp only [hres] at hf
            refine ⟨hlen1, ⟨f, hres⟩, ?_⟩
            intro i a b ha hb
            exact ⟨f, (eqParams_true _ _ _ hlen1).1 hf i a b ha hb⟩
  · intro ⟨hlen, ⟨f0, hres⟩, hpar⟩
    obtain ⟨F, hF⟩ := common_fuel objs lf.Params rf.Params hpar
    refine ⟨max f0 F + 1, ?_⟩
    rw [step]
    have h1 := isEqualTypes_mono objs f0 _ _ true hres (max f0 F) (le_max_left f0 F)
    simp only [hlen, ne_eq, not_true_eq_false, if_false, h1]
    apply (eqParams_true _ _ _ hlen).2
    intro i a b ha hb
    exact isEqualTypes_mono objs F a b true (hF i a b ha hb) _ (le_max_right f0 F)
  · intro hlen
    refine ⟨1, ?_⟩
    rw [step, if_pos hlen]
  · intro x other hx hne
    have h := isEqualTypes_other_kind objs l x left other hl hx (by rw [hlo]; exact hne)
      (Or.inl hlo)
    exact ⟨⟨1, h.1⟩, ⟨1, h.2⟩⟩

/-- Objects 6 and 7 are distinct function types `fn(int, str) int`: they are
equal; object 8, `fn(int, int) int`, is not equal to object 6; nor is the
array type 2. -/
theorem isEqualTypes_functions_witness :
    EqualTypes typeObjs (some 6) (some 7) true ∧
    ¬ EqualTypes typeObjs (some 6) (some 8) true ∧
    EqualTypes typeObjs (some 6) (some 2) false := by
  have h67 := isEqualTypes_functions typeObjs 6 7
    { Name := "fn", Original := .fn, IndexOf := none,
      Func := some { Params := [some 0, some 1], Result := some 0 } }
    { Name := "fn", Original := .fn, IndexOf := none,
      Func := some { Params := [some 0, some 1], Result := some 0 } }
    { Params := [some 0, some 1], Result := some 0 }
    { Params := [some 0, some 1], Result := some 0 } rfl rfl rfl rfl rfl rfl
  refine ⟨⟨2, by decide⟩, ?_, (h67.2.2.2 2 _ rfl (by decide)).1⟩
  intro h
  have hf : EqualTypes typeObjs (some 6) (some 8) false := ⟨2, by decide⟩
  exact absurd (EqualTypes_unique typeObjs _ _ _ _ h hf) (by decide)

/-- C17: for every two array descriptors, and likewise every two map
descriptors, `l` and `r`: if the element type of either one is absent,
`isEqualTypes(l, r)` returns true whatever the other element type is; if both
element types are present, `isEqualTypes(l, r)` returns what `isEqualTypes` of
the two element types returns; and an array descriptor is never equal to a map
descriptor or to a descriptor that is no container (nor a map descriptor to
one of another kind), on either side. -/
theorem isEqualTypes_containers (objs : List IObject) (l r : Nat) (left right : TypeObject)
    (kind : GoType) (hk : kind = GoType.array ∨ kind = GoType.map)
    (hl : typeAt objs l = some left) (hr : typeAt objs r = some right)
    (hlo : left.Original = kind) (hro : right.Original = kind) :
    (left.IndexOf = none ∨ right.IndexOf = none → EqualTypes objs (some l) (some r) true) ∧
    (∀ (a b : Nat), left.IndexOf = some a → right.IndexOf = some b →
      ∀ v, EqualTypes objs (some l) (some r) v ↔ EqualTypes objs (some a) (some b) v) ∧
    (∀ (x : Nat) (other : TypeObject), typeAt objs x = some other →
      other.Original ≠ kind →
      EqualTypes objs (some l) (some x) false ∧ EqualTypes objs (some x) (some l) false) := by
  have step : ∀ f, isEqualTypes objs (f + 1) (some l) (some r) =
      if left.IndexOf = none ∨ right.IndexOf = none then some true
      else isEqualTypes objs f left.IndexOf right.IndexOf := by
    intro f
    rw [isEqualTypes_succ, hl, hr]
    rcases hk with hk | hk
    · rw [hk] at hlo hro
      simp only [hlo, hro, ne_eq, not_true_eq_false, if_false]
    · rw [hk] at hlo hro
      simp only [hlo, hro, ne_eq, not_true_eq_false, if_false]
  refine ⟨?_, ?_, ?_⟩
  · intro h
    refine ⟨1, ?_⟩
    rw [step, if_pos h]
  · intro a b ha hb v
    have hno : ¬ (left.IndexOf = none ∨ right.IndexOf = none) := by
      rw [ha, hb]; simp
    constructor
    · intro ⟨f, hf⟩
      cases f with
      | zero => simp [isEqualTypes] at hf
      | succ f =>
        rw [step, if_neg hno, ha, hb] at hf
        exact ⟨f, hf⟩
    · intro ⟨f, hf⟩
      refine ⟨f + 1, ?_⟩
      rw [step, if_neg hno, ha, hb]
      exact hf
  · intro x other hx hne
    have h := isEqualTypes_other_kind objs l x left other hl hx (by rw [hlo]; exact hne)
      (by rw [hlo]; rcases hk with hk | hk
          · exact Or.inr (Or.inl hk)
          · exact Or.inr (Or.inr hk))
    exact ⟨⟨1, h.1⟩, ⟨1, h.2⟩⟩

/-- The arrays `arr.int` (2), `arr.str` (3) and the open array (4): the open
array equals `arr.int`, `arr.int` and `arr.str` compare as `int` and `str`
do, that is unequal, and `arr.int` is not equal to `map.int` (5). -/
theorem isEqualTypes_containers_witness :
    EqualTypes typeObjs (some 4) (some 2) true ∧
    (∀ v, EqualTypes typeObjs (some 2) (some 3) v ↔ EqualTypes typeObjs (some 0) (some 1) v) ∧
    EqualTypes typeObjs (some 2) (some 3) false ∧
    EqualTypes typeObjs (some 2) (some 5) false := by
  have h42 := isEqualTypes_containers typeObjs 4 2
    { Name := "arr*", Original := .array, IndexOf := none, Func := none }
    { Name := "arr.int", Original := .array, IndexOf := some 0, Func := none }
    GoType.array (Or.inl rfl) rfl rfl rfl rfl
  have h23 := isEqualTypes_containers typeObjs 2 3
    { Name := "arr.int", Original := .array, IndexOf := some 0, Func := none }
    { Name := "arr.str", Original := .array, IndexOf := some 1, Func := none }
    GoType.array (Or.inl rfl) rfl rfl rfl rfl
  exact ⟨h42.1 (Or.inl rfl), h23.2.1 0 1 rfl rfl, (h23.2.1 0 1 rfl rfl false).2 ⟨1, by decide⟩,
    (h23.2.2 5 _ rfl (by decide)).1⟩

/-! ### C11: the lookup of a variable -/

/-- C11: for every chain of blocks `ps` (the current owner, its `Parent`, the
`Parent` of that block, and so on up to nil) and every token, `findVar`
returns: it returns `(b, b.VarNames[token])` where `b` is the first block on
the chain, innermost first, whose `VarNames` contains the token, and it
returns `(nil, 0)` exactly when no block on the chain contains the token. -/
theorem findVar_first_block (cmpl : compiler) (token : String) (p : Nat) (ps : List Nat)
    (hcur : curOwner cmpl = some p) (hchain : IsChain cmpl.blocks (some p) ps) :
    (∀ (pre : List Nat) (q : Nat) (post : List Nat) (b : CmdBlock) (ind : Nat),
      ps = pre ++ q :: post → (∀ x, x ∈ pre → ¬ declaredIn cmpl.blocks token x) →
      cmpl.blocks[q]? = some b → mapGet b.VarNames token = some ind →
      findVar cmpl token = some (some q, ind)) ∧
    (findVar cmpl token = some (none, 0) ↔
      ∀ x, x ∈ ps → ¬ declaredIn cmpl.blocks token x) ∧
    (∃ r, findVar cmpl token = some r) := by
  have hlen := chain_length cmpl.blocks ps (some p) hchain
  have hfv : findVar cmpl token =
      findVarFrom cmpl.blocks token cmpl.blocks.length (some p) := by
    simp only [findVar, hcur]
  have hit : ∀ (pre : List Nat) (q : Nat) (post : List Nat) (b : CmdBlock) (ind : Nat),
      ps = pre ++ q :: post → (∀ x, x ∈ pre → ¬ declaredIn cmpl.blocks token x) →
      cmpl.blocks[q]? = some b → mapGet b.VarNames token = some ind →
      findVar cmpl token = some (some q, ind) := by
    intro pre q post b ind hsplit hno hb hm
    rw [hfv]
    rw [hsplit] at hchain hlen
    exact findVarFrom_chain_hit cmpl.blocks token pre (some p) _ q post b ind hchain
      (by simp only [List.length_append, List.length_cons] at hlen; omega) hno hb hm
  have miss : (∀ x, x ∈ ps → ¬ declaredIn cmpl.blocks token x) →
      findVar cmpl token = some (none, 0) := by
    intro hno
    rw [hfv]
    exact findVarFrom_chain_miss cmpl.blocks token ps (some p) _ hchain hlen hno
  refine ⟨hit, ⟨?_, miss⟩, ?_⟩
  · intro hnil x hx hdecl
    obtain ⟨pre, q, post, hsplit, ⟨b, ind, hb, hm⟩, hpre⟩ :=
      first_in_list (declaredIn cmpl.blocks token) ps ⟨x, hx, hdecl⟩
    have := hit pre q post b ind hsplit hpre hb hm
    rw [hnil] at this
    simp at this
  · by_cases hex : ∃ x, x ∈ ps ∧ declaredIn cmpl.blocks token x
    · obtain ⟨pre, q, post, hsplit, ⟨b, ind, hb, hm⟩, hpre⟩ :=
        first_in_list (declaredIn cmpl.blocks token) ps hex
      exact ⟨_, hit pre q post b ind hsplit hpre hb hm⟩
    · exact ⟨_, miss (fun x hx hd => hex ⟨x, hx, hd⟩)⟩

/-- Inside the loop of `func f { x; while c { y; | } }`, the chain is the
block of the loop (1), then the block of the function (0): `x` is found in
block 0 after a miss in block 1. -/
theorem findVar_first_block_witness :
    findVar twoScopes "x" = some (some 0, 0) :=
  (findVar_first_block twoScopes "x" 1 [1, 0] (by decide)
    ⟨rfl, _, rfl, rfl, _, rfl, trivial⟩).1 [1] 0 []
    { mkBlock 1 none with VarNames := [("x", 0)], Vars := [none] } 0 rfl
    (by
      intro x hx ⟨b, ind, hb, hm⟩
      rw [List.mem_singleton.1 hx] at hb
      have hb1 : b = { mkBlock StackWhile (some 0) with
          VarNames := [("y", 0)], Vars := [none] } := (Option.some.inj hb).symm
      rw [hb1] at hm
      simp [mapGet] at hm)
    rfl rfl

/-! ### C19: variadic parameters -/

/-- C19 (as the code has it): the parameter `arr a...` in a unit in which
`str` is object 0 and the container `arr` object 1. The current type `T` is
`arr`; the name `arr.arr` ends with `.arr` and gets the default element, so
`coVariadic` succeeds and writes into slot 0 the descriptor `arr.arr.str`
(object 3), whose element type is `arr.str` (the new object 2), not `T`
(object 1). -/
theorem coVariadic_bare_container :
    arrParam.curType = some 1 ∧ curTypeName arrParam = some "arr" ∧
    coVariadic K0 arrParam = some (arrParamDone, none) ∧
    (arrParamDone.blocks[0]?).map (fun b => b.Vars) = some [some 3] ∧
    typeAt arrParamDone.ws.Objects 3 =
      some { Name := "arr.arr.str", Original := .array, IndexOf := some 2, Func := none } ∧
    typeAt arrParamDone.ws.Objects 2 =
      some { Name := "arr.str", Original := .array, IndexOf := some 0, Func := none } ∧
    (typeAt arrParamDone.ws.Objects 3).map (fun t => t.IndexOf) ≠ some arrParam.curType := by
  refine ⟨by decide, by decide, by decide, by decide, by decide, by decide, by decide⟩

/-- C19 (amended): for every block with at least one declared variable and a current
type `T`, `coVariadic` sets the `Variadic` mark of the block, resolves the
name `"arr." + name of T` and returns; when the name resolves, the call
succeeds and replaces only the last entry of `Vars`, by the descriptor
resolved (`len(Vars)`, every other entry of `Vars` and `VarNames` are as
before), and when it does not, the call returns the error of the resolver.
When `T` is registered under its name, the composed name needs no `.str`
default and a descriptor already memoized under it is the array of `T`, the
descriptor is an array descriptor whose element type is `T`. -/
theorem coVariadic_frame (K : Consts) (cmpl : compiler) (p : Nat) (block : CmdBlock)
    (name : String)
    (hp : curOwner cmpl = some p) (hb : cmpl.blocks[p]? = some block)
    (hv : block.Vars ≠ []) (hn : curTypeName cmpl = some name) :
    ∃ c1 obj e, autoType K (markVariadic cmpl p block) ("arr." ++ name) = some (c1, obj, e) ∧
      (∀ err, e = some err → coVariadic K cmpl = some (c1, some err)) ∧
      (∀ o, obj = some o →
        coVariadic K cmpl =
          some ({ c1 with
                  blocks := cmpl.blocks.set p
                    { block with
                      Variadic := true,
                      Vars := block.Vars.set (block.Vars.length - 1) (some o) } }, none) ∧
        (¬ (HasSuffix ("arr." ++ name) ".arr" = true ∨
            HasSuffix ("arr." ++ name) ".map" = true) →
          (∃ ti, cmpl.curType = some ti ∧ FindType cmpl.ws cmpl.unit name = some ti ∧
            ∀ (x : Nat) (t : TypeObject),
              FindType cmpl.ws cmpl.unit ("arr." ++ name) = some x →
              typeAt cmpl.ws.Objects x = some t →
              t.Original = GoType.array ∧ t.IndexOf = some ti) →
          ∃ t, typeAt c1.ws.Objects o = some t ∧ t.Original = GoType.array ∧
            t.IndexOf = cmpl.curType)) := by
  obtain ⟨⟨c1, obj, e⟩, ha⟩ := autoType_total K (markVariadic cmpl p block) ("arr." ++ name)
  refine ⟨c1, obj, e, ha, ?_, ?_⟩
  · intro err he
    rcases autoType_shape K _ c1 _ obj e ha with ⟨_, _, hnone, _, _⟩ | ⟨ho, _, _⟩
    · rw [hnone] at he; cases he
    · rw [ho, he] at ha
      exact coVariadic_failure K cmpl c1 p block name err hp hb hn ha
  · intro o ho
    have he : e = none := by
      rcases autoType_shape K _ c1 _ obj e ha with ⟨_, _, hnone, _, _⟩ | ⟨ho1, _, _⟩
      · exact hnone
      · rw [ho1] at ho; cases ho
    rw [ho, he] at ha
    refine ⟨coVariadic_success K cmpl c1 p block name o hp hb hv hn ha, ?_⟩
    intro hplain ⟨ti, hcur, hreg, hmemo⟩
    rw [hcur]
    exact autoType_array_of K (markVariadic cmpl p block) c1 name o ti hplain hreg hmemo ha

/-- The parameter `int a...`: the mark is set and slot 0 of the block gets
the new descriptor `arr.int`, object 1, whose element type is `int`. -/
theorem coVariadic_frame_witness :
    ∃ c1 : compiler, coVariadic K0 intParam =
        some ({ c1 with
                blocks := [{ mkBlock 1 none with
                  VarNames := [("a", 0)], Vars := [some 1], Variadic := true }] }, none) ∧
      ∃ t, typeAt c1.ws.Objects 1 = some t ∧ t.Original = GoType.array ∧
        t.IndexOf = some 0 := by
  obtain ⟨c1, obj, e, ha, _, hsucc⟩ := coVariadic_frame K0 intParam 0
    { mkBlock 1 none with VarNames := [("a", 0)], Vars := [some 0] } "int"
    (by decide) rfl (by decide) (by decide)
  have hdec : (autoType K0 (markVariadic intParam 0
      { mkBlock 1 none with VarNames := [("a", 0)], Vars := [some 0] })
      ("arr." ++ "int")).map (fun r => r.2.1) = some (some 1) := by decide
  rw [ha] at hdec
  have ho : obj = some 1 := Option.some.inj hdec
  obtain ⟨h1, h2⟩ := hsucc 1 ho
  refine ⟨c1, h1, h2 (by decide) ⟨0, rfl, by decide, ?_⟩⟩
  intro x t hx
  have hnone : FindType intParam.ws intParam.unit ("arr." ++ "int") = none := by decide
  rw [hnone] at hx
  cases hx

/-! ### C20: the colon sugar -/

/-- C20: for every token list whose line tokens lie inside the source and
every index `i >= endColon` of a token, `colonToLine` succeeds and splices one
implicit block: the token count grows by exactly one, token `i` becomes an
open-brace token, a close-brace token of length 1 is inserted at index `end`,
where `end` is the smallest index greater than `i` of a line token whose
source character is not a semicolon (or the old token count when there is
none), every other token keeps its content and relative order, `endColon`
becomes `end`, and nothing else of the state changes. -/
theorem colonToLine_splice (K : Consts) (cmpl : compiler) (i : Nat) (t : Token)
    (hend : cmpl.endColon ≤ (i : Int))
    (ht : cmpl.unit.Lexeme.Tokens[i]? = some t)
    (hoff : ∀ t1, t1 ∈ cmpl.unit.Lexeme.Tokens → t1.Type_ = K.tkLine →
      t1.Offset < cmpl.unit.Lexeme.Source.length) :
    ∃ (e : Nat) (tokens : List Token),
      colonToLine K cmpl (i : Int) =
        some ({ cmpl with
                unit := { cmpl.unit with
                  Lexeme := { cmpl.unit.Lexeme with Tokens := tokens } },
                endColon := (e : Int) }, none) ∧
      i < e ∧ e ≤ cmpl.unit.Lexeme.Tokens.length ∧
      (∀ (j : Nat) (t1 : Token), i < j → j < e → cmpl.unit.Lexeme.Tokens[j]? = some t1 →
        ¬ isBreak K cmpl.unit.Lexeme.Source t1) ∧
      (e < cmpl.unit.Lexeme.Tokens.length →
        ∃ t1, cmpl.unit.Lexeme.Tokens[e]? = some t1 ∧ isBreak K cmpl.unit.Lexeme.Source t1) ∧
      tokens.length = cmpl.unit.Lexeme.Tokens.length + 1 ∧
      tokens[i]? = some { t with Type_ := K.tkLCurly } ∧
      (∃ a, tokens[e]? = some { Type_ := K.tkRCurly, Offset := a, Length := 1 }) ∧
      (∀ j, j < e → j ≠ i → tokens[j]? = cmpl.unit.Lexeme.Tokens[j]?) ∧
      (∀ j, e ≤ j → tokens[j + 1]? = cmpl.unit.Lexeme.Tokens[j]?) := by
  have hi : i < cmpl.unit.Lexeme.Tokens.length := by
    rcases Nat.lt_or_ge i cmpl.unit.Lexeme.Tokens.length with h | h
    · exact h
    · rw [List.getElem?_eq_none h] at ht; cases ht
  have hdrop : (cmpl.unit.Lexeme.Tokens.set i { t with Type_ := K.tkLCurly }).drop (i + 1) =
      cmpl.unit.Lexeme.Tokens.drop (i + 1) := by
    apply List.ext_getElem?
    intro j
    rw [List.getElem?_drop, List.getElem?_drop, List.getElem?_set_ne (by omega)]
  obtain ⟨k, hk, hle, hbefore, hat⟩ := lineEnd_spec K cmpl.unit.Lexeme.Source
    (cmpl.unit.Lexeme.Tokens.drop (i + 1)) (i + 1)
    (fun t1 h1 => hoff t1 (List.mem_of_mem_drop h1))
  have hlen1 : (cmpl.unit.Lexeme.Tokens.set i { t with Type_ := K.tkLCurly }).length =
      cmpl.unit.Lexeme.Tokens.length := List.length_set _ _ _
  have hle2 : i + 1 + k ≤ cmpl.unit.Lexeme.Tokens.length := by
    rw [List.length_drop] at hle
    omega
  have hanchor : ∃ a,
      (if i + 1 + k = (cmpl.unit.Lexeme.Tokens.set i { t with Type_ := K.tkLCurly }).length
        then (cmpl.unit.Lexeme.Tokens.set i { t with Type_ := K.tkLCurly }).getLast?
        else (cmpl.unit.Lexeme.Tokens.set i { t with Type_ := K.tkLCurly })[i + 1 + k]?) =
      some a := by
    by_cases hlast : i + 1 + k =
        (cmpl.unit.Lexeme.Tokens.set i { t with Type_ := K.tkLCurly }).length
    · rw [if_pos hlast]
      cases hg : (cmpl.unit.Lexeme.Tokens.set i { t with Type_ := K.tkLCurly }).getLast? with
      | some a => exact ⟨a, rfl⟩
      | none =>
        rw [List.getLast?_eq_none_iff] at hg
        have := congrArg List.length hg
        rw [hlen1] at this
        simp only [List.length_nil] at this
        omega
    · rw [if_neg hlast]
      rw [hlen1] at hlast
      exact ⟨_, List.getElem?_eq_getElem (by rw [hlen1]; omega)⟩
  obtain ⟨a, ha⟩ := hanchor
  obtain ⟨s1, s2, s3, s4⟩ := splice_spec
    (cmpl.unit.Lexeme.Tokens.set i { t with Type_ := K.tkLCurly }) (i + 1 + k)
    { Type_ := K.tkRCurly, Offset := a.Offset, Length := 1 } (by rw [hlen1]; exact hle2)
  refine ⟨i + 1 + k, _, ?_, by omega, hle2, ?_, ?_, ?_, ?_, ⟨a.Offset, s3⟩, ?_, ?_⟩
  · unfold colonToLine
    have h1 : ¬ ((i : Int) < cmpl.endColon) := not_lt.2 hend
    have h2 : ¬ ((i : Int) < 0) := by omega
    simp only [h1, h2, if_false, Int.toNat_ofNat, ht, hdrop, hk, ha]
  · intro j t1 hij hje hget
    apply hbefore (j - (i + 1)) t1 (by omega)
    rw [List.getElem?_drop]
    rw [← hget]
    congr 1
    omega
  · intro hlt
    have := hat (by rw [List.length_drop]; omega)
    rw [List.getElem?_drop] at this
    exact this
  · rw [s1, hlen1]
  · rw [s2 i (by omega)]
    exact List.getElem?_set_self hi
  · intro j hj hne
    rw [s2 j hj]
    exact List.getElem?_set_ne (Ne.symm hne)
  · intro j hj
    rw [s4 j hj]
    exact List.getElem?_set_ne (by omega)

/-- The colon of `if a : b`, token 2: the close brace goes to index 4, before
the line token, which moves to index 5. -/
theorem colonToLine_splice_witness :
    ∃ tokens, colonToLine K0 colonState 2 =
        some ({ colonState with
                unit := { colonState.unit with
                  Lexeme := { colonState.unit.Lexeme with Tokens := tokens } },
                endColon := 4 }, none) ∧
      tokens.length = 7 ∧
      tokens[2]? = some { Type_ := K0.tkLCurly, Offset := 4, Length := 1 } := by
  obtain ⟨e, tokens, h1, h2, h3, h4, h5, h6, h7, _⟩ :=
    colonToLine_splice K0 colonState 2 { Type_ := K0.tkColon, Offset := 4, Length := 1 }
      (by decide) rfl (by decide)
  have hdec : (colonToLine K0 colonState ((2 : Nat) : Int)).map (fun r => r.1.endColon) =
      some 4 := by decide
  rw [h1] at hdec
  have he : (e : Int) = 4 := Option.some.inj hdec
  have he2 : e = 4 := by omega
  subst he2
  exact ⟨tokens, h1, h6, h7⟩

/-! ### C1 to C4: the compile transaction -/

/-- C1: for every workspace and every input on which `Compile` returns an
error, `len(ws.Objects)` and `len(ws.Units)` after the call equal their values
before the call; hence after a second failing `Compile` on the same workspace
both counts are still those of before the first call. The callbacks of the
compile table are taken to add to the objects and units only. -/
theorem Compile_failure_counts (E : Env) (hE : EnvAppends E) (fuel : Nat) (ws : Workspace)
    (input path : String) (ws1 : Workspace) (id : Int) (e : CompError)
    (h : Compile E fuel ws input path = some (ws1, id, some e)) :
    (ws1.Objects.length = ws.Objects.length ∧ ws1.Units.length = ws.Units.length) ∧
    ∀ (fuel2 : Nat) (input2 path2 : String) (ws2 : Workspace) (id2 : Int) (e2 : CompError),
      Compile E fuel2 ws1 input2 path2 = some (ws2, id2, some e2) →
      ws2.Objects.length = ws.Objects.length ∧ ws2.Units.length = ws.Units.length := by
  obtain ⟨ho, hu, _⟩ := Compile_failure_restores E hE fuel ws input path ws1 id e h
  refine ⟨⟨by rw [ho], by rw [hu]⟩, ?_⟩
  intro fuel2 input2 path2 ws2 id2 e2 h2
  obtain ⟨ho2, hu2, _⟩ := Compile_failure_restores E hE fuel2 ws1 input2 path2 ws2 id2 e2 h2
  exact ⟨by rw [ho2, ho], by rw [hu2, hu]⟩

/-- The input `ae`: the first token adds an object to the workspace, the
second one fails, and the workspace is as before. -/
theorem Compile_failure_counts_witness :
    Compile E0 10 wsLib "ae" "main.g" = some (wsLib, Undefined, some (ErrorPos 1 300 [])) ∧
    wsLib.Objects.length = 0 ∧ wsLib.Units.length = 2 :=
  have h : Compile E0 10 wsLib "ae" "main.g" =
      some (wsLib, Undefined, some (ErrorPos 1 300 [])) := by decide
  ⟨h, (Compile_failure_counts E0 E0_appends 10 wsLib "ae" "main.g" wsLib Undefined _ h).1⟩

/-- C2 (failing input): in a workspace where the name `lib` is registered to
unit 1, a compilation that includes a unit named `lib` (the name is
re-registered to the new unit 2) and then fails leaves `ws.Units` as before
but has lost the name `lib`: the rollback deletes the entry instead of
restoring its index 1. -/
theorem Compile_rollback_drops_name :
    mapGet wsLib.UnitNames "lib" = some 1 ∧
    Compile E0 10 wsLib "ne" "main.g" =
      some ({ wsLib with UnitNames := [("stdlib", 0)] }, Undefined,
        some (ErrorPos 1 300 [])) := by
  constructor
  · decide
  · decide

/-- C3 (as the code has it): the source `n`, whose token includes a unit
named `lib`, compiled into a workspace of two units: the call succeeds and
returns 3, and the workspace has four units afterwards. Two units were
appended, the included one (unit 2) and the one compiled (unit 3). -/
theorem Compile_includes_unit :
    Compile E0 10 wsLib "n" "main.g" = some (wsAfterN, 3, none) ∧
    wsLib.Units.length = 2 ∧ wsAfterN.Units.length = 4 ∧
    wsAfterN.Units.take 2 = wsLib.Units ∧
    (wsAfterN.Units[2]?).map (fun u => u.Name) = some "lib" ∧
    mapGet wsAfterN.UnitNames "lib" = some 2 := by
  refine ⟨by decide, by decide, by decide, by decide, by decide, by decide⟩

/-- C3 (amended): for every successful `Compile` call the new unit is appended at the
end of `ws.Units`: the returned `unitID` equals `len(ws.Units)-1` after the
call, `ws.Units[unitID].Index == unitID`, all entries the workspace had before
the call are unchanged, and `ws.UnitNames[unit.Name] == unitID`, also when the
name was registered before. When no callback compiles another unit, exactly
one unit is appended and every other name keeps its index. The callbacks are
taken to add to the objects and units only. -/
theorem Compile_success_appends (E : Env) (hE : EnvAppends E) (fuel : Nat) (ws : Workspace)
    (input path : String) (ws1 : Workspace) (id : Int)
    (h : Compile E fuel ws input path = some (ws1, id, none)) :
    ∃ (before : List Unit) (u : Unit), ws1.Units = before ++ [u] ∧
      (∃ ext, before = ws.Units ++ ext) ∧
      id = (ws1.Units.length : Int) - 1 ∧
      ws1.Units[id.toNat]? = some u ∧ (u.Index : Int) = id ∧
      mapGet ws1.UnitNames u.Name = some id ∧
      (∀ j, j < ws.Units.length → ws1.Units[j]? = ws.Units[j]?) ∧
      (EnvKeepsUnits E → before = ws.Units ∧
        ∀ n, n ≠ u.Name → mapGet ws1.UnitNames n = mapGet ws.UnitNames n) := by
  obtain ⟨stdlib, cs, _, hcs, hcase⟩ := Compile_cases E grows grows_refl grows_trans
    hE.1 hE.2.1 (fun _ _ hg _ _ => hg) fuel ws input path ws1 id none h
  have hws : cs.1.ws = ws := by
    rw [hcs, hE.2.2]
    rfl
  rcases hcase with ⟨_, _, _, _, h3⟩ | ⟨_, _, _, _, _, h3⟩ | ⟨c, hR, h1, h2, _⟩
  · cases h3
  · cases h3
  · rw [hws] at hR
    obtain ⟨u, hu1, hu2, hu3, hu4, _, _⟩ := commit_spec c path
    obtain ⟨_, ⟨ext, hext⟩⟩ := hR
    have hid : id = (c.ws.Units.length : Int) := by rw [h2, hu2]
    have hunits : ws1.Units = c.ws.Units ++ [u] := by rw [h1, hu1]
    refine ⟨c.ws.Units, u, hunits, ⟨ext, hext⟩, ?_, ?_, ?_, ?_, ?_, ?_⟩
    · rw [hunits, hid]
      simp
    · rw [hunits, hid]
      simp
    · rw [hid, hu3]
    · rw [h1, hu4, hid]
      exact mapGet_mapSet_self _ _ _
    · intro j hj
      rw [hunits, hext, List.append_assoc, List.getElem?_append_left hj]
    · intro hK
      obtain ⟨stdlib2, cs2, _, hcs2, hcase2⟩ := Compile_cases E
        (fun a b => b.Units = a.Units ∧ b.UnitNames = a.UnitNames)
        (fun _ => ⟨rfl, rfl⟩)
        (fun a b c hab hbc => ⟨by rw [hbc.1, hab.1], by rw [hbc.2, hab.2]⟩)
        hK.1 hK.2 (fun _ _ _ h1 h2 => ⟨h1, h2⟩) fuel ws input path ws1 id none h
      have hws2 : cs2.1.ws = ws := by
        rw [hcs2, hE.2.2]
        rfl
      rcases hcase2 with ⟨_, _, _, _, h3⟩ | ⟨_, _, _, _, _, h3⟩ | ⟨c2, hR2, h12, h22, _⟩
      · cases h3
      · cases h3
      · rw [hws2] at hR2
        obtain ⟨u2, hv1, hv2, _, hv4, _, _⟩ := commit_spec c2 path
        have hunits2 : ws1.Units = ws.Units ++ [u2] := by rw [h12, hv1, hR2.1]
        have heq : c.ws.Units ++ [u] = ws.Units ++ [u2] := by rw [← hunits, hunits2]
        have hinj := List.append_inj' heq rfl
        have huu : u = u2 := by
          have := hinj.2
          simp only [List.cons.injEq, and_true] at this
          exact this
        refine ⟨hinj.1, ?_⟩
        intro n hn
        rw [h12, hv4, hR2.2, mapGet_mapSet_ne _ _ _ _ (by rw [← huu]; exact hn)]

/-- The source `a` compiled into `wsLib` at the path `main.g`: unit 2 is
appended after the two units of the workspace. -/
theorem Compile_success_appends_witness :
    Compile E1 10 wsLib "a" "main.g" = some (wsAfterA, 2, none) ∧
    ∃ u : Unit, wsAfterA.Units = wsLib.Units ++ [u] ∧ (u.Index : Int) = 2 ∧
      mapGet wsAfterA.UnitNames u.Name = some 2 := by
  have h : Compile E1 10 wsLib "a" "main.g" = some (wsAfterA, 2, none) := by decide
  obtain ⟨before, u, h1, _, _, _, h5, h6, _, h8⟩ :=
    Compile_success_appends E1 E1_appends 10 wsLib "a" "main.g" wsAfterA 2 h
  obtain ⟨hb, _⟩ := h8 E1_keeps
  rw [hb] at h1
  exact ⟨h, u, h1, h5, h6⟩

/-- C4 (as the code has it): the source `a`, which declares no entry function
and no name, compiled at the path `main.g`: the unit is registered under the
empty name, and the path `main.g` is no key of `UnitNames`. -/
theorem Compile_no_run_no_path :
    Compile E0 10 wsLib "a" "main.g" = some (wsAfterA, 2, none) ∧
    mapGet wsAfterA.UnitNames "main.g" = none ∧
    mapGet wsAfterA.UnitNames "" = some 2 ∧
    (wsAfterA.Units[2]?).map (fun u => u.Name) = some "" := by
  refine ⟨by decide, by decide, by decide, by decide⟩

/-- C4 (amended): for every successful `Compile(ws, input, path)`, with `c`
the state of the compiler at the end of the main loop and `u` the unit
appended: if the unit declares an entry function (`runID` is not `Undefined`)
and its source gave it no name, then `u.Name == path` and `ws.UnitNames[path]`
is the returned index; if it declares no entry function, the name is left as
the source gave it, and the unit is registered under that name. -/
theorem Compile_unit_name (E : Env) (fuel : Nat) (ws : Workspace) (input path : String)
    (ws1 : Workspace) (id : Int)
    (h : Compile E fuel ws input path = some (ws1, id, none)) :
    ∃ (stdlib : Unit) (c : compiler) (i : Int) (s : Nat) (u : Unit),
      ws.StdLib = some stdlib ∧
      mainLoop E fuel (E.copyNameSpace
        (newCompiler E.K ws { (E.LexParsing input.data).1 with Path := path })
        stdlib true).1 0 E.K.cmMain = some (.goOn c i s) ∧
      ws1.Units = c.ws.Units ++ [u] ∧
      mapGet ws1.UnitNames u.Name = some id ∧
      (c.runID ≠ Undefined → c.unit.Name.length = 0 →
        u.Name = path ∧ mapGet ws1.UnitNames path = some id) ∧
      (c.runID = Undefined → u.Name = c.unit.Name) := by
  obtain ⟨stdlib, c, i, s, hs, hm, _, h1, h2⟩ := Compile_success E fuel ws input path ws1 id h
  obtain ⟨u, hu1, hu2, _, hu4, _, hu6⟩ := commit_spec c path
  have hname : mapGet ws1.UnitNames u.Name = some id := by
    rw [h1, hu4, h2, hu2]
    exact mapGet_mapSet_self _ _ _
  refine ⟨stdlib, c, i, s, u, hs, hm, by rw [h1, hu1], hname, ?_, ?_⟩
  · intro hr hn
    have hp : u.Name = path := by
      rw [hu6, if_pos hr, if_pos hn]
    rw [hp] at hname
    exact ⟨hp, hname⟩
  · intro hr
    rw [hu6, if_neg (not_not.2 hr)]

/-- The source `r`, which declares the entry function, compiled at the path
`main.g`: the unit appended is named `main.g` and registered under it. -/
theorem Compile_unit_name_witness :
    Compile E0 10 wsLib "r" "main.g" = some (wsAfterR, 2, none) ∧
    (∃ (stdlib : Unit) (c : compiler) (i : Int) (s : Nat) (u : Unit),
      wsLib.StdLib = some stdlib ∧
      mainLoop E0 10 (E0.copyNameSpace
        (newCompiler E0.K wsLib { (E0.LexParsing "r".data).1 with Path := "main.g" })
        stdlib true).1 0 E0.K.cmMain = some (.goOn c i s) ∧
      wsAfterR.Units = c.ws.Units ++ [u] ∧
      mapGet wsAfterR.UnitNames u.Name = some 2 ∧
      (c.runID ≠ Undefined → c.unit.Name.length = 0 →
        u.Name = "main.g" ∧ mapGet wsAfterR.UnitNames "main.g" = some 2) ∧
      (c.runID = Undefined → u.Name = c.unit.Name)) ∧
    mapGet wsAfterR.UnitNames "main.g" = some 2 ∧
    (wsAfterR.Units[2]?).map (fun u => u.Name) = some "main.g" :=
  have h : Compile E0 10 wsLib "r" "main.g" = some (wsAfterR, 2, none) := by decide
  ⟨h, Compile_unit_name E0 10 wsLib "r" "main.g" wsAfterR 2 h, by decide, by decide⟩

/-! ### C21: a second colon on the same line -/

/-- C21: after a successful `colonToLine(i)`, which placed its close brace at
the index `end` that `endColon` now holds, every call `colonToLine(j)` with
`j < end` returns the double-colon error positioned at `j` and leaves the
whole state, so the token list and `endColon`, unchanged. -/
theorem colonToLine_double_colon (K : Consts) (cmpl c1 : compiler) (i : Int)
    (h : colonToLine K cmpl i = some (c1, none)) :
    (∃ (e a : Nat), c1.endColon = (e : Int) ∧
      c1.unit.Lexeme.Tokens[e]? = some { Type_ := K.tkRCurly, Offset := a, Length := 1 }) ∧
    ∀ j : Int, j < c1.endColon →
      colonToLine K c1 j = some (c1, some (ErrorPos j K.ErrDoubleColon [])) := by
  constructor
  · unfold colonToLine at h
    split at h
    · simp at h
    · split at h
      · cases h
      · simp only at h
        split at h
        · cases h
        · rename_i t ht
          split at h
          · cases h
          · rename_i e he
            split at h
            · cases h
            · rename_i a ha
              simp only [Option.some.injEq, Prod.mk.injEq, and_true] at h
              have hle : e ≤ (cmpl.unit.Lexeme.Tokens.set i.toNat
                  { t with Type_ := K.tkLCurly }).length := by
                by_cases hlast : e = (cmpl.unit.Lexeme.Tokens.set i.toNat
                    { t with Type_ := K.tkLCurly }).length
                · exact le_of_eq hlast
                · rw [if_neg hlast] at ha
                  rcases Nat.lt_or_ge e (cmpl.unit.Lexeme.Tokens.set i.toNat
                      { t with Type_ := K.tkLCurly }).length with hlt | hge
                  · exact le_of_lt hlt
                  · rw [List.getElem?_eq_none hge] at ha; cases ha
              obtain ⟨_, _, s3, _⟩ := splice_spec
                (cmpl.unit.Lexeme.Tokens.set i.toNat { t with Type_ := K.tkLCurly }) e
                { Type_ := K.tkRCurly, Offset := a.Offset, Length := 1 } hle
              refine ⟨e, a.Offset, ?_, ?_⟩
              · rw [← h]
              · rw [← h]
                exact s3
  · intro j hj
    unfold colonToLine
    rw [if_pos hj]

/-- The colon of `if a : b` (token 2) puts the close brace at index 4; a
second colon at index 3 is then refused. -/
theorem colonToLine_double_colon_witness :
    colonToLine K0 colonState 2 = some (colonDone, none) ∧
    colonToLine K0 colonDone 3 = some (colonDone, some (ErrorPos 3 K0.ErrDoubleColon [])) :=
  have h : colonToLine K0 colonState 2 = some (colonDone, none) := by decide
  ⟨h, (colonToLine_double_colon K0 colonState colonDone 2 h).2 3 (by decide)⟩

/-! ### C30: equality of types is not transitive -/

/-- C30: `isEqualTypes` is not transitive: with `a` the array of `int`
(object 2), `b` an array with an absent element type (object 4) and `c` the
array of `str` (object 3), `isEqualTypes(a, b)` and `isEqualTypes(b, c)`
return true while `isEqualTypes(a, c)` returns false, and not true. -/
theorem isEqualTypes_not_transitive :
    EqualTypes typeObjs (some 2) (some 4) true ∧
    EqualTypes typeObjs (some 4) (some 3) true ∧
    EqualTypes typeObjs (some 2) (some 3) false ∧
    ¬ EqualTypes typeObjs (some 2) (some 3) true := by
  have hf : EqualTypes typeObjs (some 2) (some 3) false := ⟨2, by decide⟩
  refine ⟨⟨1, by decide⟩, ⟨1, by decide⟩, hf, ?_⟩
  intro ht
  exact absurd (EqualTypes_unique typeObjs _ _ _ _ ht hf) (by decide)

/-! ### C26, C27: integers of the virtual machine -/

/-- C26: for every `*ptr` and `value`, `AssignDivºIntInt` and
`AssignModºIntInt` return an error exactly when `value == 0`,
`AssignLShiftºIntInt` and `AssignRShiftºIntInt` return an error exactly when
`value < 0`; every such error (the division-by-zero error, the shift error)
is returned with the result 0 and leaves `*ptr` unchanged, and in every
non-error case the value returned equals the new `*ptr`. -/
theorem Assign_errors (E : VmErrors) (ptr value : Int) :
    (((AssignDivIntInt E ptr value).2.2 ≠ none ↔ value = 0) ∧
      ((AssignModIntInt E ptr value).2.2 ≠ none ↔ value = 0) ∧
      ((AssignLShiftIntInt E ptr value).2.2 ≠ none ↔ value < 0) ∧
      ((AssignRShiftIntInt E ptr value).2.2 ≠ none ↔ value < 0)) ∧
    (value = 0 →
      AssignDivIntInt E ptr value = (ptr, 0, some E.ErrDivZero) ∧
      AssignModIntInt E ptr value = (ptr, 0, some E.ErrDivZero)) ∧
    (value < 0 →
      AssignLShiftIntInt E ptr value = (ptr, 0, some E.ErrShift) ∧
      AssignRShiftIntInt E ptr value = (ptr, 0, some E.ErrShift)) ∧
    (value ≠ 0 →
      (AssignDivIntInt E ptr value).2.1 = (AssignDivIntInt E ptr value).1 ∧
      (AssignModIntInt E ptr value).2.1 = (AssignModIntInt E ptr value).1) ∧
    (¬ value < 0 →
      (AssignLShiftIntInt E ptr value).2.1 = (AssignLShiftIntInt E ptr value).1 ∧
      (AssignRShiftIntInt E ptr value).2.1 = (AssignRShiftIntInt E ptr value).1) := by
  refine ⟨⟨?_, ?_, ?_, ?_⟩, ?_, ?_, ?_, ?_⟩
  · by_cases h : value = 0 <;> simp [AssignDivIntInt, h]
  · by_cases h : value = 0 <;> simp [AssignModIntInt, h]
  · by_cases h : value < 0 <;> simp [AssignLShiftIntInt, h]
  · by_cases h : value < 0 <;> simp [AssignRShiftIntInt, h]
  · intro h
    simp [AssignDivIntInt, AssignModIntInt, h]
  · intro h
    simp [AssignLShiftIntInt, AssignRShiftIntInt, h]
  · intro h
    simp [AssignDivIntInt, AssignModIntInt, h]
  · intro h
    simp [AssignLShiftIntInt, AssignRShiftIntInt, h]

/-- For every `int64` `x` other than the least one, `AbsºInt(x)` is the
absolute value of `x`: it is non-negative, an `int64`, and equals `x`
when `x >= 0` and `-x` when `x < 0`. -/
theorem AbsInt_abs (x : Int) (hx : isInt64 x) (hmin : x ≠ -2 ^ 63) :
    AbsInt x = |x| ∧ 0 ≤ AbsInt x ∧ isInt64 (AbsInt x) ∧
    (0 ≤ x → AbsInt x = x) ∧ (x < 0 → AbsInt x = -x) := by
  obtain ⟨h1, h2⟩ := hx
  have hneg : x < 0 → AbsInt x = -x := by
    intro h
    simp only [AbsInt, h, if_true, wrap64]
    have : (-x + 2 ^ 63) % 2 ^ 64 = -x + 2 ^ 63 := by
      apply Int.emod_eq_of_lt <;> omega
    rw [this]
    omega
  have hpos : 0 ≤ x → AbsInt x = x := by
    intro h
    simp only [AbsInt, not_lt.2 h, if_false]
  by_cases h : x < 0
  · rw [hneg h]
    refine ⟨(abs_of_neg h).symm, by omega, ⟨by omega, by omega⟩, fun h0 => by omega, fun _ => rfl⟩
  · have h0 : 0 ≤ x := not_lt.1 h
    rw [hpos h0]
    exact ⟨(abs_of_nonneg h0).symm, h0, ⟨h1, h2⟩, fun _ => rfl, fun hn => absurd hn h⟩

/-- The values -5 and 7. -/
theorem AbsInt_abs_witness : AbsInt (-5) = |(-5 : Int)| ∧ AbsInt 7 = 7 :=
  ⟨(AbsInt_abs (-5) (by decide) (by decide)).1,
   (AbsInt_abs 7 (by decide) (by decide)).2.2.2.1 (by decide)⟩

/-- C27 (failing input): for the least `int64`, `-2^63`, the negation wraps
around and `AbsºInt` returns `-2^63` itself: the result is negative, it is
neither the absolute value of the input nor its negation `2^63`; for every
other `int64` the result is the absolute value. -/
theorem AbsInt_least :
    isInt64 (-2 ^ 63) ∧ AbsInt (-2 ^ 63) = -2 ^ 63 ∧ AbsInt (-2 ^ 63) < 0 ∧
    AbsInt (-2 ^ 63) ≠ |(-2 ^ 63 : Int)| ∧ AbsInt (-2 ^ 63) ≠ -(-2 ^ 63 : Int) ∧
    ∀ x : Int, isInt64 x → x ≠ -2 ^ 63 → AbsInt x = |x| ∧ 0 ≤ AbsInt x := by
  refine ⟨by decide, by decide, by decide, by decide, by decide, ?_⟩
  intro x hx hmin
  obtain ⟨h1, h2, _⟩ := AbsInt_abs x hx hmin
  exact ⟨h1, h2⟩

/-! ### C28: the priority of operators -/

/-- C28: in the table `priority` the priority of multiplication, division and
modulo is strictly greater than the priority of addition and subtraction;
every assignment operator is flagged right-to-left with the one priority 5;
and the binary arithmetic, shift, bitwise, comparison and logical operators
are flagged left-to-right. -/
theorem priority_groups :
    (∀ m, m ∈ [Tk.tkMul, Tk.tkDiv, Tk.tkMod] → ∀ a, a ∈ [Tk.tkAdd, Tk.tkSub] →
      ∃ pm pa, priorityOf (binary m) = some pm ∧ priorityOf (binary a) = some pa ∧
        pa.Priority < pm.Priority) ∧
    (∀ t, t ∈ assignOps →
      ∃ p, priorityOf (binary t) = some p ∧ p.RightLeft = true ∧ p.Priority = 5) ∧
    (∀ t, t ∈ leftOps → ∃ p, priorityOf (binary t) = some p ∧ p.RightLeft = false) := by
  refine ⟨?_, ?_, ?_⟩
  · intro m hm a ha
    simp only [List.mem_cons, List.mem_singleton, List.not_mem_nil, or_false] at hm ha
    rcases hm with rfl | rfl | rfl <;> rcases ha with rfl | rfl <;>
      exact ⟨_, _, rfl, rfl, by decide⟩
  · intro t ht
    simp only [assignOps, List.mem_cons, List.mem_singleton, List.not_mem_nil, or_false] at ht
    rcases ht with rfl | rfl | rfl | rfl | rfl | rfl | rfl | rfl | rfl | rfl | rfl <;>
      exact ⟨_, rfl, rfl, rfl⟩
  · intro t ht
    simp only [leftOps, List.mem_cons, List.mem_singleton, List.not_mem_nil, or_false] at ht
    rcases ht with rfl | rfl | rfl | rfl | rfl | rfl | rfl | rfl | rfl | rfl | rfl | rfl | rfl |
      rfl | rfl | rfl | rfl | rfl <;>
      exact ⟨_, rfl, rfl⟩

/-! ### C24: the line and the column of a token -/

/-- C24: for every `Lex` whose `Lines` table is ascending: for `ind <
len(Tokens)` with `Lines[0]` not after the token, `LineColumn(ind)` returns
the 1-based line `L` equal to the number of line starts that are `<=` the
offset of the token, and the column `offset - Lines[L-1] + 1`, which is at
least 1; for `ind == len(Tokens) > 0` it returns the line of the last token
and the column of that token plus its `Length`; for `ind > len(Tokens)`, and
for an empty token list and `ind >= 0`, it returns `(0, 0)`. -/
theorem LineColumn_spec (lp : Lex) (hs : lp.Lines.Pairwise (fun a b => a ≤ b)) :
    (∀ (ind : Nat) (tok : Token), lp.Tokens[ind]? = some tok →
      (∃ l0, lp.Lines.head? = some l0 ∧ l0 ≤ tok.Offset) →
      ∃ (L start : Nat),
        LineColumn lp (ind : Int) = some ((L : Int), (tok.Offset : Int) - (start : Int) + 1) ∧
        L = (lp.Lines.filter (fun l => decide (l ≤ tok.Offset))).length ∧ 1 ≤ L ∧
        lp.Lines[L - 1]? = some start ∧ (1 : Int) ≤ (tok.Offset : Int) - (start : Int) + 1) ∧
    (∀ tok : Token, 0 < lp.Tokens.length → lp.Tokens[lp.Tokens.length - 1]? = some tok →
      (∃ l0, lp.Lines.head? = some l0 ∧ l0 ≤ tok.Offset) →
      ∃ (L col : Int), LineColumn lp ((lp.Tokens.length - 1 : Nat) : Int) = some (L, col) ∧
        LineColumn lp (lp.Tokens.length : Int) = some (L, col + (tok.Length : Int))) ∧
    (∀ ind : Int, (lp.Tokens.length : Int) < ind → LineColumn lp ind = some (0, 0)) ∧
    (lp.Tokens = [] → ∀ ind : Int, 0 ≤ ind → LineColumn lp ind = some (0, 0)) := by
  refine ⟨?_, ?_, ?_, ?_⟩
  · intro ind tok ht h0
    obtain ⟨start, h1, hpos, hstart, hle⟩ := LineColumn_token lp ind tok ht h0
    refine ⟨_, start, h1, ?_, hpos, hstart, by omega⟩
    rw [takeWhile_sorted lp.Lines tok.Offset hs]
  · intro tok hlen ht h0
    obtain ⟨start, h1, _, hstart, _⟩ := LineColumn_token lp (lp.Tokens.length - 1) tok ht h0
    obtain ⟨start2, h2, hstart2⟩ := LineColumn_end lp tok hlen ht h0
    rw [hstart] at hstart2
    have hss : start = start2 := Option.some.inj hstart2
    subst hss
    exact ⟨_, _, h1, h2⟩
  · intro ind hind
    unfold LineColumn
    have hend : ¬ ((lp.Tokens.length : Int) = ind ∧ ind > 0) := by
      intro h; omega
    have hgt : ¬ ((lp.Tokens.length : Int) > ind) := by omega
    simp only [hend, decide_False, Bool.false_eq_true, if_false, hgt]
  · intro hnil ind hind
    unfold LineColumn
    rw [hnil]
    have hend : ¬ ((([] : List Token).length : Int) = ind ∧ ind > 0) := by
      intro h
      simp only [List.length_nil] at h
      omega
    have hgt : ¬ ((([] : List Token).length : Int) > ind) := by
      simp only [List.length_nil]
      omega
    simp only [hend, decide_False, Bool.false_eq_true, if_false, hgt]

/-- Three lines starting at the offsets 0, 5 and 9: the token at offset 6 is
at line 2, column 2; the position after the last token (offset 9, length 3)
is line 3, column 4. -/
theorem LineColumn_spec_witness :
    LineColumn lexLines 1 = some (2, 2) ∧ LineColumn lexLines 3 = some (3, 4) ∧
    LineColumn lexLines 4 = some (0, 0) := by
  have h := LineColumn_spec lexLines (by decide)
  refine ⟨by decide, by decide, h.2.2.1 4 (by decide)⟩

/-! ### C22: the unexpected end -/

/-- C22: when the main loop of `Compile` has consumed all tokens without an
error and leaves the state `c2`: if the state stack is not empty, `Compile`
fails with the unexpected-end error positioned at `len(tokens)`, and the
units of the workspace are those of before the call (no unit is appended); if
it is empty, `Compile` appends the unit; so `Compile` returns success only if
the state stack is empty. The callbacks are taken to add to the objects and
units only. -/
theorem Compile_unexpected_end (E : Env) (hE : EnvAppends E) (fuel : Nat) (ws : Workspace)
    (input path : String) (stdlib : Unit) (c1 c2 : compiler) (i : Int) (s : Nat)
    (hstd : ws.StdLib = some stdlib)
    (hcopy : E.copyNameSpace
      (newCompiler E.K ws { (E.LexParsing input.data).1 with Path := path }) stdlib true =
        (c1, none))
    (htok : c1.unit.Lexeme.Tokens.length ≠ 0) (herr : (E.LexParsing input.data).2 = 0)
    (hloop : mainLoop E fuel c1 0 E.K.cmMain = some (.goOn c2 i s)) :
    (c2.states ≠ [] →
      Compile E fuel ws input path =
        some (rollback c2.ws ws.Objects.length ws.Units.length, Undefined,
          some (ErrorPos c2.unit.Lexeme.Tokens.length E.K.ErrEnd [])) ∧
      (rollback c2.ws ws.Objects.length ws.Units.length).Units = ws.Units) ∧
    (c2.states = [] →
      Compile E fuel ws input path = some ((commit c2 path).1, (commit c2 path).2, none)) ∧
    (∀ ws1 id, Compile E fuel ws input path = some (ws1, id, none) → c2.states = []) := by
  have hnz : ¬ ((E.LexParsing input.data).2 ≠ 0) := not_not.2 herr
  have hcomp : Compile E fuel ws input path =
      if c2.states.length > 0 then
        some (rollback c2.ws ws.Objects.length ws.Units.length, Undefined,
          some (ErrorPos c2.unit.Lexeme.Tokens.length E.K.ErrEnd []))
      else some ((commit c2 path).1, (commit c2 path).2, none) := by
    unfold Compile
    simp only [hstd, hcopy, htok, if_false, hnz, hloop]
  have hgrow : grows ws c2.ws := by
    have h1 : c1.ws = ws := by
      have := hE.2.2 (newCompiler E.K ws { (E.LexParsing input.data).1 with Path := path })
        stdlib true
      rw [hcopy] at this
      exact this
    have h2 := mainLoop_inv E grows grows_refl grows_trans hE.1 hE.2.1
      (fun _ _ hg _ _ => hg) fuel c1 0 _ _ hloop
    rw [h1] at h2
    exact h2
  refine ⟨?_, ?_, ?_⟩
  · intro hne
    have hpos : c2.states.length > 0 := List.length_pos.2 hne
    rw [hcomp, if_pos hpos]
    exact ⟨rfl, (rollback_grown ws c2.ws hgrow).2⟩
  · intro hnil
    rw [hcomp, hnil]
    simp
  · intro ws1 id hsucc
    by_contra hne
    have hpos : c2.states.length > 0 := List.length_pos.2 hne
    rw [hcomp, if_pos hpos] at hsucc
    simp at hsucc

/-- The source `p`, whose only token enters a state that nothing closes: the
compilation fails with the unexpected-end error at position 1 and the
workspace is as before. -/
theorem Compile_unexpected_end_witness :
    Compile E2 10 wsLib "p" "main.g" = some (wsLib, Undefined, some (ErrorPos 1 K0.ErrEnd [])) :=
  have h := (Compile_unexpected_end E2 E0_appends 10 wsLib "p" "main.g"
    { InitUnit with Name := "stdlib" } beforeP afterP 1 7
    (by decide) rfl (by decide) rfl (by decide)).1 (by decide)
  h.1.trans (by decide)

/-! ### C25, C29: the flags of the command line -/

/-- C25: for every command line and every flag that is not empty and not
made only of dashes (a missing leading dash is added): if the first argument,
scanning left to right and stopping at a lone `-`, that starts with the flag
and is exactly the flag or continues with `=` or `:` has the form `flag=val`
or `flag:val`, then an empty `val` gives `found = true` with no values; a
`val` enclosed in a pair of equal quotes gives `found = true` with the single
value between the quotes; a `val` that does not begin and end with the same
quote gives `found = true` with the single value `val`; and a `val` that is
one lone quote character makes the slice `val[1 : len(val)-1]` fail, so that
`args` does not return. -/
theorem args_flag_value (cmdLine pre post : List GoString) (flag val : GoString) (sep : Nat)
    (hflag : ¬ (flag.length = 0 ∨ (trimDash flag).length = 0))
    (hsplit : cmdLine = pre ++ (withDash flag ++ sep :: val) :: post)
    (hsep : sep = 61 ∨ sep = 58)
    (hpre : ∀ a, a ∈ pre → a ≠ [dash] ∧ ¬ decides (withDash flag) a) :
    (val = [] → args cmdLine flag = some (true, [])) ∧
    (∀ q mid, (q = 34 ∨ q = 39) → val = q :: (mid ++ [q]) →
      args cmdLine flag = some (true, [mid])) ∧
    (val ≠ [] → (val.head? ≠ val.getLast? ∨ (val.head? ≠ some 34 ∧ val.head? ≠ some 39)) →
      args cmdLine flag = some (true, [val])) ∧
    (∀ q, (q = 34 ∨ q = 39) → val = [q] → args cmdLine flag = none) := by
  have hne : flag ≠ [] := by
    intro h
    apply hflag
    left
    rw [h]
    rfl
  have hargs : args cmdLine flag =
      if val = [] then some (true, [])
      else (unquote val).map (fun v => (true, [v])) := by
    unfold args
    rw [if_neg hflag, hsplit, argsLoop_skip_all _ pre _ hpre]
    exact argsLoop_value _ val sep post (withDash_head flag hne) hsep
  refine ⟨?_, ?_, ?_, ?_⟩
  · intro hv
    rw [hargs, if_pos hv]
  · intro q mid hq hv
    rw [hargs, hv, if_neg (by simp), unquote_quoted q mid hq]
    rfl
  · intro hv hplain
    rw [hargs, if_neg hv, unquote_plain val hplain]
    rfl
  · intro q hq hv
    rw [hargs, hv, if_neg (by simp), unquote_lone q hq]
    rfl

/-- The command line `-x -f="a b"` and the flag `f`: the value is `a b`. -/
theorem args_flag_value_witness :
    args [bytes "-x", bytes "-f=\"a b\""] (bytes "f") = some (true, [bytes "a b"]) :=
  (args_flag_value [bytes "-x", bytes "-f=\"a b\""] [bytes "-x"] [] (bytes "f")
    (bytes "\"a b\"") 61 (by decide) (by decide) (Or.inl rfl)
    (by
      intro a ha
      rw [List.mem_singleton.1 ha]
      refine ⟨by decide, ?_⟩
      intro h
      exact absurd h.1 (by decide))).2.1 34 (bytes "a b") (Or.inl rfl) (by decide)

/-- C29 (failing inputs): `args` fails to return exactly in two cases, both
with a flag that is not empty and not made of dashes only, at the first
argument that decides the lookup: the argument is exactly the flag and an
empty argument follows it before any argument that begins with a dash (the
read `cmdLine[k][0]` is out of range), or the argument is the flag, `=` or
`:`, and one lone quote character (the slice `val[1 : len(val)-1]` has the
bounds `1 : 0`). The access `arg[lenf]` is always within bounds. The command
lines `-f` followed by an empty argument, and `-f="`, are such inputs. -/
theorem args_out_of_range (cmdLine : List GoString) (flag : GoString) :
    (args cmdLine flag = none ↔
      ¬ (flag.length = 0 ∨ (trimDash flag).length = 0) ∧ failsIn (withDash flag) cmdLine) ∧
    args [bytes "-f", []] (bytes "f") = none ∧
    args [bytes "-f=\""] (bytes "f") = none := by
  refine ⟨?_, by decide, by decide⟩
  unfold args
  by_cases hflag : flag.length = 0 ∨ (trimDash flag).length = 0
  · rw [if_pos hflag]
    constructor
    · intro h
      simp only at h
      split at h <;> cases h
    · rintro ⟨h, _⟩
      exact absurd hflag h
  · rw [if_neg hflag, argsLoop_none_iff]
    constructor
    · intro h
      exact ⟨hflag, h⟩
    · rintro ⟨_, h⟩
      exact h

/-! ### C23: the backtracking -/

/-- C23 (failing input): at a table entry whose next state is the backtrack
state, with one frame on the state stack, saved in the state 1, whose closing
callback sets `cmpl.dynamic` (to an entry of the state 9): the frame appended
for `dynamic` is taken off at once by the statement that should pop the frame
considered, so the loop stops with the state stack as it was, not shorter,
and the machine goes to the state 9, not to the state 1 saved in the frame. -/
theorem backtrack_dynamic_keeps_frame :
    afterFunc E3 5 backOne 4 7 =
      some (.goOn { backOne with
                    dynamic := some { Token := 0, State := 9, Func := none, Callback := none,
                                      Flags := 0 } } 4 9) ∧
    backOne.states.length = 1 ∧
    backOne.states.map (fun fr => fr.State) = [1] := by
  refine ⟨by decide, by decide, by decide⟩

/-- The loop of backtracking as the code runs it, at a table entry whose next
state is the backtrack state, with callbacks that leave the state stack alone. With an empty state stack
the entry fails with the compiler error (which `Compile` hands to its
rollback). With a non-empty stack `kept ++ fr :: above` the loop returns, if
the callbacks do; the frames `above`, none of them flagged stop-back, are
popped from the top, the callback of each being run before the next frame is
considered; then the callback of `fr` is run, and either `fr` is popped, being
flagged stop-back or the last frame, the stack left is `kept`, strictly
shorter, and the machine resumes in the state saved in `fr`; or the callback
set `cmpl.dynamic`, and then `fr` stays on the stack and the machine goes to
the state of `dynamic` (on the previous token when it is flagged stay); or
the callback failed, and its error is returned. -/
theorem backtrack_outcome (E : Env) (fuel : Nat) (c : compiler) (i : Int) (s : Nat)
    (hquiet : ∀ cb c0 c1 e, E.funcs cb c0 = some (c1, e) → c1.states = c0.states)
    (hback : c.next.State = E.K.cmBack) (hnz : E.K.cmBack ≠ 0) (hdyn : c.dynamic = none) :
    (c.states = [] →
      afterFunc E fuel c i s = some (.failed c (c.Error E.K.ErrCompiler ["Compile"]))) ∧
    (c.states ≠ [] → (∀ cb c0, E.funcs cb c0 ≠ none) → c.states.length < fuel →
      ∃ r, afterFunc E fuel c i s = some r) ∧
    (c.states ≠ [] → ∀ r, afterFunc E fuel c i s = some r →
      ∃ (kept : List StateStack) (fr : StateStack) (above : List StateStack) (cm : compiler),
        c.states = kept ++ fr :: above ∧
        (∀ x, x ∈ above → stopBack E.K x = false) ∧
        popsAll E above.reverse c = some cm ∧
        ((∃ c1, frameCallback E fr cm = some (c1, none) ∧ c1.dynamic = none ∧
            r = .goOn { c1 with states := kept }
              (if hasFlag c.next.Flags E.K.cfStay = true then i - 1 else i) fr.State ∧
            kept.length < c.states.length ∧
            (kept = [] ∨ stopBack E.K fr = true)) ∨
         (∃ c1 d, frameCallback E fr cm = some (c1, none) ∧ c1.dynamic = some d ∧
            r = .goOn { c1 with states := kept ++ [fr] }
              (if hasFlag d.Flags E.K.cfStay = true then
                (if hasFlag c.next.Flags E.K.cfStay = true then i - 1 else i) - 1
               else (if hasFlag c.next.Flags E.K.cfStay = true then i - 1 else i)) d.State) ∨
         (∃ c1 err, frameCallback E fr cm = some (c1, some err) ∧ r = .failed c1 err))) := by
  have hafter : c.states ≠ [] → afterFunc E fuel c i s =
      backLoop E fuel c (if hasFlag c.next.Flags E.K.cfStay = true then i - 1 else i) s := by
    intro hne
    unfold afterFunc
    have hlen : ¬ c.states.length = 0 := fun h => hne (List.length_eq_zero.1 h)
    simp only [hback, hnz, if_false, if_true, hlen]
  refine ⟨?_, ?_, ?_⟩
  · intro hnil
    unfold afterFunc
    simp only [hback, hnz, if_false, if_true, hnil, List.length_nil]
  · intro hne hret hlen
    rw [hafter hne]
    exact backLoop_returns E hquiet hret fuel c _ s hlen
  · intro hne r h
    rw [hafter hne] at h
    obtain ⟨kept, fr, above, cm, h1, h2, h3, h4⟩ :=
      backLoop_outcome E hquiet fuel c _ s r hdyn hne h
    refine ⟨kept, fr, above, cm, h1, h2, h3, ?_⟩
    rcases h4 with ⟨c1, a1, a2, a3, a4⟩ | h4 | h4
    · left
      refine ⟨c1, a1, a2, a3, ?_, a4⟩
      rw [h1]
      simp only [List.length_append, List.length_cons]
      omega
    · exact Or.inr (Or.inl h4)
    · exact Or.inr (Or.inr h4)

/-- Three frames saved in the states 1, 2 and 3, the middle one flagged
stop-back: the two upper frames are popped and the machine resumes in the
state 2. -/
theorem backtrack_outcome_witness :
    (∃ r, afterFunc E3 5 backThree 4 7 = some r) ∧
    afterFunc E3 5 backThree 4 7 =
      some (.goOn { backThree with states := backThree.states.take 1 } 4 2) :=
  ⟨(backtrack_outcome E3 5 backThree 4 7 E3_quiet rfl (by decide) rfl).2.1
    (by decide) E3_returns (by decide), by decide⟩

/-! ### C31: declaration followed by lookup -/

/-- C31: for every compiler state and token on which `coVarToken(token)`
succeeds, an immediately following `findVar(token)` returns the current owner
block together with the index `len(Vars)-1`; the type that
`CmdVar.GetResult` reads at that index of the block is the current type
`curType`; and `findVar` of every other name returns what it returned before
the declaration. -/
theorem declare_then_findVar (K : Consts) (cmpl c1 : compiler) (token : String)
    (h : coVarToken K cmpl token = some (c1, none)) :
    (∃ (p : Nat) (block1 : CmdBlock), curOwner c1 = some p ∧ curOwner cmpl = some p ∧
      c1.blocks[p]? = some block1 ∧ 1 ≤ block1.Vars.length ∧
      findVar c1 token = some (some p, block1.Vars.length - 1) ∧
      (∀ tokenID, CmdVarGetResult c1.blocks (.var tokenID p (block1.Vars.length - 1)) =
        some c1.curType) ∧
      c1.curType = cmpl.curType) ∧
    (∀ other, other ≠ token → findVar c1 other = findVar cmpl other) := by
  obtain ⟨p, block, hp, hb, _, hc1⟩ := coVarToken_success K cmpl c1 token h
  have hlt : p < cmpl.blocks.length := by
    rcases Nat.lt_or_ge p cmpl.blocks.length with h | h
    · exact h
    · rw [List.getElem?_eq_none h] at hb; cases hb
  have hown : curOwner c1 = some p := by rw [hc1]; exact hp
  have hself : c1.blocks[p]? = some { block with
      VarNames := mapSet block.VarNames token block.Vars.length,
      Optional := (if cmpl.curOptional = true then
        mapSet block.Optional token block.Vars.length else block.Optional),
      Vars := block.Vars ++ [cmpl.curType] } := by
    rw [hc1]
    simp only [List.getElem?_set_self hlt]
  have hlen : c1.blocks.length = cmpl.blocks.length := by
    rw [hc1]
    simp only [List.length_set]
  have hcur : c1.curType = cmpl.curType := by rw [hc1]
  constructor
  · refine ⟨p, _, hown, hp, hself, by simp, ?_, ?_, hcur⟩
    · obtain ⟨n, hn⟩ : ∃ n, cmpl.blocks.length = n + 1 := ⟨cmpl.blocks.length - 1, by omega⟩
      simp only [findVar, hown, hlen, hn, findVarFrom, hself, mapGet_mapSet_self,
        List.length_append, List.length_singleton, Nat.add_sub_cancel]
    · intro tokenID
      simp only [CmdVarGetResult, hself, List.length_append, List.length_singleton,
        Nat.add_sub_cancel, hcur]
      rw [List.getElem?_append_right (le_refl _)]
      simp
  · intro other hne
    simp only [findVar, hown, hp, hlen]
    rw [hc1]
    exact findVarFrom_other cmpl.blocks p block
      { block with
        VarNames := mapSet block.VarNames token block.Vars.length,
        Optional := (if cmpl.curOptional = true then
          mapSet block.Optional token block.Vars.length else block.Optional),
        Vars := block.Vars ++ [cmpl.curType] }
      token other hne hb rfl rfl cmpl.blocks.length (some p)

/-- The declaration of `x` in the block of a function, then its lookup: block
0, slot 0, of the current type; the lookup of `y` is as before. -/
theorem declare_then_findVar_witness :
    coVarToken K0 inFunc "x" = some (declaredX, none) ∧
    findVar declaredX "x" = some (some 0, 0) ∧
    CmdVarGetResult declaredX.blocks (.var 0 0 0) = some inFunc.curType ∧
    findVar declaredX "y" = findVar inFunc "y" := by
  have h : coVarToken K0 inFunc "x" = some (declaredX, none) := by decide
  obtain ⟨⟨p, block1, h1, _, h3, _, h5, h6, h7⟩, hother⟩ :=
    declare_then_findVar K0 inFunc declaredX "x" h
  have hp : p = 0 := by
    have : curOwner declaredX = some 0 := by decide
    rw [h1] at this
    exact Option.some.inj this
  subst hp
  have hb : declaredX.blocks[0]? =
      some { mkBlock 1 none with VarNames := [("x", 0)], Vars := [none] } := by decide
  rw [hb] at h3
  have hb1 := Option.some.inj h3
  subst hb1
  refine ⟨h, h5, ?_, hother "y" (by decide)⟩
  rw [← h7]
  exact h6 0

end Gentee
